import Mathlib

/-!
Verification of near-optimal-election: exact arithmetic, max-deque and
function generator.

A shallow embedding of `src/lib/sq2.hpp`, `src/lib/frac.hpp`,
`src/lib/max_deque.hpp` and `src/lib/func.hpp`.

Conventions of the embedding:

* `long long` and `int` values are modelled by `Int`, `size_t` indices by
  `Nat`.  Signed arithmetic that overflows is undefined in the source: the
  operations are those of the integers, which is what the source computes
  whenever no operation overflows.  The conversion from `long long` to `int`
  at the return of `maxallowed` is modelled (`narrowInt`), and so is the norm
  of a `sq2` divisor as the machine computes it (`sq2.normLL`).
* C++ `/` and `%` on integers truncate toward zero: they are `Int.tdiv` and
  `Int.tmod`.  A division whose divisor is zero is a fault: the operation
  returns `none`.
* Reading `front()`/`back()` of an empty container, or a vector element out of
  range, is a fault as well (`none`).
* `std::deque` and `std::vector` are lists, front of the container first.
-/

/-! ## sq2.hpp -/

/-- Numeric type representing values of the form `a + √2 b` (`class sq2`). -/
structure sq2 where
  a : Int
  b : Int
deriving DecidableEq, Repr

namespace sq2

/-- The converting constructor `sq2(long long na)`. -/
def ofInt (na : Int) : sq2 := ⟨na, 0⟩

/-- The method `sq2::compare`.  The source returns the integer below converted
to `double`; the conversion keeps the sign, which is all the callers use. -/
def compare (x o : sq2) : Int :=
  if x.a > o.a ∧ x.b > o.b then 1
  else if x.a < o.a ∧ x.b < o.b then -1
  else if x.a ≥ o.a ∧ x.b ≤ o.b then
    (x.a - o.a) * (x.a - o.a) - 2 * (o.b - x.b) * (o.b - x.b)
  else 2 * (x.b - o.b) * (x.b - o.b) - (o.a - x.a) * (o.a - x.a)

/-- The operator `<` on `sq2`. -/
def lt (x y : sq2) : Bool := decide (x.compare y < 0)

/-- The operator `<=` on `sq2`. -/
def le (x y : sq2) : Bool := decide (x.compare y ≤ 0)

/-- The operator `>` on `sq2`. -/
def gt (x y : sq2) : Bool := decide (x.compare y > 0)

/-- The operator `>=` on `sq2`. -/
def ge (x y : sq2) : Bool := decide (x.compare y ≥ 0)

/-- The operator `==` on `sq2`. -/
def beq (x y : sq2) : Bool := decide (x.compare y = 0)

/-- The operator `!=` on `sq2`. -/
def bne (x y : sq2) : Bool := decide (x.compare y ≠ 0)

/-- The binary operator `+` on `sq2`. -/
def add (x y : sq2) : sq2 := ⟨x.a + y.a, x.b + y.b⟩

/-- The binary operator `-` on `sq2`. -/
def sub (x y : sq2) : sq2 := ⟨x.a - y.a, x.b - y.b⟩

/-- The binary operator `*` on `sq2`. -/
def mul (x y : sq2) : sq2 := ⟨x.a * y.a + 2 * x.b * y.b, x.b * y.a + x.a * y.b⟩

/-- The call `std::max(x, y)` on `sq2`: `(x < y) ? y : x`. -/
def max (x y : sq2) : sq2 := if x.lt y then y else x

/-- The compound operator `*=` on `sq2`: the new value of the object, which is
also the value returned.  The second assignment reads the field `a` already
overwritten by the first:
`a = a * o.a + 2 * b * o.b; b = b * o.a + a * o.b;`. -/
def mulAssign (x o : sq2) : sq2 :=
  ⟨x.a * o.a + 2 * x.b * o.b, x.b * o.a + (x.a * o.a + 2 * x.b * o.b) * o.b⟩

/-- The norm `q = c*c - 2*d*d` that the division operators compute for the
divisor, over the integers: what the source computes when no product
overflows (`sq2.normLL` is the norm in `long long` arithmetic). -/
def norm (y : sq2) : Int := y.a * y.a - 2 * y.b * y.b

/-- The binary operator `/` on `sq2`, over the integers: what the source
computes when no operation overflows (`sq2.divLL` is the operator in
`long long` arithmetic); a zero norm is a division by zero. -/
def div (x y : sq2) : Option sq2 :=
  if y.norm = 0 then none
  else some ⟨(x.a * y.a - 2 * x.b * y.b).tdiv y.norm, (x.b * y.a - x.a * y.b).tdiv y.norm⟩

/-- The compound operator `/=` on `sq2`: the new value of the object, which is
also the value returned.  The second assignment reads the field `a` already
overwritten by the first. -/
def divAssign (x o : sq2) : Option sq2 :=
  if o.norm = 0 then none
  else some ⟨(x.a * o.a - 2 * x.b * o.b).tdiv o.norm,
    (x.b * o.a - (x.a * o.a - 2 * x.b * o.b).tdiv o.norm * o.b).tdiv o.norm⟩

end sq2

/-- The constant `S`, the exact `√2`. -/
def S : sq2 := ⟨0, 1⟩

/-- The value a `long long` computation takes when it overflows in a build
that wraps around (two's complement): the value of the same residue modulo
`2^64 = 18446744073709551616` in `[-2^63, 2^63)`, where
`2^63 = 9223372036854775808`.  Signed overflow is undefined in the source. -/
def wrapLL (v : Int) : Int :=
  (v + 9223372036854775808) % 18446744073709551616 - 9223372036854775808

namespace sq2

/-- The norm `q = c*c - 2*d*d` as `operator/` computes it in `long long`: each
product and the difference wrap around. -/
def normLL (y : sq2) : Int :=
  wrapLL (wrapLL (y.a * y.a) - wrapLL (wrapLL (2 * y.b) * y.b))

/-- The first dividend `x.a * y.a - 2 * x.b * y.b` of `operator/`, computed in
`long long`. -/
def numALL (x y : sq2) : Int :=
  wrapLL (wrapLL (x.a * y.a) - wrapLL (wrapLL (2 * x.b) * y.b))

/-- The second dividend `x.b * y.a - x.a * y.b` of `operator/`, computed in
`long long`. -/
def numBLL (x y : sq2) : Int :=
  wrapLL (wrapLL (x.b * y.a) - wrapLL (x.a * y.b))

/-- The binary operator `/` on `sq2` in `long long` arithmetic.  A zero norm is
a division by zero; the quotient of the least `long long` by `-1`, which
overflows, is a fault as well. -/
def divLL (x y : sq2) : Option sq2 :=
  if y.normLL = 0 then none
  else if y.normLL = -1 ∧
      (x.numALL y = -9223372036854775808 ∨ x.numBLL y = -9223372036854775808) then none
  else some ⟨(x.numALL y).tdiv y.normLL, (x.numBLL y).tdiv y.normLL⟩

end sq2

/-! ## frac.hpp -/

/-- The loop of `GCD`, unrolled at most `fuel` times.  Each pass of the source
loop strictly decreases `y`, so `y.toNat` passes always reach the exit; with no
fuel left `y ≤ 0` holds and the source returns `x` (see `GCD_unfold`). -/
def GCDloop : Nat → Int → Int → Int
  | 0, x, _ => x
  | fuel + 1, x, y =>
    if 0 < y then
      if x.tmod y = 0 then y
      else GCDloop fuel (x.tmod y) (y.tmod (x.tmod y))
    else x

/-- The function `GCD(long long x, long long y)`:
`while (y > 0) { x %= y; if (x==0) return y; y %= x; } return x;`. -/
def GCD (x y : Int) : Int := GCDloop y.toNat x y

/-- Numeric type representing fractions (`class frac`). -/
structure frac where
  num : Int
  den : Int
deriving DecidableEq, Repr

namespace frac

/-- The private method `frac::reduce`: divides both fields by `GCD(num, den)`;
a zero `GCD` is a division by zero. -/
def reduce (f : frac) : Option frac :=
  if GCD f.num f.den = 0 then none
  else some ⟨f.num.tdiv (GCD f.num f.den), f.den.tdiv (GCD f.num f.den)⟩

/-- The constructor `frac(long long n, long long d)`. -/
def new (n d : Int) : Option frac := reduce ⟨n, d⟩

/-- The converting constructor `frac(long long n)`. -/
def ofInt (n : Int) : frac := ⟨n, 1⟩

/-- The method `frac::compare`. -/
def compare (x o : frac) : Int := x.num * o.den - o.num * x.den

/-- The operator `<` on `frac`. -/
def lt (x y : frac) : Bool := decide (x.compare y < 0)

/-- The operator `<=` on `frac`. -/
def le (x y : frac) : Bool := decide (x.compare y ≤ 0)

/-- The operator `>` on `frac`. -/
def gt (x y : frac) : Bool := decide (x.compare y > 0)

/-- The operator `>=` on `frac`. -/
def ge (x y : frac) : Bool := decide (x.compare y ≥ 0)

/-- The operator `==` on `frac`. -/
def beq (x y : frac) : Bool := decide (x.compare y = 0)

/-- The operator `!=` on `frac`. -/
def bne (x y : frac) : Bool := decide (x.compare y ≠ 0)

/-- The binary operator `+` on `frac`. -/
def add (x y : frac) : Option frac :=
  new (x.num * y.den + y.num * x.den) (x.den * y.den)

/-- The binary operator `-` on `frac`. -/
def sub (x y : frac) : Option frac :=
  new (x.num * y.den - y.num * x.den) (x.den * y.den)

/-- The binary operator `*` on `frac`. -/
def mul (x y : frac) : Option frac :=
  new (x.num * y.num) (x.den * y.den)

/-- The binary operator `/` on `frac`. -/
def div (x y : frac) : Option frac :=
  new (x.num * y.den) (x.den * y.num)

/-- The compound operator `/=` on `frac`: the new value of the object, which
is also the value returned: `num *= o.den; den *= o.num; reduce();`. -/
def divAssign (x o : frac) : Option frac :=
  reduce ⟨x.num * o.den, x.den * o.num⟩

/-- The function `floor(const frac&)`. -/
def floor (f : frac) : Option Int :=
  if f.den = 0 then none else some (f.num.tdiv f.den)

/-- The function `ceil(const frac&)`. -/
def ceil (f : frac) : Option Int :=
  if f.den = 0 then none else some ((f.num - 1).tdiv f.den + 1)

/-- The function `round(const frac&)`. -/
def round (f : frac) : Option Int :=
  if f.den = 0 then none else some ((f.num + f.den.tdiv 2).tdiv f.den)

/-- The call `std::max(x, y)` on `frac`: `(x < y) ? y : x`. -/
def max (x y : frac) : frac := if x.lt y then y else x

end frac

/-! ## max_deque.hpp -/

/-- Deque allowing constant access to its maximum element
(`class max_deque<T, C>`): the retained candidate maxima with their virtual
indices, and the virtual indices of beginning and end. -/
structure max_deque (T : Type) where
  m_data : List (T × Nat)
  m_begin : Nat
  m_end : Nat
deriving DecidableEq

namespace max_deque

variable {T : Type}

/-- The default constructor `max_deque()`. -/
def init : max_deque T := ⟨[], 0, 0⟩

/-- The method `empty()`, as written in the source: `m_end > m_begin`. -/
def empty (q : max_deque T) : Bool := decide (q.m_end > q.m_begin)

/-- The method `size()`. -/
def size (q : max_deque T) : Nat := q.m_end - q.m_begin

/-- The method `front()`: the first index in the queue. -/
def front (q : max_deque T) : Nat := q.m_begin

/-- The method `back()`: the last index in the queue. -/
def back (q : max_deque T) : Nat := q.m_end - 1

/-- The method `top()`: `m_data.front().first`. -/
def top (q : max_deque T) : Option T :=
  match q.m_data with
  | [] => none
  | p :: _ => some p.1

/-- The method `pop_front()`. -/
def pop_front (q : max_deque T) : Option (max_deque T) :=
  match q.m_data with
  | [] => none
  | p :: rest =>
    if p.2 = q.m_begin then some ⟨rest, q.m_begin + 1, q.m_end⟩
    else some ⟨p :: rest, q.m_begin + 1, q.m_end⟩

/-- The method `push_front(x)`; `--m_begin` on a `size_t` wraps around at zero.
The comparator `m_compare` is the parameter `cmp`. -/
def push_front (cmp : T → T → Bool) (q : max_deque T) (x : T) : Option (max_deque T) :=
  match q.m_data with
  | [] => none
  | p :: rest =>
    if cmp p.1 x then
      some ⟨(x, (q.m_begin + 2 ^ 64 - 1) % 2 ^ 64) :: p :: rest,
        (q.m_begin + 2 ^ 64 - 1) % 2 ^ 64, q.m_end⟩
    else some ⟨p :: rest, (q.m_begin + 2 ^ 64 - 1) % 2 ^ 64, q.m_end⟩

/-- The method `push_back(x)`: pops from the back of `m_data` while
`not m_compare(x, m_data.back().first)`, then appends `(x, m_end)`. -/
def push_back (cmp : T → T → Bool) (q : max_deque T) (x : T) : max_deque T :=
  ⟨q.m_data.rdropWhile (fun p => !cmp x p.1) ++ [(x, q.m_end)], q.m_begin, q.m_end + 1⟩

end max_deque

/-- The two operations a client applies to a `max_deque` in a run. -/
inductive DequeOp (T : Type) where
  | push_back (v : T)
  | pop_front

namespace DequeOp

variable {T : Type}

/-- The values given to `push_back` in a run, in order: the value at position
`i` is the one that received the virtual index `i`. -/
def pushed : List (DequeOp T) → List T
  | [] => []
  | push_back v :: r => v :: pushed r
  | pop_front :: r => pushed r

/-- Whether a run calls `pop_front` only while `size() > 0`, where `n` is the
size before the run. -/
def guarded : Nat → List (DequeOp T) → Bool
  | _, [] => true
  | n, push_back _ :: r => guarded (n + 1) r
  | n, pop_front :: r => decide (0 < n) && guarded (n - 1) r

end DequeOp

namespace max_deque

variable {T : Type}

/-- One operation of a run. -/
def apply (cmp : T → T → Bool) (q : max_deque T) : DequeOp T → Option (max_deque T)
  | DequeOp.push_back v => some (q.push_back cmp v)
  | DequeOp.pop_front => q.pop_front

/-- A run of operations from the state `q`. -/
def run (cmp : T → T → Bool) (q : max_deque T) : List (DequeOp T) → Option (max_deque T)
  | [] => some q
  | op :: r => (q.apply cmp op).bind (fun q1 => run cmp q1 r)

/-- The representation invariant of `max_deque` against the list `h` of all
values pushed so far: retained pairs carry the value pushed at their index,
indices increase and values decrease strictly from front to back, and every
value of the window is dominated by a retained pair at or after it. -/
def Inv [LinearOrder T] (q : max_deque T) (h : List T) : Prop :=
  q.m_end = h.length ∧ q.m_begin ≤ q.m_end ∧
  (∀ p ∈ q.m_data, q.m_begin ≤ p.2 ∧ h[p.2]? = some p.1) ∧
  q.m_data.Pairwise (fun p1 p2 => p1.2 < p2.2 ∧ p2.1 < p1.1) ∧
  (∀ j v, q.m_begin ≤ j → h[j]? = some v → ∃ p ∈ q.m_data, j ≤ p.2 ∧ v ≤ p.1)

end max_deque

/-- The three operations a client applies to a `max_deque` in a run that also
pushes at the front. -/
inductive WindowOp (T : Type) where
  | push_back (v : T)
  | pop_front
  | push_front (v : T)

namespace WindowOp

variable {T : Type}

/-- Whether a run calls `pop_front` only on a non-empty window and
`push_front` only on a non-empty window with `front() > 0`, where `b` and `e`
are `m_begin` and `m_end` before the run. -/
def guarded : Nat → Nat → List (WindowOp T) → Bool
  | _, _, [] => true
  | b, e, push_back _ :: r => guarded b (e + 1) r
  | b, e, pop_front :: r => decide (b < e) && guarded (b + 1) e r
  | b, e, push_front _ :: r => decide (0 < b ∧ b < e) && guarded (b - 1) e r

end WindowOp

namespace max_deque

variable {T : Type}

/-- One operation of a run that also pushes at the front. -/
def applyW (cmp : T → T → Bool) (q : max_deque T) : WindowOp T → Option (max_deque T)
  | WindowOp.push_back v => some (q.push_back cmp v)
  | WindowOp.pop_front => q.pop_front
  | WindowOp.push_front v => q.push_front cmp v

/-- A run of operations, pushes at the front included, from the state `q`. -/
def runW (cmp : T → T → Bool) (q : max_deque T) : List (WindowOp T) → Option (max_deque T)
  | [] => some q
  | op :: r => (q.applyW cmp op).bind (fun q1 => runW cmp q1 r)

/-- The retained-candidates invariant: the retained pairs decrease strictly in
value and increase strictly in index tag from front to back, the tags lie in
`[m_begin, m_end)`, and some pair is retained whenever the window is
non-empty. -/
def Retained [LinearOrder T] (q : max_deque T) : Prop :=
  q.m_data.Pairwise (fun p1 p2 => p2.1 < p1.1) ∧
  q.m_data.Pairwise (fun p1 p2 => p1.2 < p2.2) ∧
  (∀ p ∈ q.m_data, q.m_begin ≤ p.2 ∧ p.2 < q.m_end) ∧
  (q.m_begin < q.m_end → q.m_data ≠ [])

end max_deque

/-! ## func.hpp -/

/-- The floating-point computations of `func.hpp`, kept abstract: every
theorem below holds whatever these functions return.

* `toInt v` is `int(double(v))`, the conversion used by `dir` beyond the table;
* `ceilInt v` is `(int)ceil(double(v))`, used by `inv` beyond the table;
* `beyond k d x1` is the test `x1 > xlimit(double(d))`, where the coefficients
  `af` and `bf` read by `xlimit` are the initial ones when `k = none` and the
  ones last recomputed in `emplace` from the achieved bound `K` when
  `k = some K`. -/
structure Floating where
  toInt : sq2 → Int
  ceilInt : sq2 → Int
  beyond : Option frac → sq2 → Int → Bool

/-- Function guiding leader election (`class func`).  The field `coef` stands
for the pair `af`, `bf`: the achieved bound they were last recomputed from, or
`none` while they keep their initial values. -/
structure func where
  MK : frac
  K : frac
  coef : Option frac
  deltas : max_deque sq2
  alpha : sq2
  xs : List Int
  ys : List Int
  cs : List Int
deriving DecidableEq

/-- The conversion of a `long long` value to `int`: the value of the same
residue modulo `2^32 = 4294967296` in `[-2^31, 2^31)`, where
`2^31 = 2147483648`. -/
def narrowInt (v : Int) : Int := (v + 2147483648) % 4294967296 - 2147483648

/-- Element access `v[i]` of a vector with an `int` index. -/
def vecGet (v : List Int) (i : Int) : Option Int :=
  if i < 0 then none else v[i.toNat]?

/-- The call `upper_bound(v.begin(), v.end(), x) - v.begin()`: the first index
whose element is greater than `x`, or the size (what the library returns on a
sorted vector). -/
def upper_bound (v : List Int) (x : Int) : Nat :=
  v.findIdx (fun e => decide (x < e))

/-- The call `lower_bound(v.begin(), v.end(), y) - v.begin()`: the first index
whose element is not less than `y`, or the size (what the library returns on a
sorted vector). -/
def lower_bound (v : List Int) (y : Int) : Nat :=
  v.findIdx (fun e => !decide (e < y))

/-- Repeated `pop_front()`, `n` times. -/
def popN {T : Type} : Nat → max_deque T → Option (max_deque T)
  | 0, q => some q
  | n + 1, q => q.pop_front.bind (popN n)

namespace func

/-- The method `ideal(x)`. -/
def ideal (x : Int) : Int := 2 * x + 1

/-- The method `competitiveness()`. -/
def competitiveness (g : func) : frac := g.K

/-- The method `dir(x)`. -/
def dir (F : Floating) (g : func) (x : Int) : Option Int :=
  match g.xs.getLast? with
  | none => none
  | some xb =>
    if x > xb then
      some (F.toInt ((((sq2.ofInt 1).add S).mul (sq2.ofInt x)).add g.alpha))
    else if upper_bound g.xs x = 0 then none
    else g.ys[upper_bound g.xs x - 1]?

/-- The method `inv(y)`. -/
def inv (F : Floating) (g : func) (y : Int) : Option Int :=
  match g.ys.getLast? with
  | none => none
  | some yb =>
    if y > yb then
      match g.xs.getLast? with
      | none => none
      | some xb =>
        some (Max.max (F.ceilInt (((sq2.ofInt y).sub g.alpha).mul (S.sub (sq2.ofInt 1)))) (xb + 1))
    else g.xs[lower_bound g.ys y]?

/-- The method `convergence(x)`, with at most `fuel` nested calls (`none` when
the fuel runs out, as on a fault).  A table hit needs one call. -/
def convergence (F : Floating) (g : func) : Nat → Int → Option Int
  | 0, _ => none
  | fuel + 1, x =>
    if x < g.cs.length then vecGet g.cs x
    else if x = 0 then some 1
    else
      (inv F g x).bind fun z =>
      (convergence F g fuel z).bind fun c =>
      some (c + z + x + 1)

/-- The method `maxallowed(x)`: `ceil(MK * ideal(x) - convergence(x)) - 1`, a
`long long` value that the return type `int` narrows. -/
def maxallowed (F : Floating) (g : func) (fuel : Nat) (x : Int) : Option Int :=
  (g.MK.mul (frac.ofInt (ideal x))).bind fun p =>
  (convergence F g fuel x).bind fun c =>
  (p.sub (frac.ofInt c)).bind fun q =>
  q.ceil.bind fun r =>
  some (narrowInt (r - 1))

/-- The method `nextconv(is)`. -/
def nextconv (g : func) (is : Nat) : Option Int :=
  if g.cs.length = 0 then some 1
  else
    g.xs[is]?.bind fun z =>
    (vecGet g.cs z).bind fun c =>
    some (c + z + (g.cs.length : Int) + 1)

/-- The eviction loop of `emplace`,
`while (not ys.empty() and ys.back() >= y) { x = xs.back(); xs.pop_back(); ys.pop_back(); }`,
on the two vectors given back first.  Returns the vectors left (back first)
and the final `x`. -/
def evict (y : Int) : List Int → List Int → Int → Option (List Int × List Int × Int)
  | rxs, [], x => some (rxs, [], x)
  | rxs, yb :: rys, x =>
    if yb ≥ y then
      match rxs with
      | [] => none
      | xb :: rxs1 => evict y rxs1 rys xb
    else some (rxs, yb :: rys, x)

/-- The conversion of `double(K)` to `long long` that the comparison
`double(K) > S+1` applies (its left operand reaches `operator>` on `sq2`
through the constructor `sq2(long long)`): the quotient truncated toward zero,
which is what the floating-point quotient truncates to when the numerator is
below `2^53` in absolute value. -/
def truncK (k : frac) : Option Int :=
  if k.den = 0 then none else some (k.num.tdiv k.den)

/-- The block `if (nK > K) { K = nK; if (double(K) > S+1) { af = ...; bf = ...; } }`
of `emplace`; recomputing `af` evaluates the product `2*K`. -/
def raiseK (g : func) (nK : frac) : Option func :=
  if nK.gt g.K then
    (truncK nK).bind fun t =>
    if (sq2.ofInt t).gt (S.add (sq2.ofInt 1)) then
      ((frac.ofInt 2).mul nK).bind fun _ => some { g with K := nK, coef := some nK }
    else some { g with K := nK }
  else some g

/-- The method `emplace(x, y)`: the returned flag and the updated object.  A
failed `assert` is a fault. -/
def emplace (g : func) (x y : Int) : Option (Bool × func) :=
  if x ≥ y then
    (vecGet g.cs x).bind fun c =>
    (frac.new (c + (x + 1)) (ideal x)).bind fun nK =>
    if (frac.max g.K nK).ge g.MK then some (false, { g with K := frac.max g.K nK })
    else none
  else
    (vecGet g.cs x).bind fun c =>
    (frac.new (c + y) (ideal x)).bind fun nK =>
    (raiseK g nK).bind fun g1 =>
    (evict y g1.xs.reverse g1.ys.reverse x).bind fun r =>
    some (true, { g1 with xs := (r.2.2 :: r.1).reverse, ys := (y :: r.2.1).reverse })

/-- The loop `while (ys[is] < x+1) { for (int i=xs[is]+1; i<=xs[is+1]; ++i) deltas.pop_front(); ++is; }`
of the constructor, where `x1` is `x+1`.  Every pass reads `ys[is]` and
increments `is`, so a fuel above `ys.size() - is` is never used up. -/
def advance : Nat → func → Nat → Int → Option (func × Nat)
  | 0, _, _, _ => none
  | fuel + 1, g, is, x1 =>
    g.ys[is]?.bind fun yi =>
    if yi < x1 then
      g.xs[is]?.bind fun a =>
      g.xs[is + 1]?.bind fun b =>
      (popN (b - a).toNat g.deltas).bind fun dq =>
      advance fuel { g with deltas := dq } (is + 1) x1
    else some (g, is)

end func

/-- Where the generation loop of the constructor stands. -/
inductive Status where
  | running
  | success
  | failure
deriving DecidableEq, Repr

/-- The state of the constructor `func(frac mk)`: the object under
construction, the local `is`, the loop variable `x`, and whether the loop is
still running or has ended with success or with failure. -/
structure GenState where
  g : func
  is : Nat
  x : Int
  status : Status
deriving DecidableEq

namespace func

/-- The state at the entry of the generation loop of `func(frac mk)`. -/
def start (mk : frac) : GenState :=
  { g := { MK := mk, K := frac.ofInt 1, coef := none, deltas := max_deque.init,
           alpha := ⟨0, 0⟩, xs := [], ys := [], cs := [] },
    is := 0, x := 0, status := Status.running }

/-- The value `x+1 - (S-1)*(y+1)` pushed on `deltas`. -/
def delta (x y : Int) : sq2 :=
  (sq2.ofInt (x + 1)).sub ((S.sub (sq2.ofInt 1)).mul (sq2.ofInt (y + 1)))

/-- The value `d = std::max(xs[is] - (S-1)*(x+1), deltas.top())`, where `xi`
is `xs[is]` and `t` is `deltas.top()`. -/
def dmax (xi x : Int) (t : sq2) : sq2 :=
  sq2.max ((sq2.ofInt xi).sub ((S.sub (sq2.ofInt 1)).mul (sq2.ofInt (x + 1)))) t

/-- The value `(1-d) * (S+1)` assigned to `alpha` on success. -/
def alphaOf (d : sq2) : sq2 :=
  ((sq2.ofInt 1).sub d).mul (S.add (sq2.ofInt 1))

/-- The part of the loop body after a successful `emplace(x, y)` on the
object `g`: the assertion on `is`, the push on `deltas`, the advance of `is`
and the stopping test. -/
def afterEmplace (F : Floating) (g : func) (is : Nat) (x y : Int) : Option GenState :=
  if ¬ (is < g.xs.length) then none
  else
    (advance (g.ys.length + 1)
      { g with deltas := g.deltas.push_back sq2.lt (delta x y) } is (x + 1)).bind fun a =>
    a.1.xs[a.2]?.bind fun xi =>
    a.1.deltas.top.bind fun t =>
    if F.beyond a.1.coef (dmax xi x t) (x + 1) then
      some { g := { a.1 with alpha := alphaOf (dmax xi x t) },
             is := a.2, x := x, status := Status.success }
    else some { g := a.1, is := a.2, x := x + 1, status := Status.running }

/-- One pass of the body of the generation loop.  The call `maxallowed(x)`
comes right after `cs.push_back`, so its `convergence(x)` is a table hit and a
single call. -/
def step (F : Floating) (s : GenState) : Option GenState :=
  (nextconv s.g s.is).bind fun c =>
  (maxallowed F { s.g with cs := s.g.cs ++ [c] } 1 s.x).bind fun y =>
  (emplace { s.g with cs := s.g.cs ++ [c] } s.x y).bind fun r =>
  if r.1 = false then some { g := r.2, is := s.is, x := s.x, status := Status.failure }
  else afterEmplace F r.2 s.is s.x y

/-- At most `n` passes of the generation loop: the loop stops at the first
pass that ends with success or failure. -/
def gen (F : Floating) : Nat → GenState → Option GenState
  | 0, s => some s
  | n + 1, s =>
    match s.status with
    | Status.running => (step F s).bind (gen F n)
    | _ => some s

end func

/-! ## Definitions used to state and prove the properties -/

/-- The rational number a stored pair stands for. -/
def frac.toRat (f : frac) : ℚ := (f.num : ℚ) / (f.den : ℚ)

/-- Table lookup on the breakpoints given back first: the `y` of the last
breakpoint whose `x` is at most the argument. -/
def lookupR : List Int → List Int → Int → Option Int
  | xb :: rxs, yb :: rys, x => if xb ≤ x then some yb else lookupR rxs rys x
  | _, _, _ => none

/-- The invariant of the breakpoint table and of the convergence table after
`emplace` has succeeded for `x = 0, ..., m-1`: the two vectors have equal
length and increase strictly, the breakpoints lie in `[0, m)` and start at
`0`, the convergence times are positive, the achieved bound has a positive
denominator, and at every `x < m` the recovery time over the ideal time is at
most the achieved bound. -/
def TableInv (xs ys cs : List Int) (K : frac) (m : Int) : Prop :=
  xs.length = ys.length ∧
  xs.reverse.Pairwise (fun a b => b < a) ∧ ys.reverse.Pairwise (fun a b => b < a) ∧
  (∀ e ∈ xs.reverse, 0 ≤ e ∧ e < m) ∧
  (0 < m → xs.reverse.getLast? = some 0) ∧
  m ≤ cs.length ∧ (∀ c ∈ cs, 0 < c) ∧ 0 < K.den ∧
  (∀ x c d, 0 ≤ x → x < m → vecGet cs x = some c →
    lookupR xs.reverse ys.reverse x = some d → ((c + d : Int) : ℚ) / ((2 * x + 1 : Int) : ℚ) ≤ K.toRat)

/-- The invariant of the generation loop: `TableInv` for the number of `x`
already given a breakpoint, and the size of the convergence table. -/
def GenInv (s : GenState) : Prop :=
  0 ≤ s.x ∧
  match s.status with
  | Status.running => (s.g.cs.length : Int) = s.x ∧ TableInv s.g.xs s.g.ys s.g.cs s.g.K s.x
  | Status.success => (s.g.cs.length : Int) = s.x + 1 ∧ TableInv s.g.xs s.g.ys s.g.cs s.g.K (s.x + 1)
  | Status.failure => (s.g.cs.length : Int) = s.x + 1 ∧ TableInv s.g.xs s.g.ys s.g.cs s.g.K s.x

/-- An instance of the floating-point parts under which the stopping test
never succeeds; used to evaluate the generation loop on concrete inputs. -/
def Floating.never : Floating := ⟨fun _ => 0, fun _ => 0, fun _ _ _ => false⟩

/-- An instance of the floating-point parts under which the stopping test
succeeds as soon as `x + 1 > 2`; used to evaluate the generation loop on
concrete inputs. -/
def Floating.early : Floating := ⟨fun _ => 0, fun _ => 0, fun _ _ x1 => decide (2 < x1)⟩

/-- The state of `func(frac(5,2))` after two passes of the generation loop
under `Floating.never`. -/
def stateAfterTwo : GenState :=
  { g := { MK := ⟨5, 2⟩, K := ⟨7, 3⟩, coef := none,
           deltas := ⟨[(⟨7, -5⟩, 1)], 1, 2⟩, alpha := ⟨0, 0⟩,
           xs := [0, 1], ys := [1, 4], cs := [1, 3] },
    is := 1, x := 2, status := Status.running }

/-- The state of `func(frac(5,2))` after three passes of the generation loop
under `Floating.early`: the loop has ended with success at `x = 2`. -/
def stateSuccess : GenState :=
  { g := { MK := ⟨5, 2⟩, K := ⟨12, 5⟩, coef := none,
           deltas := ⟨[(⟨9, -6⟩, 2)], 1, 3⟩, alpha := ⟨4, -2⟩,
           xs := [0, 1, 2], ys := [1, 4, 5], cs := [1, 3, 7] },
    is := 1, x := 2, status := Status.success }

/-- The coefficient `af` of `xlimit`, multiplied by the denominator of the
achieved bound it was computed from: initially `af = SS + 2`, and after a
recomputation from `K = p/q`, `af = double(2*K) - SS`, so `q * af = 2p - q√2`. -/
def afScaled : Option frac → sq2
  | none => ⟨2, 1⟩
  | some k => ⟨2 * k.num, -k.den⟩

/-- The coefficient `bf` of `xlimit`, multiplied by the same denominator:
initially `bf = 0`, and after a recomputation from `K = p/q`,
`bf = 2*SS * ((SS-1)*double(K) - 1)`, so `q * bf = 4p - 2(p+q)√2`. -/
def bfScaled : Option frac → sq2
  | none => ⟨0, 0⟩
  | some k => ⟨4 * k.num, -(2 * (k.num + k.den))⟩

/-- The denominator by which `afScaled` and `bfScaled` are multiplied. -/
def coefScale : Option frac → Int
  | none => 1
  | some k => k.den

/-- The numerator `af * delta + 2+SS` of the first quotient of `xlimit`,
multiplied by `coefScale`. -/
def xlimitNumer (k : Option frac) (d : sq2) : sq2 :=
  ((afScaled k).mul d).add ((sq2.ofInt (coefScale k)).mul ⟨2, 1⟩)

/-- The stopping test `x1 > xlimit(double(d))`, with
`xlimit(delta) = std::max((af * delta + 2+SS) / bf, (delta-1) / (2-SS))`, read
in exact arithmetic: every `double` is replaced by the real number it
approximates, and a quotient by `bf = 0.0` is `+∞`, `-∞` or not a number
according to the sign of its numerator (with `+∞` or not a number as first
argument of `std::max` the comparison `x1 > ...` is false; with `-∞` the
maximum is the second quotient). -/
def beyondExact (k : Option frac) (d : sq2) (x1 : Int) : Bool :=
  (if (bfScaled k).gt ⟨0, 0⟩ then ((sq2.ofInt x1).mul (bfScaled k)).gt (xlimitNumer k d)
   else if (bfScaled k).lt ⟨0, 0⟩ then ((sq2.ofInt x1).mul (bfScaled k)).lt (xlimitNumer k d)
   else (xlimitNumer k d).lt ⟨0, 0⟩) &&
  ((sq2.ofInt x1).mul ⟨2, -1⟩).gt (d.sub (sq2.ofInt 1))

/-- The floating-point parts with the stopping test read in exact arithmetic.
The two conversions used by `dir` and `inv` beyond the table are not read by
the generation loop and are left at `0`. -/
def Floating.exact : Floating := ⟨fun _ => 0, fun _ => 0, beyondExact⟩

/-- The part of the representation of a `max_deque` that does not depend on
the comparator: the index tags of the retained pairs increase strictly and lie
in `[m_begin, m_end)`, and on a non-empty window the last retained pair is the
one pushed last. -/
def max_deque.Shape {T : Type} (q : max_deque T) : Prop :=
  q.m_begin ≤ q.m_end ∧
  q.m_data.Pairwise (fun p1 p2 => p1.2 < p2.2) ∧
  (∀ p ∈ q.m_data, q.m_begin ≤ p.2 ∧ p.2 < q.m_end) ∧
  (q.m_begin < q.m_end → ∃ p, q.m_data.getLast? = some p ∧ p.2 + 1 = q.m_end)

/-- Repeated `pop_front()`, `n` times, where a call on an empty window
(`m_begin = m_end`) counts as a fault. -/
def popNChecked {T : Type} : Nat → max_deque T → Option (max_deque T)
  | 0, q => some q
  | n + 1, q => if q.m_begin < q.m_end then q.pop_front.bind (popNChecked n) else none

/-- The loop advancing `is`, as `func.advance`, where a call of `pop_front()`
on an empty window counts as a fault. -/
def func.advanceChecked : Nat → func → Nat → Int → Option (func × Nat)
  | 0, _, _, _ => none
  | fuel + 1, g, is, x1 =>
    g.ys[is]?.bind fun yi =>
    if yi < x1 then
      g.xs[is]?.bind fun a =>
      g.xs[is + 1]?.bind fun b =>
      (popNChecked (b - a).toNat g.deltas).bind fun dq =>
      func.advanceChecked fuel { g with deltas := dq } (is + 1) x1
    else some (g, is)

/-- The number of arguments that have been given a breakpoint in a state of
the generation loop: `x + 1` after success, `x` otherwise. -/
def GenState.count (s : GenState) : Int :=
  match s.status with
  | Status.success => s.x + 1
  | _ => s.x

/-- The table lies above the identity: the `y` of a breakpoint is at least the
`x` of the next breakpoint, and the last `y` is at least the number `m` of
arguments given a breakpoint. -/
def Above (xs ys : List Int) (m : Int) : Prop :=
  (∀ (j : Nat) (a b : Int), ys[j]? = some a → xs[j + 1]? = some b → b ≤ a) ∧
  (∀ yb, ys.getLast? = some yb → m ≤ yb)

/-- The convergence table follows the recursion: `cs[0] = 1`, and for `v ≥ 1`
in the table `cs[v] = cs[z] + z + v + 1`, where `z` is the table branch of
`inv(v)` (a lower-bound search in `ys`, then `xs[i]`). -/
def ConvInv (xs ys cs : List Int) : Prop :=
  (∀ c, cs[0]? = some c → c = 1) ∧
  (∀ v c, 1 ≤ v → vecGet cs v = some c →
    ∃ z cz, xs[lower_bound ys v]? = some z ∧ vecGet cs z = some cz ∧ c = cz + z + v + 1)

/-- The local `is` and the window of `deltas` when `m` arguments have been
given a breakpoint: the window is `[xs[is], m)`, and `is` is the least index
with `ys[is] ≥ m` (for `m = 0`, `is = 0` and the window is empty). -/
def FrontInv (g : func) (is : Nat) (m : Int) : Prop :=
  g.deltas.Shape ∧ (g.deltas.m_end : Int) = m ∧
  (∀ (j : Nat) (e : Int), j < is → g.ys[j]? = some e → e < m) ∧
  (0 < m → ∃ yi xi, g.ys[is]? = some yi ∧ m ≤ yi ∧ g.xs[is]? = some xi ∧
    (g.deltas.m_begin : Int) = xi) ∧
  (m = 0 → is = 0 ∧ g.deltas.m_begin = 0)

/-- The second invariant of the generation loop: the table lies above the
identity, the convergence table follows the recursion, and `is` and `deltas`
stand where the loop expects them. -/
def LoopInv (s : GenState) : Prop :=
  Above s.g.xs s.g.ys s.count ∧ ConvInv s.g.xs s.g.ys s.g.cs ∧ FrontInv s.g s.is s.count

/-- The largest integer `n` with `n ≤ a + b√2`, found with the exact
comparison of `sq2`: it lies between `a + min(b, 2b)` and `a + max(b, 2b)`. -/
def sq2.floorExact (v : sq2) : Int :=
  v.a + min v.b (2 * v.b) +
    ((List.range v.b.natAbs).filter
      (fun k => sq2.le ⟨v.a + min v.b (2 * v.b) + (k : Int) + 1, 0⟩ v)).length

/-- The conversion `int(double(v))` read in exact arithmetic: the real number
`a + b√2` truncated toward zero. -/
def sq2.truncExact (v : sq2) : Int :=
  if v.ge ⟨0, 0⟩ = true ∨ v.b = 0 then v.floorExact else v.floorExact + 1

/-- The conversion `(int)ceil(double(v))` read in exact arithmetic: the least
integer not below the real number `a + b√2`. -/
def sq2.ceilExact (v : sq2) : Int :=
  if v.b = 0 then v.a else v.floorExact + 1

/-- The floating-point parts read in exact arithmetic: the two conversions and
the stopping test, with every `double` replaced by the real number it
approximates. -/
def Floating.exactConv : Floating := ⟨sq2.truncExact, sq2.ceilExact, beyondExact⟩

/-- The state of `func(frac(23,10))` after four passes of the generation loop
under `Floating.exactConv`, at the entry of the pass `x = 4`. -/
def stateBeforeEviction : GenState :=
  { g := { MK := ⟨23, 10⟩, K := ⟨16, 7⟩, coef := none,
           deltas := ⟨[(⟨8, -5⟩, 2), (⟨13, -9⟩, 3)], 2, 4⟩, alpha := ⟨0, 0⟩,
           xs := [0, 1, 2, 3], ys := [1, 3, 4, 8], cs := [1, 3, 7, 8] },
    is := 2, x := 4, status := Status.running }

/-- The object of `func(frac(23,10))` in the pass `x = 4`, after
`cs.push_back(14)` and `emplace(4, 6)`, which evicts the breakpoint `(3, 8)`
and records `(3, 6)`. -/
def objectAfterEviction : func :=
  { MK := ⟨23, 10⟩, K := ⟨16, 7⟩, coef := none,
    deltas := ⟨[(⟨8, -5⟩, 2), (⟨13, -9⟩, 3)], 2, 4⟩, alpha := ⟨0, 0⟩,
    xs := [0, 1, 2, 3], ys := [1, 3, 4, 6], cs := [1, 3, 7, 8, 14] }

/-- The object of `func(frac(5,2))` in the pass `x = 2`, after
`cs.push_back(7)` and `emplace(2, 5)`, which evicts nothing. -/
def objectAfterThird : func :=
  { MK := ⟨5, 2⟩, K := ⟨12, 5⟩, coef := none,
    deltas := ⟨[(⟨7, -5⟩, 1)], 1, 2⟩, alpha := ⟨0, 0⟩,
    xs := [0, 1, 2], ys := [1, 4, 5], cs := [1, 3, 7] }

/-- The state `s` of the generation loop with the target bound replaced by
`t`. -/
def GenState.withMK (t : frac) (s : GenState) : GenState :=
  { g := { s.g with MK := t }, is := s.is, x := s.x, status := s.status }

/-! ## Theorems -/

/-- Sign of `p + q√2` for `p ≥ 0 ≥ q`, read off `p² - 2q²`. -/
theorem sq2_sign_mixed (p q : Int) (hp : 0 ≤ p) (hq : q ≤ 0) :
    (0 < p * p - 2 * q * q ↔ (0 : ℝ) < p + q * Real.sqrt 2) ∧
    (p * p - 2 * q * q < 0 ↔ (p : ℝ) + q * Real.sqrt 2 < 0) := by
  have hr : (0 : ℝ) < Real.sqrt 2 := Real.sqrt_pos.mpr (by norm_num)
  have hrr : Real.sqrt 2 * Real.sqrt 2 = 2 := Real.mul_self_sqrt (by norm_num)
  have hp' : (0 : ℝ) ≤ p := by exact_mod_cast hp
  have hq' : (q : ℝ) ≤ 0 := by exact_mod_cast hq
  have hqr : (0 : ℝ) ≤ -(q * Real.sqrt 2) := by nlinarith
  have key : ((p : ℝ) + q * Real.sqrt 2) * (p - q * Real.sqrt 2)
      = ((p * p - 2 * q * q : Int) : ℝ) := by
    push_cast
    have e : ((p : ℝ) + q * Real.sqrt 2) * (p - q * Real.sqrt 2)
        = p * p - q * q * (Real.sqrt 2 * Real.sqrt 2) := by ring
    rw [e, hrr]
    ring
  have hpos : (0 : ℝ) ≤ p - q * Real.sqrt 2 := by linarith
  constructor
  · constructor
    · intro h
      have h' : (0 : ℝ) < ((p * p - 2 * q * q : Int) : ℝ) := by exact_mod_cast h
      rw [← key] at h'
      by_contra hc
      push_neg at hc
      have := mul_nonpos_of_nonpos_of_nonneg hc hpos
      linarith
    · intro h
      have hlt : (0 : ℝ) < p - q * Real.sqrt 2 := by linarith
      have := mul_pos h hlt
      rw [key] at this
      exact_mod_cast this
  · constructor
    · intro h
      have h' : ((p * p - 2 * q * q : Int) : ℝ) < 0 := by exact_mod_cast h
      rw [← key] at h'
      by_contra hc
      push_neg at hc
      have := mul_nonneg hc hpos
      linarith
    · intro h
      have hlt : (0 : ℝ) < p - q * Real.sqrt 2 := by linarith
      have := mul_neg_of_neg_of_pos h hlt
      rw [key] at this
      exact_mod_cast this

/-- The sign of `sq2::compare` is the sign of the real difference. -/
theorem sq2_compare_sign (x o : sq2) :
    (0 < x.compare o ↔ (o.a : ℝ) + o.b * Real.sqrt 2 < x.a + x.b * Real.sqrt 2) ∧
    (x.compare o < 0 ↔ (x.a : ℝ) + x.b * Real.sqrt 2 < o.a + o.b * Real.sqrt 2) := by
  have hr : (0 : ℝ) < Real.sqrt 2 := Real.sqrt_pos.mpr (by norm_num)
  unfold sq2.compare
  split_ifs with h1 h2 h3
  · obtain ⟨ha, hb⟩ := h1
    have ha' : (o.a : ℝ) < x.a := by exact_mod_cast ha
    have hb' : (o.b : ℝ) < x.b := by exact_mod_cast hb
    have : (o.b : ℝ) * Real.sqrt 2 < x.b * Real.sqrt 2 := by nlinarith
    constructor
    · constructor
      · intro _; linarith
      · intro _; norm_num
    · constructor
      · intro h; norm_num at h
      · intro h; linarith
  · obtain ⟨ha, hb⟩ := h2
    have ha' : (x.a : ℝ) < o.a := by exact_mod_cast ha
    have hb' : (x.b : ℝ) < o.b := by exact_mod_cast hb
    have : (x.b : ℝ) * Real.sqrt 2 < o.b * Real.sqrt 2 := by nlinarith
    constructor
    · constructor
      · intro h; norm_num at h
      · intro h; linarith
    · constructor
      · intro _; linarith
      · intro _; norm_num
  · obtain ⟨ha, hb⟩ := h3
    have hs := sq2_sign_mixed (x.a - o.a) (x.b - o.b) (by omega) (by omega)
    have e : (x.a - o.a) * (x.a - o.a) - 2 * (o.b - x.b) * (o.b - x.b)
        = (x.a - o.a) * (x.a - o.a) - 2 * (x.b - o.b) * (x.b - o.b) := by ring
    rw [e]
    push_cast at hs
    constructor
    · rw [hs.1]; constructor <;> intro h <;> linarith
    · rw [hs.2]; constructor <;> intro h <;> linarith
  · have ha : o.a - x.a ≥ 0 := by
      by_contra hc
      push_neg at hc
      by_cases hb : x.b > o.b
      · exact h1 ⟨by omega, hb⟩
      · exact h3 ⟨by omega, by omega⟩
    have hb : o.b - x.b ≤ 0 := by
      by_contra hc
      push_neg at hc
      by_cases ha2 : x.a < o.a
      · exact h2 ⟨ha2, by omega⟩
      · exact h3 ⟨by omega, by omega⟩
    have hs := sq2_sign_mixed (o.a - x.a) (o.b - x.b) ha hb
    have e : 2 * (x.b - o.b) * (x.b - o.b) - (o.a - x.a) * (o.a - x.a)
        = -((o.a - x.a) * (o.a - x.a) - 2 * (o.b - x.b) * (o.b - x.b)) := by ring
    rw [e]
    push_cast at hs
    constructor
    · rw [Left.neg_pos_iff, hs.2]; constructor <;> intro h <;> linarith
    · rw [Left.neg_neg_iff, hs.1]; constructor <;> intro h <;> linarith

/-- C1: for all integers `a b c d`, `sq2(a,b).compare(sq2(c,d))` is positive,
zero or negative exactly when `a + b√2` is greater than, equal to or less than
`c + d√2`; the six comparison operators agree with the real order; and
`sq2(0,1)` compared with `sq2(1,0)` is greater. -/
theorem sq2_compare_real_order (a b c d : Int) :
    (0 < (sq2.mk a b).compare ⟨c, d⟩ ↔ (c : ℝ) + d * Real.sqrt 2 < a + b * Real.sqrt 2) ∧
    ((sq2.mk a b).compare ⟨c, d⟩ = 0 ↔ (a : ℝ) + b * Real.sqrt 2 = c + d * Real.sqrt 2) ∧
    ((sq2.mk a b).compare ⟨c, d⟩ < 0 ↔ (a : ℝ) + b * Real.sqrt 2 < c + d * Real.sqrt 2) ∧
    ((sq2.mk a b).lt ⟨c, d⟩ = true ↔ (a : ℝ) + b * Real.sqrt 2 < c + d * Real.sqrt 2) ∧
    ((sq2.mk a b).le ⟨c, d⟩ = true ↔ (a : ℝ) + b * Real.sqrt 2 ≤ c + d * Real.sqrt 2) ∧
    ((sq2.mk a b).gt ⟨c, d⟩ = true ↔ (a : ℝ) + b * Real.sqrt 2 > c + d * Real.sqrt 2) ∧
    ((sq2.mk a b).ge ⟨c, d⟩ = true ↔ (a : ℝ) + b * Real.sqrt 2 ≥ c + d * Real.sqrt 2) ∧
    ((sq2.mk a b).beq ⟨c, d⟩ = true ↔ (a : ℝ) + b * Real.sqrt 2 = c + d * Real.sqrt 2) ∧
    ((sq2.mk a b).bne ⟨c, d⟩ = true ↔ (a : ℝ) + b * Real.sqrt 2 ≠ c + d * Real.sqrt 2) ∧
    0 < (sq2.mk 0 1).compare ⟨1, 0⟩ ∧ (sq2.mk 0 1).gt ⟨1, 0⟩ = true := by
  obtain ⟨hgt, hlt⟩ := sq2_compare_sign ⟨a, b⟩ ⟨c, d⟩
  simp only at hgt hlt
  have heq : (sq2.mk a b).compare ⟨c, d⟩ = 0 ↔
      (a : ℝ) + b * Real.sqrt 2 = c + d * Real.sqrt 2 := by
    constructor
    · intro h
      have h1 : ¬ (0 < (sq2.mk a b).compare ⟨c, d⟩) := by omega
      have h2 : ¬ ((sq2.mk a b).compare ⟨c, d⟩ < 0) := by omega
      rw [hgt] at h1
      rw [hlt] at h2
      linarith
    · intro h
      have h1 : ¬ (0 < (sq2.mk a b).compare ⟨c, d⟩) := by rw [hgt]; linarith
      have h2 : ¬ ((sq2.mk a b).compare ⟨c, d⟩ < 0) := by rw [hlt]; linarith
      omega
  have hle : (sq2.mk a b).compare ⟨c, d⟩ ≤ 0 ↔
      (a : ℝ) + b * Real.sqrt 2 ≤ c + d * Real.sqrt 2 := by
    rw [← not_lt, hgt, not_lt]
  have hge : (sq2.mk a b).compare ⟨c, d⟩ ≥ 0 ↔
      (a : ℝ) + b * Real.sqrt 2 ≥ c + d * Real.sqrt 2 := by
    rw [ge_iff_le, ← not_lt, hlt, not_lt]
  refine ⟨hgt, heq, hlt, ?_, ?_, ?_, ?_, ?_, ?_, by decide, by decide⟩
  · simp only [sq2.lt, decide_eq_true_eq]; exact hlt
  · simp only [sq2.le, decide_eq_true_eq]; exact hle
  · simp only [sq2.gt, decide_eq_true_eq]; exact hgt
  · simp only [sq2.ge, decide_eq_true_eq]; exact hge
  · simp only [sq2.beq, decide_eq_true_eq]; exact heq
  · simp only [sq2.bne, decide_eq_true_eq]; exact not_congr heq

/-! ### frac -/

/-- The truncated remainder has the absolute value of the natural remainder. -/
theorem natAbs_tmod_eq (a b : Int) : (a.tmod b).natAbs = a.natAbs % b.natAbs := by
  cases a <;> cases b <;> simp [Int.tmod, Int.natAbs_neg] <;> rfl

/-- The truncated remainder by a non-zero divisor is smaller than the divisor. -/
theorem natAbs_tmod_lt (a b : Int) (hb : b ≠ 0) : (a.tmod b).natAbs < b.natAbs := by
  rw [natAbs_tmod_eq]
  exact Nat.mod_lt _ (Int.natAbs_pos.mpr hb)

/-- One pass of the loop of `GCD` strictly decreases `y`. -/
theorem GCD_step_decreases (x y : Int) (hy : 0 < y) (hx : x.tmod y ≠ 0) :
    0 ≤ y.tmod (x.tmod y) ∧ y.tmod (x.tmod y) < y := by
  have h0 : 0 ≤ y.tmod (x.tmod y) := Int.tmod_nonneg _ (le_of_lt hy)
  have h1 := natAbs_tmod_lt y (x.tmod y) hx
  have h2 := natAbs_tmod_lt x y (by omega)
  refine ⟨h0, ?_⟩
  omega

/-- Any fuel of at least `y.toNat` gives the same result. -/
theorem GCDloop_fuel (k1 : Nat) : ∀ (k2 : Nat) (x y : Int),
    y.toNat ≤ k1 → y.toNat ≤ k2 → GCDloop k1 x y = GCDloop k2 x y := by
  induction k1 with
  | zero =>
    intro k2 x y h1 _
    have hy : ¬ 0 < y := by omega
    cases k2 with
    | zero => rfl
    | succ k2 => simp [GCDloop, hy]
  | succ k1 ih =>
    intro k2 x y h1 h2
    cases k2 with
    | zero =>
      have hy : ¬ 0 < y := by omega
      simp [GCDloop, hy]
    | succ k2 =>
      simp only [GCDloop]
      by_cases hy : 0 < y
      · by_cases hx : x.tmod y = 0
        · simp [hy, hx]
        · simp only [hy, hx, if_true, if_false]
          have hd := GCD_step_decreases x y hy hx
          exact ih k2 _ _ (by omega) (by omega)
      · simp [hy]

/-- The source loop of `GCD`, one pass at a time: the fuel of the embedding
never runs out before the loop exits. -/
theorem GCD_unfold (x y : Int) :
    GCD x y = if 0 < y then
      (if x.tmod y = 0 then y else GCD (x.tmod y) (y.tmod (x.tmod y)))
    else x := by
  unfold GCD
  by_cases hy : 0 < y
  · obtain ⟨k, hk⟩ : ∃ k, y.toNat = k + 1 := ⟨y.toNat - 1, by omega⟩
    rw [hk]
    simp only [GCDloop, hy, if_true]
    by_cases hx : x.tmod y = 0
    · simp [hx]
    · simp only [hx, if_false]
      have hd := GCD_step_decreases x y hy hx
      exact GCDloop_fuel _ _ _ _ (by omega) (le_refl _)
  · have h0 : y.toNat = 0 := by omega
    rw [h0]
    simp [GCDloop, hy]

/-- For `y ≥ 0` the loop returns a greatest common divisor up to sign, and a
non-negative one when `x ≥ 0`. -/
theorem GCDloop_spec (k : Nat) : ∀ (x y : Int), 0 ≤ y → y.toNat ≤ k →
    GCDloop k x y ∣ x ∧ GCDloop k x y ∣ y ∧
    (∀ c : Int, c ∣ x → c ∣ y → c ∣ GCDloop k x y) ∧
    (0 ≤ x → 0 ≤ GCDloop k x y) := by
  induction k with
  | zero =>
    intro x y h0 hk
    have hy : y = 0 := by omega
    subst hy
    simp [GCDloop]
  | succ k ih =>
    intro x y h0 hk
    simp only [GCDloop]
    by_cases hy : 0 < y
    · by_cases hx : x.tmod y = 0
      · simp only [hy, hx, if_true]
        exact ⟨Int.dvd_of_tmod_eq_zero hx, dvd_refl _, fun c _ hc => hc, fun _ => h0⟩
      · simp only [hy, hx, if_true, if_false]
        have hd := GCD_step_decreases x y hy hx
        obtain ⟨g1, g2, g3, g4⟩ := ih (x.tmod y) (y.tmod (x.tmod y)) hd.1 (by omega)
        have gy : GCDloop k (x.tmod y) (y.tmod (x.tmod y)) ∣ y := by
          have h := dvd_add g2 (Dvd.dvd.mul_right g1 (y.tdiv (x.tmod y)))
          rw [Int.tmod_add_tdiv] at h
          exact h
        refine ⟨?_, gy, ?_, ?_⟩
        · have h := dvd_add g1 (Dvd.dvd.mul_right gy (x.tdiv y))
          rw [Int.tmod_add_tdiv] at h
          exact h
        · intro c cx cy
          have c1 : c ∣ x.tmod y := by
            rw [Int.tmod_def]
            exact dvd_sub cx (Dvd.dvd.mul_right cy _)
          have c2 : c ∣ y.tmod (x.tmod y) := by
            rw [Int.tmod_def y]
            exact dvd_sub cy (Dvd.dvd.mul_right c1 _)
          exact g3 c c1 c2
        · intro hx0
          exact g4 (Int.tmod_nonneg _ hx0)
    · have hy0 : y = 0 := by omega
      subst hy0
      simp

/-- With a positive second argument `GCD` returns a non-zero common divisor,
greatest up to sign, and a positive one when the first argument is
non-negative. -/
theorem GCD_spec (x y : Int) (hy : 0 < y) :
    GCD x y ≠ 0 ∧ GCD x y ∣ x ∧ GCD x y ∣ y ∧
    (∀ c : Int, c ∣ x → c ∣ y → c ∣ GCD x y) ∧ (0 ≤ x → 0 < GCD x y) := by
  obtain ⟨g1, g2, g3, g4⟩ := GCDloop_spec y.toNat x y (le_of_lt hy) (le_refl _)
  have hne : GCD x y ≠ 0 := by
    intro h
    unfold GCD at h
    rw [h] at g2
    have := zero_dvd_iff.mp g2
    omega
  refine ⟨hne, g1, g2, g3, ?_⟩
  intro hx
  have := g4 hx
  unfold GCD at hne ⊢
  omega

/-- What the two-argument constructor stores for a positive denominator: both
arguments divided exactly by a non-zero `g`, positive when `n ≥ 0`, leaving a
coprime pair. -/
theorem frac_new_spec (n d : Int) (hd : 0 < d) :
    ∃ g f, frac.new n d = some f ∧ g ≠ 0 ∧ f.num * g = n ∧ f.den * g = d ∧
      (0 ≤ n → 0 < g) ∧ Int.gcd f.num f.den = 1 := by
  obtain ⟨h0, h1, h2, h3, h4⟩ := GCD_spec n d hd
  refine ⟨GCD n d, ⟨n.tdiv (GCD n d), d.tdiv (GCD n d)⟩, ?_, h0, ?_, ?_, h4, ?_⟩
  · simp [frac.new, frac.reduce, h0]
  · exact Int.tdiv_mul_cancel h1
  · exact Int.tdiv_mul_cancel h2
  · simp only
    have e1 : (GCD n d).natAbs = Int.gcd n d := by
      apply Nat.dvd_antisymm
      · exact Nat.dvd_gcd (Int.natAbs_dvd_natAbs.mpr h1) (Int.natAbs_dvd_natAbs.mpr h2)
      · have := h3 (Int.gcd n d) (Int.gcd_dvd_left) (Int.gcd_dvd_right)
        have h5 := Int.natAbs_dvd_natAbs.mpr this
        simpa using h5
    rw [Int.gcd, Int.natAbs_tdiv, Int.natAbs_tdiv, e1]
    have hpos : 0 < Int.gcd n d := Int.gcd_pos_of_ne_zero_right _ (by omega)
    exact Nat.coprime_div_gcd_div_gcd hpos

/-- C3: the constructor does not keep the denominator positive for a negative
numerator: `frac(-2, 4)` stores numerator `1` and denominator `-2`, because
`GCD(-2, 4)` returns `-2`; `frac(4, 2)` stores `2/1`. -/
theorem frac_new_neg_two_four :
    GCD (-2) 4 = -2 ∧ frac.new (-2) 4 = some ⟨1, -2⟩ ∧ ¬ (0 < (frac.mk 1 (-2)).den) ∧
    frac.new 4 2 = some ⟨2, 1⟩ := by
  decide

/-- C9: `frac(-2, 4).compare(frac(0, 1))` is positive although `-2/4 < 0/1`:
the stored pair of `frac(-2, 4)` is `1/(-2)`. -/
theorem frac_compare_neg_two_four :
    frac.new (-2) 4 = some ⟨1, -2⟩ ∧ frac.new 0 1 = some ⟨0, 1⟩ ∧
    0 < (frac.mk 1 (-2)).compare ⟨0, 1⟩ ∧ (frac.mk 1 (-2)).gt ⟨0, 1⟩ = true ∧
    ((-2 : ℚ) / 4 < 0 / 1) := by
  refine ⟨by decide, by decide, by decide, by decide, by norm_num⟩

/-- C10: with `a = frac(-6, 4)` (stored as `3/(-2)`) and `b = frac(1, 3)`, the
sum `a + b` is stored as `1/0`, `(a + b) - b` as `1/0`, and
`(a + b) - b == a` is false. -/
theorem frac_add_sub_neg_six_four :
    frac.new (-6) 4 = some ⟨3, -2⟩ ∧ frac.new 1 3 = some ⟨1, 3⟩ ∧
    frac.add ⟨3, -2⟩ ⟨1, 3⟩ = some ⟨1, 0⟩ ∧ frac.sub ⟨1, 0⟩ ⟨1, 3⟩ = some ⟨1, 0⟩ ∧
    (frac.mk 1 0).beq ⟨3, -2⟩ = false ∧
    ((frac.new (-6) 4).bind fun a => (frac.new 1 3).bind fun b =>
      (a.add b).bind fun s => (s.sub b).map fun r => r.beq a) = some false := by
  decide

/-! ### max_deque -/

/-- What the popping loop of `push_back` leaves: a prefix whose last element
fails the test, followed by a dropped suffix all of whose elements pass it. -/
theorem rdropWhile_split {α : Type} (p : α → Bool) (l : List α) :
    ∃ suf, l = l.rdropWhile p ++ suf ∧ (∀ x ∈ suf, p x = true) ∧
      (∀ x, (l.rdropWhile p).getLast? = some x → p x = false) := by
  induction l using List.reverseRecOn with
  | nil => exact ⟨[], by simp⟩
  | append_singleton l x ih =>
    obtain ⟨suf, h1, h2, h3⟩ := ih
    by_cases hx : p x = true
    · rw [List.rdropWhile_concat_pos p l x hx]
      refine ⟨suf ++ [x], ?_, ?_, h3⟩
      · rw [← List.append_assoc, ← h1]
      · intro y hy
        rcases List.mem_append.mp hy with h | h
        · exact h2 y h
        · simp at h; rw [h]; exact hx
    · rw [List.rdropWhile_concat_neg p l x hx]
      refine ⟨[], by simp, by simp, ?_⟩
      intro y hy
      simp at hy
      rw [← hy]
      simpa using hx

/-- The empty deque satisfies the invariant. -/
theorem max_deque_Inv_init {T : Type} [LinearOrder T] :
    (max_deque.init : max_deque T).Inv [] := by
  simp [max_deque.Inv, max_deque.init]

/-- The invariant is kept by `push_back`. -/
theorem max_deque_Inv_push_back {T : Type} [LinearOrder T] (q : max_deque T)
    (h : List T) (v : T) (hi : q.Inv h) :
    (q.push_back (fun a b => decide (a < b)) v).Inv (h ++ [v]) := by
  obtain ⟨h1, h2, h3, h4, h5⟩ := hi
  obtain ⟨suf, s1, s2, s3⟩ := rdropWhile_split (fun p : T × Nat => !decide (v < p.1)) q.m_data
  have hsub : ∀ p ∈ q.m_data.rdropWhile (fun p : T × Nat => !decide (v < p.1)), p ∈ q.m_data :=
    fun p hp => (List.rdropWhile_prefix _ _).subset hp
  have hpw : (q.m_data.rdropWhile (fun p : T × Nat => !decide (v < p.1))).Pairwise
      (fun p1 p2 => p1.2 < p2.2 ∧ p2.1 < p1.1) :=
    List.Pairwise.sublist (List.rdropWhile_prefix _ _).sublist h4
  have hkept : ∀ p ∈ q.m_data.rdropWhile (fun p : T × Nat => !decide (v < p.1)), v < p.1 := by
    intro p hp
    generalize hk : q.m_data.rdropWhile (fun p : T × Nat => !decide (v < p.1)) = kept at *
    rcases List.eq_nil_or_concat kept with hnil | ⟨k0, z, hz⟩
    · rw [hnil] at hp; simp at hp
    · rw [List.concat_eq_append] at hz
      have hz3 := s3 z (by rw [hz]; simp)
      have hvz : v < z.1 := by simpa using hz3
      rw [hz] at hp hpw
      rcases List.mem_append.mp hp with hp1 | hp1
      · have := (List.pairwise_append.mp hpw).2.2 p hp1 z (by simp)
        exact lt_trans hvz this.2
      · simp at hp1; rw [hp1]; exact hvz
  refine ⟨?_, ?_, ?_, ?_, ?_⟩
  · simp [max_deque.push_back, h1]
  · simp only [max_deque.push_back]; omega
  · intro p hp
    simp only [max_deque.push_back] at hp ⊢
    rcases List.mem_append.mp hp with hp1 | hp1
    · obtain ⟨a1, a2⟩ := h3 p (hsub p hp1)
      refine ⟨a1, ?_⟩
      have hlt : p.2 < h.length := by
        by_contra hc
        rw [List.getElem?_eq_none (by omega)] at a2
        cases a2
      rw [List.getElem?_append_left hlt]
      exact a2
    · simp at hp1
      subst hp1
      simp only
      refine ⟨h2, ?_⟩
      rw [h1]
      simp
  · simp only [max_deque.push_back]
    rw [List.pairwise_append]
    refine ⟨hpw, by simp, ?_⟩
    intro p hp z hz
    simp at hz
    subst hz
    simp only
    refine ⟨?_, hkept p hp⟩
    obtain ⟨_, a2⟩ := h3 p (hsub p hp)
    by_contra hc
    rw [List.getElem?_eq_none (by omega)] at a2
    cases a2
  · intro j w hj hw
    simp only [max_deque.push_back] at hj ⊢
    by_cases hjl : j < h.length
    · rw [List.getElem?_append_left hjl] at hw
      obtain ⟨p, hp, p1, p2⟩ := h5 j w hj hw
      rw [s1] at hp
      rcases List.mem_append.mp hp with hp1 | hp1
      · exact ⟨p, List.mem_append.mpr (Or.inl hp1), p1, p2⟩
      · refine ⟨(v, q.m_end), by simp, ?_, ?_⟩
        · simp only; omega
        · have := s2 p hp1
          simp only [Bool.not_eq_true', decide_eq_false_iff_not, not_lt] at this
          exact le_trans p2 this
    · have hje : j = h.length := by
        by_contra hc
        rw [List.getElem?_eq_none (by simp; omega)] at hw
        cases hw
      subst hje
      simp at hw
      subst hw
      exact ⟨(v, q.m_end), by simp, by simp only; omega, le_refl _⟩

/-- On a non-empty window `pop_front` does not fault, advances the front by
one and keeps the invariant. -/
theorem max_deque_Inv_pop_front {T : Type} [LinearOrder T] (q : max_deque T)
    (h : List T) (hi : q.Inv h) (hs : q.m_begin < q.m_end) :
    ∃ q1, q.pop_front = some q1 ∧ q1.Inv h ∧ q1.m_begin = q.m_begin + 1 ∧
      q1.m_end = q.m_end := by
  obtain ⟨h1, h2, h3, h4, h5⟩ := hi
  have hb : q.m_begin < h.length := by omega
  obtain ⟨p0, hp0, _, _⟩ := h5 q.m_begin (h.get ⟨q.m_begin, hb⟩) (le_refl _)
    (by simp [List.getElem?_eq_getElem hb])
  cases hd : q.m_data with
  | nil => rw [hd] at hp0; simp at hp0
  | cons p rest =>
    rw [hd] at h3 h4 h5
    have hrest : ∀ r ∈ rest, q.m_begin + 1 ≤ r.2 := by
      intro r hr
      have a1 := (h3 p (by simp)).1
      have a2 := (List.pairwise_cons.mp h4).1 r hr
      omega
    unfold max_deque.pop_front
    rw [hd]
    by_cases hp : p.2 = q.m_begin
    · simp only [hp, if_true]
      refine ⟨_, rfl, ⟨h1, by simp only; omega, ?_, (List.pairwise_cons.mp h4).2, ?_⟩, rfl, rfl⟩
      · intro r hr
        exact ⟨hrest r hr, (h3 r (by simp [hr])).2⟩
      · intro j v hj hv
        simp only at hj
        obtain ⟨r, hr, r1, r2⟩ := h5 j v (by omega) hv
        rcases List.mem_cons.mp hr with e | e
        · subst e; omega
        · exact ⟨r, e, r1, r2⟩
    · simp only [hp, if_false]
      refine ⟨_, rfl, ⟨h1, by simp only; omega, ?_, h4, ?_⟩, rfl, rfl⟩
      · intro r hr
        simp only at hr ⊢
        rcases List.mem_cons.mp hr with e | e
        · subst e
          have := (h3 r (by simp)).1
          exact ⟨by omega, (h3 r (by simp)).2⟩
        · exact ⟨hrest r e, (h3 r (by simp [e])).2⟩
      · intro j v hj hv
        simp only at hj
        exact h5 j v (by omega) hv

/-- Under the invariant, `top()` of a non-empty window is a value of the
window and bounds every value of the window. -/
theorem max_deque_top_of_Inv {T : Type} [LinearOrder T] (q : max_deque T)
    (h : List T) (hi : q.Inv h) (hs : q.m_begin < q.m_end) :
    ∃ t, q.top = some t ∧
      (∃ i, q.m_begin ≤ i ∧ i < q.m_end ∧ h[i]? = some t) ∧
      (∀ i v, q.m_begin ≤ i → i < q.m_end → h[i]? = some v → v ≤ t) := by
  obtain ⟨h1, h2, h3, h4, h5⟩ := hi
  have hb : q.m_begin < h.length := by omega
  obtain ⟨p0, hp0, _, _⟩ := h5 q.m_begin (h.get ⟨q.m_begin, hb⟩) (le_refl _)
    (by simp [List.getElem?_eq_getElem hb])
  cases hd : q.m_data with
  | nil => rw [hd] at hp0; simp at hp0
  | cons p rest =>
    rw [hd] at h3 h4 h5
    refine ⟨p.1, by simp [max_deque.top, hd], ?_, ?_⟩
    · obtain ⟨a1, a2⟩ := h3 p (by simp)
      refine ⟨p.2, a1, ?_, a2⟩
      by_contra hc
      rw [List.getElem?_eq_none (by omega)] at a2
      cases a2
    · intro i v hi1 _ hv
      obtain ⟨r, hr, _, r2⟩ := h5 i v hi1 hv
      rcases List.mem_cons.mp hr with e | e
      · subst e; exact r2
      · exact le_trans r2 (le_of_lt ((List.pairwise_cons.mp h4).1 r e).2)

/-- A guarded run from a state satisfying the invariant does not fault and
ends in a state satisfying the invariant for the extended history. -/
theorem max_deque_run_Inv {T : Type} [LinearOrder T] (ops : List (DequeOp T)) :
    ∀ (q : max_deque T) (h : List T), q.Inv h →
      DequeOp.guarded (q.m_end - q.m_begin) ops = true →
      ∃ q1, q.run (fun a b => decide (a < b)) ops = some q1 ∧
        q1.Inv (h ++ DequeOp.pushed ops) := by
  induction ops with
  | nil =>
    intro q h hi _
    exact ⟨q, rfl, by simpa [DequeOp.pushed] using hi⟩
  | cons op r ih =>
    intro q h hi hg
    cases op with
    | push_back v =>
      have hi1 := max_deque_Inv_push_back q h v hi
      simp only [DequeOp.guarded] at hg
      have hle := hi.2.1
      obtain ⟨q1, e1, e2⟩ := ih (q.push_back (fun a b => decide (a < b)) v) (h ++ [v]) hi1
        (by
          have : (q.push_back (fun a b => decide (a < b)) v).m_end
              - (q.push_back (fun a b => decide (a < b)) v).m_begin
              = q.m_end - q.m_begin + 1 := by
            simp only [max_deque.push_back]; omega
          rw [this]; exact hg)
      refine ⟨q1, ?_, ?_⟩
      · simp [max_deque.run, max_deque.apply, e1]
      · simpa [DequeOp.pushed] using e2
    | pop_front =>
      simp only [DequeOp.guarded, Bool.and_eq_true, decide_eq_true_eq] at hg
      obtain ⟨q0, e0, hi0, b0, b1⟩ := max_deque_Inv_pop_front q h hi (by omega)
      obtain ⟨q1, e1, e2⟩ := ih q0 h hi0 (by
        have : q0.m_end - q0.m_begin = q.m_end - q.m_begin - 1 := by omega
        rw [this]; exact hg.2)
      refine ⟨q1, ?_, ?_⟩
      · simp [max_deque.run, max_deque.apply, e0, e1]
      · simpa [DequeOp.pushed] using e2

/-- C2: any run of `push_back` and `pop_front` on an initially empty
`max_deque` with the default comparator of a totally ordered type, in which
`pop_front` is only called while `size() > 0`, does not fault; and if
`size() > 0` afterwards then `top()` is a value pushed at a virtual index in
`[front(), back()]` and is at least every value pushed at such an index. -/
theorem max_deque_top_is_window_max {T : Type} [LinearOrder T] (ops : List (DequeOp T))
    (hg : DequeOp.guarded 0 ops = true) :
    ∃ q, max_deque.run (fun a b => decide (a < b)) max_deque.init ops = some q ∧
      q.m_end = (DequeOp.pushed ops).length ∧
      (0 < q.size → ∃ t, q.top = some t ∧
        (∃ i, q.front ≤ i ∧ i ≤ q.back ∧ (DequeOp.pushed ops)[i]? = some t) ∧
        (∀ i v, q.front ≤ i → i ≤ q.back → (DequeOp.pushed ops)[i]? = some v → v ≤ t)) := by
  obtain ⟨q, e1, e2⟩ := max_deque_run_Inv ops max_deque.init [] max_deque_Inv_init
    (by simpa [max_deque.init] using hg)
  simp only [List.nil_append] at e2
  refine ⟨q, e1, e2.1, ?_⟩
  intro hs
  simp only [max_deque.size] at hs
  obtain ⟨t, t1, ⟨i, i1, i2, i3⟩, t3⟩ := max_deque_top_of_Inv q _ e2 (by omega)
  refine ⟨t, t1, ⟨i, i1, ?_, i3⟩, ?_⟩
  · simp only [max_deque.back]; omega
  · intro j v j1 j2 j3
    simp only [max_deque.back, max_deque.front] at j1 j2
    exact t3 j v j1 (by omega) j3

/-- C2 at a concrete run: push 3, push 1, pop, push 2 leaves the window
`[1, 2]` with `top() = 2`. -/
theorem max_deque_top_is_window_max_witness :
    DequeOp.guarded 0 [DequeOp.push_back (3 : Int), DequeOp.push_back 1,
      DequeOp.pop_front, DequeOp.push_back 2] = true ∧
    ∃ q, max_deque.run (fun a b => decide (a < b)) max_deque.init
        [DequeOp.push_back (3 : Int), DequeOp.push_back 1,
          DequeOp.pop_front, DequeOp.push_back 2] = some q ∧
      q.m_end = (DequeOp.pushed [DequeOp.push_back (3 : Int), DequeOp.push_back 1,
          DequeOp.pop_front, DequeOp.push_back 2]).length ∧
      (0 < q.size → ∃ t, q.top = some t ∧
        (∃ i, q.front ≤ i ∧ i ≤ q.back ∧
          (DequeOp.pushed [DequeOp.push_back (3 : Int), DequeOp.push_back 1,
            DequeOp.pop_front, DequeOp.push_back 2])[i]? = some t) ∧
        (∀ i v, q.front ≤ i → i ≤ q.back →
          (DequeOp.pushed [DequeOp.push_back (3 : Int), DequeOp.push_back 1,
            DequeOp.pop_front, DequeOp.push_back 2])[i]? = some v → v ≤ t)) :=
  ⟨by decide, max_deque_top_is_window_max _ (by decide)⟩


/-! ### func: exact rationals -/

/-- The pair stored by the constructor for a positive denominator stands for
`n/d`; its denominator is non-zero, positive when `n ≥ 0`, and when it is
negative the stored numerator is positive. -/
theorem frac_new_toRat (n d : Int) (hd : 0 < d) (f : frac) (hf : frac.new n d = some f) :
    f.toRat = (n : ℚ) / d ∧ f.den ≠ 0 ∧ (0 ≤ n → 0 < f.den) ∧ (f.den < 0 → 0 < f.num) := by
  obtain ⟨g, f1, e, hg, hn, hdg, hpos, _⟩ := frac_new_spec n d hd
  rw [hf] at e
  cases e
  have hden : f.den ≠ 0 := by
    intro h0
    rw [h0] at hdg
    omega
  have hgq : (g : ℚ) ≠ 0 := by exact_mod_cast hg
  have hdq : (f.den : ℚ) ≠ 0 := by exact_mod_cast hden
  refine ⟨?_, hden, ?_, ?_⟩
  · unfold frac.toRat
    rw [← hn, ← hdg]
    push_cast
    field_simp
    ring
  · intro hn0
    have := hpos hn0
    by_contra hc
    push_neg at hc
    have : f.den * g ≤ 0 := Int.mul_nonpos_of_nonpos_of_nonneg hc (le_of_lt this)
    omega
  · intro hneg
    have hgneg : g < 0 := by
      by_contra hc
      push_neg at hc
      have : f.den * g ≤ 0 := Int.mul_nonpos_of_nonpos_of_nonneg (le_of_lt hneg) hc
      omega
    have hnneg : n < 0 := by
      by_contra hc
      push_neg at hc
      have := hpos hc
      omega
    by_contra hc
    push_neg at hc
    have : 0 ≤ f.num * g := Int.mul_nonneg_of_nonpos_of_nonpos hc (le_of_lt hgneg)
    omega

/-- With a positive denominator the constructor does not fault. -/
theorem frac_new_isSome (n d : Int) (hd : 0 < d) : ∃ f, frac.new n d = some f := by
  obtain ⟨g, f1, e, _⟩ := frac_new_spec n d hd
  exact ⟨f1, e⟩

/-- On positive denominators `compare` has the sign of the difference of the
rationals. -/
theorem frac_compare_toRat (a b : frac) (ha : 0 < a.den) (hb : 0 < b.den) :
    (a.compare b < 0 ↔ a.toRat < b.toRat) ∧ (0 < a.compare b ↔ b.toRat < a.toRat) := by
  have ha' : (0 : ℚ) < a.den := by exact_mod_cast ha
  have hb' : (0 : ℚ) < b.den := by exact_mod_cast hb
  unfold frac.compare frac.toRat
  constructor
  · rw [div_lt_div_iff ha' hb']
    constructor
    · intro h
      have : a.num * b.den < b.num * a.den := by omega
      exact_mod_cast this
    · intro h
      have : a.num * b.den < b.num * a.den := by exact_mod_cast h
      omega
  · rw [div_lt_div_iff hb' ha']
    constructor
    · intro h
      have : b.num * a.den < a.num * b.den := by omega
      exact_mod_cast this
    · intro h
      have : b.num * a.den < a.num * b.den := by exact_mod_cast h
      omega

/-- The operator `<` on positive denominators. -/
theorem frac_lt_toRat (a b : frac) (ha : 0 < a.den) (hb : 0 < b.den) :
    a.lt b = true ↔ a.toRat < b.toRat := by
  simp only [frac.lt, decide_eq_true_eq]
  exact (frac_compare_toRat a b ha hb).1

/-- The operator `>` on positive denominators. -/
theorem frac_gt_toRat (a b : frac) (ha : 0 < a.den) (hb : 0 < b.den) :
    a.gt b = true ↔ b.toRat < a.toRat := by
  simp only [frac.gt, decide_eq_true_eq, gt_iff_lt]
  exact (frac_compare_toRat a b ha hb).2

/-- The operator `>=` on positive denominators. -/
theorem frac_ge_toRat (a b : frac) (ha : 0 < a.den) (hb : 0 < b.den) :
    a.ge b = true ↔ b.toRat ≤ a.toRat := by
  simp only [frac.ge, decide_eq_true_eq, ge_iff_le]
  rw [← not_lt, (frac_compare_toRat a b ha hb).1, not_lt]

/-- The call `std::max` on positive denominators returns a pair with a
positive denominator standing for the larger rational. -/
theorem frac_max_toRat (a b : frac) (ha : 0 < a.den) (hb : 0 < b.den) :
    0 < (frac.max a b).den ∧ (frac.max a b).toRat = Max.max a.toRat b.toRat := by
  unfold frac.max
  by_cases h : a.lt b = true
  · simp only [h, if_true]
    have := (frac_lt_toRat a b ha hb).mp h
    exact ⟨hb, (max_eq_right (le_of_lt this)).symm⟩
  · simp only [h]
    have h2 : ¬ a.toRat < b.toRat := fun hc => h ((frac_lt_toRat a b ha hb).mpr hc)
    push_neg at h2
    exact ⟨ha, (max_eq_left h2).symm⟩

/-! ### func: the eviction loop of `emplace` -/

/-- The eviction loop followed by the two `push_back` calls, on the vectors
given back first: it keeps the shape of the table, and any property `Q x d` of
the looked-up value that survives lowering `d` is kept, provided it holds for
the new value `y` from the inserted `x0` on. -/
theorem evict_spec (y : Int) (Q : Int → Int → Prop)
    (hmono : ∀ x d d1, d1 ≤ d → Q x d → Q x d1) :
    ∀ (rys rxs : List Int) (x0 : Int) (r : List Int × List Int × Int),
      func.evict y rxs rys x0 = some r →
      rxs.length = rys.length →
      rxs.Pairwise (fun a b => b < a) → rys.Pairwise (fun a b => b < a) →
      (∀ e ∈ rxs, e < x0) →
      (∀ x, x0 ≤ x → Q x y) →
      (∀ x d, x < x0 → lookupR rxs rys x = some d → Q x d) →
      r.1.length = r.2.1.length ∧
      (r.2.2 :: r.1).Pairwise (fun a b => b < a) ∧
      (y :: r.2.1).Pairwise (fun a b => b < a) ∧
      (∀ e ∈ r.2.2 :: r.1, e ∈ x0 :: rxs) ∧
      (r.2.2 :: r.1).getLast? = (x0 :: rxs).getLast? ∧
      (∀ x d, lookupR (r.2.2 :: r.1) (y :: r.2.1) x = some d → Q x d) := by
  intro rys
  induction rys with
  | nil =>
    intro rxs x0 r he hl _ _ _ hA _
    have hr : rxs = [] := List.length_eq_zero.mp (by simpa using hl)
    subst hr
    simp only [func.evict, Option.some.injEq] at he
    subst he
    refine ⟨rfl, by simp, by simp, by simp, rfl, ?_⟩
    intro x d hx
    simp only [lookupR] at hx
    by_cases hc : x0 ≤ x
    · simp only [hc, if_true, Option.some.injEq] at hx
      subst hx
      exact hA x hc
    · simp [hc] at hx
  | cons yb rys ih =>
    intro rxs x0 r he hl hpx hpy hlt hA hB
    cases rxs with
    | nil => simp at hl
    | cons xb rxs1 =>
      by_cases hy : yb ≥ y
      · simp only [func.evict, hy, if_true] at he
        have hl1 : rxs1.length = rys.length := by simpa using hl
        have hxb : xb < x0 := hlt xb (by simp)
        have hpx1 := List.pairwise_cons.mp hpx
        have hpy1 := List.pairwise_cons.mp hpy
        obtain ⟨c1, c2, c3, c4, c5, c6⟩ := ih rxs1 xb r he hl1 hpx1.2 hpy1.2 hpx1.1
          (by
            intro x hx
            by_cases hc : x0 ≤ x
            · exact hA x hc
            · have := hB x yb (by omega) (by simp [lookupR, hx])
              exact hmono x yb y hy this)
          (by
            intro x d hx hd
            have hnx : ¬ xb ≤ x := by omega
            exact hB x d (by omega) (by simp [lookupR, hnx, hd]))
        refine ⟨c1, c2, c3, ?_, ?_, c6⟩
        · intro e he1
          exact List.mem_cons_of_mem _ (c4 e he1)
        · rw [c5]
          simp [List.getLast?_cons_cons]
      · simp only [func.evict, hy, if_false, Option.some.injEq] at he
        subst he
        have hyb : yb < y := by omega
        refine ⟨hl, ?_, ?_, ?_, rfl, ?_⟩
        · exact List.pairwise_cons.mpr ⟨hlt, hpx⟩
        · refine List.pairwise_cons.mpr ⟨?_, hpy⟩
          intro e he1
          rcases List.mem_cons.mp he1 with h | h
          · rw [h]; exact hyb
          · exact lt_trans ((List.pairwise_cons.mp hpy).1 e h) hyb
        · intro e he1; exact he1
        · intro x d hx
          by_cases hc : x0 ≤ x
          · simp only [lookupR, hc, if_true, Option.some.injEq] at hx
            subst hx
            exact hA x hc
          · have hx1 : lookupR (xb :: rxs1) (yb :: rys) x = some d := by
              simpa [lookupR, hc] using hx
            exact hB x d (by omega) hx1

/-! ### func: `emplace` keeps the table invariant -/

/-- The block raising `K` changes nothing but `K` and the coefficients, and
leaves `K` at the larger of the old bound and the new ratio. -/
theorem raiseK_spec (g g1 : func) (nK : frac) (h : func.raiseK g nK = some g1) :
    g1.xs = g.xs ∧ g1.ys = g.ys ∧ g1.cs = g.cs ∧ g1.MK = g.MK ∧
    g1.deltas = g.deltas ∧ g1.alpha = g.alpha ∧
    ((nK.gt g.K = true ∧ g1.K = nK) ∨ (nK.gt g.K = false ∧ g1.K = g.K)) := by
  unfold func.raiseK at h
  by_cases hgt : nK.gt g.K = true
  · rw [if_pos hgt] at h
    cases ht : func.truncK nK with
    | none => rw [ht] at h; simp at h
    | some t =>
      rw [ht] at h
      change (if (sq2.ofInt t).gt (S.add (sq2.ofInt 1)) = true then
          ((frac.ofInt 2).mul nK).bind fun _ => some { g with K := nK, coef := some nK }
        else some { g with K := nK }) = some g1 at h
      by_cases hs : (sq2.ofInt t).gt (S.add (sq2.ofInt 1)) = true
      · rw [if_pos hs] at h
        cases hm : (frac.ofInt 2).mul nK with
        | none => rw [hm] at h; simp at h
        | some m =>
          rw [hm] at h
          simp only [Option.some_bind, Option.some.injEq] at h
          subst h
          exact ⟨rfl, rfl, rfl, rfl, rfl, rfl, Or.inl ⟨hgt, rfl⟩⟩
      · rw [if_neg hs] at h
        simp only [Option.some.injEq] at h
        subst h
        exact ⟨rfl, rfl, rfl, rfl, rfl, rfl, Or.inl ⟨hgt, rfl⟩⟩
  · rw [if_neg hgt] at h
    simp only [Option.some.injEq] at h
    subst h
    refine ⟨rfl, rfl, rfl, rfl, rfl, rfl, Or.inr ⟨by simpa using hgt, rfl⟩⟩

/-- Reading the results of a successful `emplace`: the branch taken, the ratio
`nK = (cs[x] + y) / ideal(x)` and the eviction result. -/
theorem emplace_true_inv (g g1 : func) (x y : Int)
    (he : func.emplace g x y = some (true, g1)) :
    x < y ∧ ∃ c nK g0 r, vecGet g.cs x = some c ∧
      frac.new (c + y) (func.ideal x) = some nK ∧ func.raiseK g nK = some g0 ∧
      func.evict y g0.xs.reverse g0.ys.reverse x = some r ∧
      g1 = { g0 with xs := (r.2.2 :: r.1).reverse, ys := (y :: r.2.1).reverse } := by
  unfold func.emplace at he
  by_cases hxy : x ≥ y
  · rw [if_pos hxy] at he
    simp only [Option.bind_eq_some] at he
    obtain ⟨c, _, nK, _, h3⟩ := he
    by_cases hge : (frac.max g.K nK).ge g.MK = true
    · rw [if_pos hge] at h3; simp at h3
    · rw [if_neg hge] at h3; simp at h3
  · rw [if_neg hxy] at he
    simp only [Option.bind_eq_some] at he
    obtain ⟨c, h1, nK, h2, g0, h3, r, h4, h5⟩ := he
    simp only [Option.some.injEq, Prod.mk.injEq, true_and] at h5
    exact ⟨by omega, c, nK, g0, r, h1, h2, h3, h4, h5.symm⟩

/-- Reading the results of a failed `emplace`. -/
theorem emplace_false_inv (g g1 : func) (x y : Int)
    (he : func.emplace g x y = some (false, g1)) :
    y ≤ x ∧ ∃ c nK, vecGet g.cs x = some c ∧
      frac.new (c + (x + 1)) (func.ideal x) = some nK ∧
      (frac.max g.K nK).ge g.MK = true ∧ g1 = { g with K := frac.max g.K nK } := by
  unfold func.emplace at he
  by_cases hxy : x ≥ y
  · rw [if_pos hxy] at he
    simp only [Option.bind_eq_some] at he
    obtain ⟨c, h1, nK, h2, h3⟩ := he
    by_cases hge : (frac.max g.K nK).ge g.MK = true
    · rw [if_pos hge] at h3
      simp only [Option.some.injEq, Prod.mk.injEq, true_and] at h3
      exact ⟨by omega, c, nK, h1, h2, hge, h3.symm⟩
    · rw [if_neg hge] at h3; simp at h3
  · rw [if_neg hxy] at he
    simp only [Option.bind_eq_some] at he
    obtain ⟨c, _, nK, _, g0, _, r, _, h5⟩ := he
    simp at h5

/-- An element read from a vector belongs to it. -/
theorem vecGet_mem (v : List Int) (i c : Int) (h : vecGet v i = some c) :
    c ∈ v ∧ 0 ≤ i ∧ i < v.length := by
  unfold vecGet at h
  by_cases hi : i < 0
  · rw [if_pos hi] at h; simp at h
  · rw [if_neg hi] at h
    have hlt : i.toNat < v.length := by
      by_contra hc
      rw [List.getElem?_eq_none (by omega)] at h
      cases h
    refine ⟨List.getElem?_mem h, by omega, by omega⟩

/-- A successful `emplace(x, y)` at `x = cs.size() - 1` extends the table
invariant from `x` to `x + 1`. -/
theorem emplace_true_TableInv (g g1 : func) (x y : Int) (hx : 0 ≤ x)
    (hcs : (g.cs.length : Int) = x + 1)
    (hinv : TableInv g.xs g.ys g.cs g.K x)
    (he : func.emplace g x y = some (true, g1)) :
    TableInv g1.xs g1.ys g1.cs g1.K (x + 1) ∧ g1.cs = g.cs ∧ g1.MK = g.MK ∧
    g1.deltas = g.deltas := by
  obtain ⟨hxy, c, nK, g0, r, h1, h2, h3, h4, h5⟩ := emplace_true_inv g g1 x y he
  obtain ⟨e1, e2, e3, e4, e5, e6, e7⟩ := raiseK_spec g g0 nK h3
  obtain ⟨i1, i2, i3, i4, i5, i6, i7, i8, i9⟩ := hinv
  have hcm := vecGet_mem g.cs x c h1
  have hcpos : 0 < c := i7 c hcm.1
  have hid : 0 < func.ideal x := by unfold func.ideal; omega
  obtain ⟨n1, n2, n3, n4⟩ := frac_new_toRat (c + y) (func.ideal x) hid nK h2
  have hnKden : 0 < nK.den := n3 (by omega)
  have hK0 : 0 < g0.K.den ∧ g.K.toRat ≤ g0.K.toRat ∧ nK.toRat ≤ g0.K.toRat := by
    rcases e7 with ⟨a1, a2⟩ | ⟨a1, a2⟩
    · rw [a2]
      exact ⟨hnKden, le_of_lt ((frac_gt_toRat nK g.K hnKden i8).mp a1), le_refl _⟩
    · rw [a2]
      refine ⟨i8, le_refl _, ?_⟩
      by_contra hc
      push_neg at hc
      have := (frac_gt_toRat nK g.K hnKden i8).mpr hc
      rw [a1] at this
      cases this
  rw [e1, e2] at h4
  have hspec := evict_spec y
    (fun x1 d => 0 ≤ x1 → x1 < x + 1 → ∀ c1, vecGet g.cs x1 = some c1 →
      ((c1 + d : Int) : ℚ) / ((2 * x1 + 1 : Int) : ℚ) ≤ g0.K.toRat)
    (by
      intro x1 d d1 hd hq h0 hlt c1 hc1
      have hpos : (0 : ℚ) < ((2 * x1 + 1 : Int) : ℚ) := by exact_mod_cast (by omega : 0 < 2 * x1 + 1)
      have hle : ((c1 + d1 : Int) : ℚ) ≤ ((c1 + d : Int) : ℚ) := by exact_mod_cast (by omega : c1 + d1 ≤ c1 + d)
      exact le_trans (div_le_div_of_nonneg_right hle (le_of_lt hpos)) (hq h0 hlt c1 hc1))
    g.ys.reverse g.xs.reverse x r h4 (by simp [i1]) i2 i3
    (fun e he1 => (i4 e he1).2)
    (by
      intro x1 hx1 _ hlt c1 hc1
      have hxe : x1 = x := by omega
      subst hxe
      rw [h1] at hc1
      cases hc1
      rw [n1] at hK0
      unfold func.ideal at hK0
      exact hK0.2.2)
    (by
      intro x1 d hx1 hd h0 _ c1 hc1
      exact le_trans (i9 x1 c1 d h0 hx1 hc1 hd) hK0.2.1)
  obtain ⟨s1, s2, s3, s4, s5, s6⟩ := hspec
  subst h5
  refine ⟨?_, e3, e4, e5⟩
  unfold TableInv
  simp only [List.reverse_reverse, List.length_reverse, List.length_cons]
  refine ⟨by rw [s1], s2, s3, ?_, ?_, ?_, ?_, hK0.1, ?_⟩
  · intro e he1
    rcases List.mem_cons.mp (s4 e he1) with h | h
    · rw [h]; omega
    · have := i4 e h; omega
  · intro _
    rw [s5]
    by_cases hx0 : x = 0
    · have hnil : g.xs.reverse = [] := by
        rcases List.eq_nil_or_concat g.xs.reverse with h | ⟨l, a, h⟩
        · exact h
        · have := i4 a (by rw [h]; simp)
          omega
      rw [hnil, hx0]
      rfl
    · have h0 := i5 (by omega)
      cases hrev : g.xs.reverse with
      | nil => rw [hrev] at h0; simp at h0
      | cons a l => rw [hrev] at h0; rw [List.getLast?_cons_cons]; exact h0
  · rw [e3]; omega
  · rw [e3]; exact i7
  · intro x1 c1 d h0 hlt hc1 hd
    rw [e3] at hc1
    exact s6 x1 d hd h0 hlt c1 hc1

/-- A failed `emplace(x, y)` keeps the table invariant and leaves an achieved
bound that passed the assertion. -/
theorem emplace_false_TableInv (g g1 : func) (x y : Int) (hx : 0 ≤ x)
    (hinv : TableInv g.xs g.ys g.cs g.K x)
    (he : func.emplace g x y = some (false, g1)) :
    TableInv g1.xs g1.ys g1.cs g1.K x ∧ g1.cs = g.cs ∧ g1.MK = g.MK ∧
    g1.K.ge g1.MK = true := by
  obtain ⟨_, c, nK, h1, h2, h3, h4⟩ := emplace_false_inv g g1 x y he
  obtain ⟨i1, i2, i3, i4, i5, i6, i7, i8, i9⟩ := hinv
  have hcm := vecGet_mem g.cs x c h1
  have hcpos : 0 < c := i7 c hcm.1
  have hid : 0 < func.ideal x := by unfold func.ideal; omega
  obtain ⟨_, _, n3, _⟩ := frac_new_toRat (c + (x + 1)) (func.ideal x) hid nK h2
  have hnKden : 0 < nK.den := n3 (by omega)
  obtain ⟨m1, m2⟩ := frac_max_toRat g.K nK i8 hnKden
  subst h4
  refine ⟨⟨i1, i2, i3, i4, i5, i6, i7, m1, ?_⟩, rfl, rfl, h3⟩
  intro x1 c1 d h0 hlt hc1 hd
  simp only
  rw [m2]
  exact le_trans (i9 x1 c1 d h0 hlt hc1 hd) (le_max_left _ _)

/-- The loop advancing `is` changes nothing but `deltas`. -/
theorem advance_fields (fuel : Nat) : ∀ (g : func) (is : Nat) (x1 : Int) (r : func × Nat),
    func.advance fuel g is x1 = some r →
    r.1.xs = g.xs ∧ r.1.ys = g.ys ∧ r.1.cs = g.cs ∧ r.1.K = g.K ∧ r.1.MK = g.MK ∧
    r.1.coef = g.coef := by
  induction fuel with
  | zero => intro g is x1 r h; simp [func.advance] at h
  | succ n ih =>
    intro g is x1 r h
    simp only [func.advance, Option.bind_eq_some] at h
    obtain ⟨yi, _, h2⟩ := h
    by_cases hlt : yi < x1
    · rw [if_pos hlt] at h2
      simp only [Option.bind_eq_some] at h2
      obtain ⟨a, _, b, _, dq, _, h3⟩ := h2
      exact ih { g with deltas := dq } (is + 1) x1 r h3
    · rw [if_neg hlt] at h2
      simp only [Option.some.injEq] at h2
      subst h2
      exact ⟨rfl, rfl, rfl, rfl, rfl, rfl⟩

/-- The part of the loop body after `emplace` changes neither the tables nor
the bounds, and leaves the loop running at `x + 1` or ended with success at
`x`. -/
theorem afterEmplace_fields (F : Floating) (g : func) (is : Nat) (x y : Int) (s : GenState)
    (h : func.afterEmplace F g is x y = some s) :
    s.g.xs = g.xs ∧ s.g.ys = g.ys ∧ s.g.cs = g.cs ∧ s.g.K = g.K ∧ s.g.MK = g.MK ∧
    ((s.status = Status.running ∧ s.x = x + 1) ∨ (s.status = Status.success ∧ s.x = x)) := by
  unfold func.afterEmplace at h
  by_cases his : ¬ (is < g.xs.length)
  · rw [if_pos his] at h; cases h
  · rw [if_neg his] at h
    simp only [Option.bind_eq_some] at h
    obtain ⟨a, h1, xi, _, t, _, h4⟩ := h
    obtain ⟨f1, f2, f3, f4, f5, _⟩ := advance_fields _ _ _ _ _ h1
    simp only at f1 f2 f3 f4 f5
    by_cases hb : F.beyond a.1.coef (func.dmax xi x t) (x + 1) = true
    · rw [if_pos hb] at h4
      simp only [Option.some.injEq] at h4
      subst h4
      exact ⟨f1, f2, f3, f4, f5, Or.inr ⟨rfl, rfl⟩⟩
    · rw [if_neg hb] at h4
      simp only [Option.some.injEq] at h4
      subst h4
      exact ⟨f1, f2, f3, f4, f5, Or.inl ⟨rfl, rfl⟩⟩

/-- The convergence time computed by `nextconv` is positive. -/
theorem nextconv_pos (g : func) (is : Nat) (c m : Int)
    (hinv : TableInv g.xs g.ys g.cs g.K m) (h : func.nextconv g is = some c) : 0 < c := by
  obtain ⟨_, _, _, i4, _, _, i7, _, _⟩ := hinv
  unfold func.nextconv at h
  by_cases h0 : g.cs.length = 0
  · rw [if_pos h0] at h
    simp only [Option.some.injEq] at h
    omega
  · rw [if_neg h0] at h
    simp only [Option.bind_eq_some, Option.some.injEq] at h
    obtain ⟨z, hz, c0, hc0, hc⟩ := h
    have hz0 := (i4 z (by simpa using List.getElem?_mem hz)).1
    have hc0pos := i7 c0 (vecGet_mem _ _ _ hc0).1
    omega

/-- Appending the next convergence time keeps the table invariant. -/
theorem TableInv_push_cs (xs ys cs : List Int) (K : frac) (m c : Int)
    (hm : (cs.length : Int) = m) (hc : 0 < c) (hinv : TableInv xs ys cs K m) :
    TableInv xs ys (cs ++ [c]) K m := by
  obtain ⟨i1, i2, i3, i4, i5, i6, i7, i8, i9⟩ := hinv
  refine ⟨i1, i2, i3, i4, i5, ?_, ?_, i8, ?_⟩
  · simp only [List.length_append, List.length_singleton]; push_cast; omega
  · intro e he
    rcases List.mem_append.mp he with h | h
    · exact i7 e h
    · simp at h; rw [h]; exact hc
  · intro x c1 d h0 hlt hc1 hd
    refine i9 x c1 d h0 hlt ?_ hd
    unfold vecGet at hc1 ⊢
    have hn : ¬ x < 0 := by omega
    rw [if_neg hn] at hc1 ⊢
    rw [List.getElem?_append_left (by omega)] at hc1
    exact hc1

/-- One pass of the generation loop keeps the loop invariant and the target
bound. -/
theorem step_GenInv (F : Floating) (s s1 : GenState) (hinv : GenInv s)
    (hrun : s.status = Status.running) (h : func.step F s = some s1) :
    GenInv s1 ∧ s1.g.MK = s.g.MK := by
  obtain ⟨hx, hm⟩ := hinv
  rw [hrun] at hm
  obtain ⟨hlen, ht⟩ := hm
  unfold func.step at h
  simp only [Option.bind_eq_some] at h
  obtain ⟨c, h1, y, _, r, h3, h4⟩ := h
  have hc := nextconv_pos s.g s.is c s.x ht h1
  have ht1 := TableInv_push_cs s.g.xs s.g.ys s.g.cs s.g.K s.x c hlen hc ht
  have hlen1 : (((s.g.cs ++ [c]).length : Nat) : Int) = s.x + 1 := by
    simp only [List.length_append, List.length_singleton]; push_cast; omega
  obtain ⟨b, g1⟩ := r
  cases b with
  | false =>
    simp only [if_true] at h4
    simp only [Option.some.injEq] at h4
    subst h4
    obtain ⟨t1, t2, t3, _⟩ := emplace_false_TableInv _ g1 s.x y hx ht1 h3
    have hl : (g1.cs.length : Int) = s.x + 1 := by rw [t2]; exact hlen1
    exact ⟨⟨hx, hl, t1⟩, t3⟩
  | true =>
    simp only [Bool.true_eq_false, if_false] at h4
    obtain ⟨t1, t2, t3, _⟩ := emplace_true_TableInv _ g1 s.x y hx hlen1 ht1 h3
    obtain ⟨f1, f2, f3, f4, f5, f6⟩ := afterEmplace_fields F g1 s.is s.x y s1 h4
    have hl : (g1.cs.length : Int) = s.x + 1 := by rw [t2]; exact hlen1
    refine ⟨?_, by rw [f5, t3]⟩
    unfold GenInv
    rw [f1, f2, f3, f4]
    rcases f6 with ⟨a1, a2⟩ | ⟨a1, a2⟩
    · rw [a1, a2]
      exact ⟨by omega, hl, t1⟩
    · rw [a1, a2]
      exact ⟨hx, hl, t1⟩

/-- The loop invariant holds at the entry of the loop. -/
theorem start_GenInv (mk : frac) : GenInv (func.start mk) := by
  refine ⟨le_refl _, ?_⟩
  simp only [func.start]
  refine ⟨rfl, rfl, by simp, by simp, by simp, by simp, by simp, by simp, by decide, ?_⟩
  intro x c d h0 hlt
  omega

/-- The loop invariant and the target bound are kept along the generation. -/
theorem gen_GenInv (F : Floating) (n : Nat) : ∀ (s s1 : GenState), GenInv s →
    func.gen F n s = some s1 → GenInv s1 ∧ s1.g.MK = s.g.MK := by
  induction n with
  | zero =>
    intro s s1 hi h
    simp only [func.gen, Option.some.injEq] at h
    subst h
    exact ⟨hi, rfl⟩
  | succ n ih =>
    intro s s1 hi h
    cases hs : s.status with
    | running =>
      simp only [func.gen, hs, Option.bind_eq_some] at h
      obtain ⟨s0, h1, h2⟩ := h
      obtain ⟨a1, a2⟩ := step_GenInv F s s0 hi hs h1
      obtain ⟨b1, b2⟩ := ih s0 s1 a1 h2
      exact ⟨b1, by rw [b2, a2]⟩
    | success =>
      simp only [func.gen, hs, Option.some.injEq] at h
      subst h
      exact ⟨hi, rfl⟩
    | failure =>
      simp only [func.gen, hs, Option.some.injEq] at h
      subst h
      exact ⟨hi, rfl⟩

/-! ### func: the table read front first -/

/-- The table branch of `dir` (an upper-bound search in `xs`, then `ys[i-1]`)
is the lookup on the reversed vectors. -/
theorem table_lookup_eq (x : Int) : ∀ (xs ys : List Int), xs.length = ys.length →
    xs.reverse.Pairwise (fun a b => b < a) →
    (if upper_bound xs x = 0 then none else ys[upper_bound xs x - 1]?)
      = lookupR xs.reverse ys.reverse x := by
  intro xs
  induction xs using List.reverseRecOn with
  | nil =>
    intro ys _ _
    simp [upper_bound, lookupR]
  | append_singleton xs0 a ih =>
    intro ys hl hp
    rcases List.eq_nil_or_concat ys with hn | ⟨ys0, b, hb⟩
    · subst hn; simp at hl
    · rw [List.concat_eq_append] at hb
      subst hb
      have hl0 : xs0.length = ys0.length := by simpa using hl
      rw [List.reverse_append, List.reverse_append] at *
      simp only [List.reverse_singleton, List.singleton_append] at *
      have hp1 := List.pairwise_cons.mp hp
      simp only [lookupR]
      by_cases hax : a ≤ x
      · rw [if_pos hax]
        have hall : ∀ e ∈ xs0 ++ [a], (fun e => decide (x < e)) e = false := by
          intro e he
          rcases List.mem_append.mp he with h | h
          · have := hp1.1 e (by simpa using h)
            simp only [decide_eq_false_iff_not, not_lt]; omega
          · simp at h; subst h
            simp only [decide_eq_false_iff_not, not_lt]; exact hax
        have hub : upper_bound (xs0 ++ [a]) x = xs0.length + 1 := by
          unfold upper_bound
          rw [List.findIdx_eq_length_of_false hall]
          simp
        rw [hub]
        simp [hl0]
      · rw [if_neg hax]
        have hub : upper_bound (xs0 ++ [a]) x = upper_bound xs0 x := by
          unfold upper_bound
          rw [List.findIdx_append]
          by_cases hlt : List.findIdx (fun e => decide (x < e)) xs0 < xs0.length
          · rw [if_pos hlt]
          · rw [if_neg hlt]
            have hle := @List.findIdx_le_length _ (fun e => decide (x < e)) xs0
            have ha : decide (x < a) = true := by simp; omega
            simp [List.findIdx_cons, ha]
            omega
        rw [hub, ← ih ys0 hl0 hp1.2]
        by_cases hz : upper_bound xs0 x = 0
        · simp [hz]
        · rw [if_neg hz, if_neg hz]
          have hle : upper_bound xs0 x ≤ xs0.length := List.findIdx_le_length _
          rw [List.getElem?_append_left (by omega)]

/-- The lookup finds a breakpoint for every argument at or above the first
`x` of the table. -/
theorem lookupR_isSome (x : Int) : ∀ (rxs rys : List Int) (z : Int),
    rxs.length = rys.length → rxs.getLast? = some z → z ≤ x →
    ∃ d, lookupR rxs rys x = some d := by
  intro rxs
  induction rxs with
  | nil => intro rys z _ h; simp at h
  | cons a l ih =>
    intro rys z hl hz hzx
    cases rys with
    | nil => simp at hl
    | cons b m =>
      simp only [lookupR]
      by_cases hax : a ≤ x
      · rw [if_pos hax]; exact ⟨b, rfl⟩
      · rw [if_neg hax]
        cases l with
        | nil =>
          simp at hz
          omega
        | cons a1 l1 =>
          rw [List.getLast?_cons_cons] at hz
          exact ih m z (by simpa using hl) hz hzx

/-- Whatever the status, the table invariant holds for the count `m` of
arguments given a breakpoint: `x + 1` after success, `x` otherwise. -/
theorem GenInv_table (s : GenState) (h : GenInv s) :
    ∃ m, TableInv s.g.xs s.g.ys s.g.cs s.g.K m ∧ s.x ≤ m ∧ m ≤ s.x + 1 ∧
      (s.status = Status.success → m = s.x + 1) ∧ 0 ≤ s.x := by
  obtain ⟨hx, hm⟩ := h
  cases hs : s.status with
  | running =>
    rw [hs] at hm
    refine ⟨s.x, hm.2, le_refl _, by omega, ?_, hx⟩
    intro hc
    cases hc
  | success =>
    rw [hs] at hm
    exact ⟨s.x + 1, hm.2, by omega, le_refl _, fun _ => rfl, hx⟩
  | failure =>
    rw [hs] at hm
    refine ⟨s.x, hm.2, le_refl _, by omega, ?_, hx⟩
    intro hc
    cases hc

/-- A linear search for a test that is monotone along the list splits the
list: the test fails before the returned index and holds from it on. -/
theorem findIdx_monotone_spec (p : Int → Bool) (l : List Int)
    (hmono : ∀ (i j : Nat) (a b : Int), i ≤ j → l[i]? = some a → l[j]? = some b →
      p a = true → p b = true) :
    (∀ (j : Nat) (e : Int), j < l.findIdx p → l[j]? = some e → p e = false) ∧
    (∀ (j : Nat) (e : Int), l.findIdx p ≤ j → l[j]? = some e → p e = true) := by
  constructor
  · intro j e hj he
    have hjl : j < l.length := lt_of_lt_of_le hj (List.findIdx_le_length p)
    have := List.not_of_lt_findIdx hj
    rw [List.getElem?_eq_getElem hjl] at he
    cases he
    exact this
  · intro j e hj he
    have hjl : j < l.length := by
      by_contra hc
      rw [List.getElem?_eq_none (by omega)] at he
      cases he
    have hfl : l.findIdx p < l.length := by omega
    have h1 : p (l.get ⟨l.findIdx p, hfl⟩) = true := List.findIdx_getElem
    exact hmono (l.findIdx p) j _ e hj (List.getElem?_eq_getElem hfl) he h1

/-- In a strictly increasing list, elements are ordered as their indices. -/
theorem sorted_getElem_le (l : List Int) (hs : l.Pairwise (fun a b => a < b))
    (i j : Nat) (a b : Int) (hij : i ≤ j) (ha : l[i]? = some a) (hb : l[j]? = some b) :
    a ≤ b ∧ (i < j → a < b) := by
  have hjl : j < l.length := by
    by_contra hc
    rw [List.getElem?_eq_none (by omega)] at hb
    cases hb
  have hil : i < l.length := by omega
  rw [List.getElem?_eq_getElem hil] at ha
  rw [List.getElem?_eq_getElem hjl] at hb
  cases ha
  cases hb
  have key : i < j → l[i] < l[j] := fun h => (List.pairwise_iff_getElem.mp hs) i j hil hjl h
  refine ⟨?_, key⟩
  rcases Nat.lt_or_ge i j with h | h
  · exact le_of_lt (key h)
  · have : i = j := by omega
    subst this
    exact le_refl _

/-- On a strictly increasing vector the upper-bound search splits the vector at
`x`. -/
theorem upper_bound_spec (l : List Int) (hs : l.Pairwise (fun a b => a < b)) (x : Int) :
    (∀ (j : Nat) (e : Int), j < upper_bound l x → l[j]? = some e → e ≤ x) ∧
    (∀ (j : Nat) (e : Int), upper_bound l x ≤ j → l[j]? = some e → x < e) := by
  obtain ⟨h1, h2⟩ := findIdx_monotone_spec (fun e => decide (x < e)) l (by
    intro i j a b hij ha hb hp
    have := (sorted_getElem_le l hs i j a b hij ha hb).1
    simp only [decide_eq_true_eq] at hp ⊢
    omega)
  constructor
  · intro j e hj he
    have := h1 j e hj he
    simp only [decide_eq_false_iff_not, not_lt] at this
    exact this
  · intro j e hj he
    have := h2 j e hj he
    simpa using this

/-- On a strictly increasing vector the lower-bound search splits the vector at
`y`. -/
theorem lower_bound_spec (l : List Int) (hs : l.Pairwise (fun a b => a < b)) (y : Int) :
    (∀ (j : Nat) (e : Int), j < lower_bound l y → l[j]? = some e → e < y) ∧
    (∀ (j : Nat) (e : Int), lower_bound l y ≤ j → l[j]? = some e → y ≤ e) := by
  obtain ⟨h1, h2⟩ := findIdx_monotone_spec (fun e => !decide (e < y)) l (by
    intro i j a b hij ha hb hp
    have := (sorted_getElem_le l hs i j a b hij ha hb).1
    simp only [Bool.not_eq_true', decide_eq_false_iff_not, not_lt] at hp ⊢
    omega)
  constructor
  · intro j e hj he
    have := h1 j e hj he
    simpa using this
  · intro j e hj he
    have := h2 j e hj he
    simpa using this

/-- Two passes of the generation loop of `func(frac(5,2))`. -/
theorem gen_two_five_halves :
    func.gen Floating.never 2 (func.start ⟨5, 2⟩) = some stateAfterTwo := by
  decide!

/-- C7: in every state of the generation loop `xs` and `ys` have equal length
and increase strictly (so `ys` is non-decreasing), and once an `emplace` has
succeeded (the loop has passed `x = 0`, or ended with success, or the table is
non-empty) `xs[0] = 0`. -/
theorem func_breakpoints_increasing (F : Floating) (MK : frac) (n : Nat) (s : GenState)
    (h : func.gen F n (func.start MK) = some s) :
    s.g.xs.length = s.g.ys.length ∧
    s.g.xs.Pairwise (fun a b => a < b) ∧
    s.g.ys.Pairwise (fun a b => a < b) ∧ s.g.ys.Pairwise (fun a b => a ≤ b) ∧
    ((0 < s.x ∨ s.status = Status.success ∨ s.g.xs ≠ []) → s.g.xs[0]? = some 0) := by
  obtain ⟨hinv, _⟩ := gen_GenInv F n _ s (start_GenInv MK) h
  obtain ⟨m, ⟨i1, i2, i3, i4, i5, _⟩, m1, _, m3, m4⟩ := GenInv_table s hinv
  have hys := List.pairwise_reverse.mp i3
  refine ⟨i1, List.pairwise_reverse.mp i2, hys, hys.imp (fun hab => le_of_lt hab), ?_⟩
  intro hc
  have hm : 0 < m := by
    rcases hc with hc | hc | hc
    · omega
    · have := m3 hc; omega
    · rcases List.exists_mem_of_ne_nil _ hc with ⟨e, he⟩
      have := i4 e (by simpa using he)
      omega
  have := i5 hm
  rw [List.getLast?_reverse] at this
  rw [← List.head?_eq_getElem?]
  exact this

/-- C7 at a concrete state: `func(frac(5,2))` after two passes. -/
theorem func_breakpoints_increasing_witness :
    func.gen Floating.never 2 (func.start ⟨5, 2⟩) = some stateAfterTwo ∧
    stateAfterTwo.g.xs.length = stateAfterTwo.g.ys.length ∧
    stateAfterTwo.g.xs.Pairwise (fun a b => a < b) ∧
    stateAfterTwo.g.ys.Pairwise (fun a b => a < b) ∧
    stateAfterTwo.g.ys.Pairwise (fun a b => a ≤ b) ∧
    ((0 < stateAfterTwo.x ∨ stateAfterTwo.status = Status.success ∨ stateAfterTwo.g.xs ≠ []) →
      stateAfterTwo.g.xs[0]? = some 0) :=
  ⟨gen_two_five_halves,
    func_breakpoints_increasing Floating.never ⟨5, 2⟩ 2 stateAfterTwo gen_two_five_halves⟩

/-- C8: in every state of the generation loop with a non-empty table (in
particular in a constructed `func`), for every `y ≤ ys.back()` the call
`inv(y)` returns the least `x ≥ 0` with `dir(x) ≥ y`: `dir(inv(y)) ≥ y` and
`dir(x) < y` for every `0 ≤ x < inv(y)`. -/
theorem func_inv_least (F : Floating) (MK : frac) (n : Nat) (s : GenState)
    (h : func.gen F n (func.start MK) = some s) (yb : Int)
    (hb : s.g.ys.getLast? = some yb) (y : Int) (hy : y ≤ yb) :
    ∃ v, func.inv F s.g y = some v ∧ 0 ≤ v ∧
      (∃ d, func.dir F s.g v = some d ∧ y ≤ d) ∧
      (∀ x, 0 ≤ x → x < v → ∃ d, func.dir F s.g x = some d ∧ d < y) := by
  obtain ⟨hinv, _⟩ := gen_GenInv F n _ s (start_GenInv MK) h
  obtain ⟨m, ⟨i1, i2, i3, i4, i5, _⟩, _⟩ := GenInv_table s hinv
  have hxs := List.pairwise_reverse.mp i2
  have hys := List.pairwise_reverse.mp i3
  obtain ⟨l1, l2⟩ := lower_bound_spec s.g.ys hys y
  have hybm : yb ∈ s.g.ys := List.mem_of_mem_getLast? hb
  have hyne : s.g.ys ≠ [] := List.ne_nil_of_mem hybm
  have hL : 0 < s.g.ys.length := List.length_pos.mpr hyne
  have hlastidx : s.g.ys[s.g.ys.length - 1]? = some yb := by
    rw [← List.getLast?_eq_getElem?]; exact hb
  -- the lower-bound index is inside the table
  have hi : lower_bound s.g.ys y < s.g.ys.length := by
    by_contra hc
    have := l1 (s.g.ys.length - 1) yb (by omega) hlastidx
    omega
  have hix : lower_bound s.g.ys y < s.g.xs.length := by omega
  -- the last breakpoint
  have hxne : s.g.xs ≠ [] := by
    intro hc
    rw [hc] at hix
    simp at hix
  obtain ⟨xb, hxb⟩ : ∃ xb, s.g.xs.getLast? = some xb := by
    cases hgl : s.g.xs.getLast? with
    | none => exact absurd (List.getLast?_eq_none_iff.mp hgl) hxne
    | some xb => exact ⟨xb, rfl⟩
  have hxlast : s.g.xs[s.g.xs.length - 1]? = some xb := by
    rw [← List.getLast?_eq_getElem?]; exact hxb
  have hm : 0 < m := by
    have := i4 xb (by simpa using List.mem_of_mem_getLast? hxb)
    omega
  have hhead : s.g.xs[0]? = some 0 := by
    have := i5 hm
    rw [List.getLast?_reverse] at this
    rw [← List.head?_eq_getElem?]
    exact this
  -- the value returned by `inv`
  have hv : s.g.xs[lower_bound s.g.ys y]? = some (s.g.xs.get ⟨lower_bound s.g.ys y, hix⟩) :=
    List.getElem?_eq_getElem hix
  generalize s.g.xs.get ⟨lower_bound s.g.ys y, hix⟩ = v at hv
  have hvxb : v ≤ xb :=
    (sorted_getElem_le s.g.xs hxs _ _ v xb (by omega) hv hxlast).1
  have hdy : s.g.ys[lower_bound s.g.ys y]? = some (s.g.ys.get ⟨lower_bound s.g.ys y, hi⟩) :=
    List.getElem?_eq_getElem hi
  generalize s.g.ys.get ⟨lower_bound s.g.ys y, hi⟩ = d0 at hdy
  have hdir : ∀ x u, x ≤ xb → upper_bound s.g.xs x = u + 1 →
      func.dir F s.g x = s.g.ys[u]? := by
    intro x u hx hu
    unfold func.dir
    rw [hxb]
    simp only
    rw [if_neg (by omega), if_neg (by omega), hu]
    rfl
  refine ⟨v, ?_, ?_, ?_, ?_⟩
  · unfold func.inv
    rw [hb]
    simp only
    rw [if_neg (by omega)]
    exact hv
  · exact (i4 v (by simpa using List.getElem?_mem hv)).1
  · obtain ⟨u1, u2⟩ := upper_bound_spec s.g.xs hxs v
    have hub : upper_bound s.g.xs v = lower_bound s.g.ys y + 1 := by
      have a1 : ¬ upper_bound s.g.xs v ≤ lower_bound s.g.ys y := by
        intro hc
        have := u2 _ v hc hv
        omega
      have a2 : ¬ lower_bound s.g.ys y + 1 < upper_bound s.g.xs v := by
        intro hc
        have hle : upper_bound s.g.xs v ≤ s.g.xs.length := List.findIdx_le_length _
        have hn : lower_bound s.g.ys y + 1 < s.g.xs.length := by omega
        have e1 := u1 _ _ hc (List.getElem?_eq_getElem hn)
        have e2 := (sorted_getElem_le s.g.xs hxs _ _ v _ (by omega) hv
          (List.getElem?_eq_getElem hn)).2 (by omega)
        omega
      omega
    refine ⟨d0, ?_, l2 _ d0 (le_refl _) hdy⟩
    rw [hdir v _ hvxb hub]
    exact hdy
  · intro x h0 hxv
    obtain ⟨u1, u2⟩ := upper_bound_spec s.g.xs hxs x
    have a1 : upper_bound s.g.xs x ≤ lower_bound s.g.ys y := by
      by_contra hc
      have := u1 _ v (by omega) hv
      omega
    have a2 : upper_bound s.g.xs x ≠ 0 := by
      intro hc
      have := u2 0 0 (by omega) hhead
      omega
    obtain ⟨u, hu⟩ : ∃ u, upper_bound s.g.xs x = u + 1 := ⟨upper_bound s.g.xs x - 1, by omega⟩
    have hul : u < s.g.ys.length := by omega
    refine ⟨s.g.ys.get ⟨u, hul⟩, ?_, ?_⟩
    · rw [hdir x u (by omega) hu]
      exact List.getElem?_eq_getElem hul
    · exact l1 u _ (by omega) (List.getElem?_eq_getElem hul)

/-- C8 at a concrete state: `func(frac(5,2))` after two passes, at `y = 3`. -/
theorem func_inv_least_witness :
    func.gen Floating.never 2 (func.start ⟨5, 2⟩) = some stateAfterTwo ∧
    stateAfterTwo.g.ys.getLast? = some 4 ∧
    ∃ v, func.inv Floating.never stateAfterTwo.g 3 = some v ∧ 0 ≤ v ∧
      (∃ d, func.dir Floating.never stateAfterTwo.g v = some d ∧ 3 ≤ d) ∧
      (∀ x, 0 ≤ x → x < v → ∃ d, func.dir Floating.never stateAfterTwo.g x = some d ∧ d < 3) :=
  ⟨gen_two_five_halves, rfl,
    func_inv_least Floating.never ⟨5, 2⟩ 2 stateAfterTwo gen_two_five_halves 4 rfl 3 (by decide)⟩

/-! ### func: `maxallowed` and the achieved bound -/

/-- Truncated division of a non-negative number by a positive one rounds
down. -/
theorem tdiv_mul_le_of_nonneg (a b : Int) (ha : 0 ≤ a) (hb : 0 < b) : a.tdiv b * b ≤ a := by
  rw [Int.tdiv_eq_ediv ha (le_of_lt hb)]
  exact Int.ediv_mul_le a (by omega)

/-- The value of `ceil` is never below the rational, whatever the sign of the
stored denominator. -/
theorem frac_ceil_ge (q : frac) (r : Int) (hsign : q.den < 0 → 0 < q.num)
    (h : q.ceil = some r) : q.toRat ≤ (r : ℚ) := by
  unfold frac.ceil at h
  by_cases hd0 : q.den = 0
  · rw [if_pos hd0] at h; cases h
  · rw [if_neg hd0] at h
    simp only [Option.some.injEq] at h
    unfold frac.toRat
    rcases lt_or_gt_of_ne hd0 with hneg | hpos
    · have hnum := hsign hneg
      have hD : 0 < -q.den := by omega
      have ht := tdiv_mul_le_of_nonneg (q.num - 1) (-q.den) (by omega) hD
      have e : (q.num - 1).tdiv q.den = -((q.num - 1).tdiv (-q.den)) := by
        rw [Int.tdiv_neg, neg_neg]
      have hr : r * q.den ≤ q.num := by
        rw [← h, e]
        nlinarith
      have hdq : (q.den : ℚ) < 0 := by exact_mod_cast hneg
      rw [div_le_iff_of_neg hdq]
      exact_mod_cast hr
    · have ht := Int.lt_tdiv_add_one_mul_self (q.num - 1) hpos
      rw [h] at ht
      have hdq : (0 : ℚ) < q.den := by exact_mod_cast hpos
      rw [div_le_iff₀ hdq]
      have : q.num ≤ r * q.den := by omega
      exact_mod_cast this

/-- When `ceil` returns at least `2`, the value below it is strictly below the
rational. -/
theorem frac_ceil_pred_lt (q : frac) (r : Int) (hsign : q.den < 0 → 0 < q.num)
    (h : q.ceil = some r) (hr : 2 ≤ r) : ((r - 1 : Int) : ℚ) < q.toRat := by
  unfold frac.ceil at h
  by_cases hd0 : q.den = 0
  · rw [if_pos hd0] at h; cases h
  · rw [if_neg hd0] at h
    simp only [Option.some.injEq] at h
    unfold frac.toRat
    rcases lt_or_gt_of_ne hd0 with hneg | hpos
    · have hnum := hsign hneg
      have := Int.tdiv_nonpos (a := q.num - 1) (b := q.den) (by omega) (le_of_lt hneg)
      omega
    · have hdq : (0 : ℚ) < q.den := by exact_mod_cast hpos
      by_cases ha : 0 ≤ q.num - 1
      · have ht := tdiv_mul_le_of_nonneg (q.num - 1) q.den ha hpos
        rw [lt_div_iff₀ hdq]
        have : (r - 1) * q.den < q.num := by
          rw [← h]
          have e : (q.num - 1).tdiv q.den + 1 - 1 = (q.num - 1).tdiv q.den := by ring
          rw [e]
          omega
        exact_mod_cast this
      · have hn : q.num - 1 = -(1 - q.num) := by ring
        have := Int.tdiv_nonneg (a := 1 - q.num) (b := q.den) (by omega) (le_of_lt hpos)
        rw [hn, Int.neg_tdiv] at h
        omega

/-- The narrowing conversion keeps a value of the `int` range. -/
theorem narrowInt_eq_self (v : Int) (h1 : -2147483648 ≤ v) (h2 : v < 2147483648) :
    narrowInt v = v := by
  unfold narrowInt
  rw [Int.emod_eq_of_lt (by omega) (by omega)]
  omega

/-- The narrowed value lies in the `int` range. -/
theorem narrowInt_range (v : Int) : -2147483648 ≤ narrowInt v ∧ narrowInt v < 2147483648 := by
  unfold narrowInt
  have h1 := Int.emod_nonneg (v + 2147483648) (by norm_num : (4294967296 : Int) ≠ 0)
  have h2 := Int.emod_lt_of_pos (v + 2147483648) (by norm_num : (0 : Int) < 4294967296)
  omega

/-- What `maxallowed(x)` returns at an argument of the convergence table: the
narrowed `v`, where `v + 1` is the `ceil` of a stored pair standing for
`MK * ideal(x) - cs[x]`. -/
theorem maxallowed_spec (F : Floating) (g : func) (hnum : 0 ≤ g.MK.num) (hden : 0 < g.MK.den)
    (x c y : Int) (hx : 0 ≤ x) (hc : vecGet g.cs x = some c) (fuel : Nat)
    (h : func.maxallowed F g (fuel + 1) x = some y) :
    ∃ (q : frac) (v : Int), q.ceil = some (v + 1) ∧ y = narrowInt v ∧
      (q.den < 0 → 0 < q.num) ∧
      q.toRat = g.MK.toRat * ((2 * x + 1 : Int) : ℚ) - (c : ℚ) := by
  unfold func.maxallowed at h
  simp only [Option.bind_eq_some, Option.some.injEq] at h
  obtain ⟨p, hp, c1, hc1, q, hq, r, hr, hy⟩ := h
  have hlt : x < (g.cs.length : Int) := (vecGet_mem _ _ _ hc).2.2
  simp only [func.convergence] at hc1
  rw [if_pos hlt, hc] at hc1
  cases hc1
  unfold frac.mul frac.ofInt at hp
  simp only at hp
  obtain ⟨p1, _, p3, _⟩ := frac_new_toRat _ _ (by omega) p hp
  have hpden : 0 < p.den := p3 (by
    unfold func.ideal
    exact Int.mul_nonneg hnum (by omega))
  unfold frac.sub frac.ofInt at hq
  simp only at hq
  obtain ⟨q1, _, _, q4⟩ := frac_new_toRat _ _ (by omega) q hq
  refine ⟨q, r - 1, ?_, hy.symm, q4, ?_⟩
  · rw [hr]; congr 1; ring
  · rw [q1]
    have hpq : (p.den : ℚ) ≠ 0 := by exact_mod_cast (by omega : p.den ≠ 0)
    have hmq : (g.MK.den : ℚ) ≠ 0 := by exact_mod_cast (by omega : g.MK.den ≠ 0)
    have e1 : g.MK.toRat * ((2 * x + 1 : Int) : ℚ) = p.toRat := by
      rw [p1]
      unfold frac.toRat func.ideal
      push_cast
      field_simp
    rw [e1]
    unfold frac.toRat
    push_cast
    field_simp
    ring

/-- At an argument of the convergence table, for a target bound stored with
non-negative numerator and positive denominator, `maxallowed(x)` returns. -/
theorem maxallowed_isSome (F : Floating) (g : func) (hnum : 0 ≤ g.MK.num) (hden : 0 < g.MK.den)
    (x c : Int) (hx : 0 ≤ x) (hc : vecGet g.cs x = some c) (fuel : Nat) :
    ∃ y, func.maxallowed F g (fuel + 1) x = some y := by
  have hid : 0 < func.ideal x := by unfold func.ideal; omega
  have hlt : x < (g.cs.length : Int) := (vecGet_mem _ _ _ hc).2.2
  have hconv : func.convergence F g (fuel + 1) x = some c := by
    simp only [func.convergence]
    rw [if_pos hlt, hc]
  obtain ⟨p, hp⟩ := frac_new_isSome (g.MK.num * func.ideal x) (g.MK.den * 1) (by omega)
  obtain ⟨_, _, p3, _⟩ := frac_new_toRat _ _ (by omega) p hp
  have hpden : 0 < p.den := p3 (Int.mul_nonneg hnum (le_of_lt hid))
  obtain ⟨q, hq⟩ := frac_new_isSome (p.num * 1 - c * p.den) (p.den * 1) (by omega)
  obtain ⟨_, q2, _, _⟩ := frac_new_toRat _ _ (by omega) q hq
  refine ⟨narrowInt ((q.num - 1).tdiv q.den + 1 - 1), ?_⟩
  unfold func.maxallowed frac.mul frac.sub frac.ofInt
  simp only
  rw [hp]
  simp only [Option.some_bind]
  rw [hconv]
  simp only [Option.some_bind]
  rw [hq]
  simp only [Option.some_bind]
  unfold frac.ceil
  rw [if_neg q2]
  simp only [Option.some_bind]

/-- Three passes of the generation loop of `func(frac(5,2))` when the stopping
test succeeds at `x = 2`. -/
theorem gen_three_five_halves :
    func.gen Floating.early 3 (func.start ⟨5, 2⟩) = some stateSuccess := by
  decide!

/-- A pass that ends with failure leaves an achieved bound that passed the
assertion. -/
theorem step_failure_ge (F : Floating) (s s1 : GenState) (h : func.step F s = some s1)
    (hs1 : s1.status = Status.failure) : s1.g.K.ge s1.g.MK = true := by
  unfold func.step at h
  simp only [Option.bind_eq_some] at h
  obtain ⟨c, _, y, _, r, h3, h4⟩ := h
  obtain ⟨b, g1⟩ := r
  cases b with
  | false =>
    simp only [if_true, Option.some.injEq] at h4
    subst h4
    obtain ⟨_, c1, nK, _, _, e3, e4⟩ := emplace_false_inv _ g1 s.x y h3
    subst e4
    exact e3
  | true =>
    simp only [Bool.true_eq_false, if_false] at h4
    obtain ⟨_, _, _, _, _, f6⟩ := afterEmplace_fields F g1 s.is s.x y s1 h4
    rcases f6 with ⟨a1, _⟩ | ⟨a1, _⟩
    · rw [a1] at hs1; cases hs1
    · rw [a1] at hs1; cases hs1

/-- A generation that ends with failure leaves an achieved bound that passed
the assertion. -/
theorem gen_failure_ge (F : Floating) (n : Nat) : ∀ (s s1 : GenState),
    (s.status = Status.failure → s.g.K.ge s.g.MK = true) →
    func.gen F n s = some s1 → s1.status = Status.failure → s1.g.K.ge s1.g.MK = true := by
  induction n with
  | zero =>
    intro s s1 h0 h hs1
    simp only [func.gen, Option.some.injEq] at h
    subst h
    exact h0 hs1
  | succ n ih =>
    intro s s1 h0 h hs1
    cases hs : s.status with
    | running =>
      simp only [func.gen, hs, Option.bind_eq_some] at h
      obtain ⟨s0, h1, h2⟩ := h
      exact ih s0 s1 (step_failure_ge F s s0 h1) h2 hs1
    | success =>
      simp only [func.gen, hs, Option.some.injEq] at h
      subst h
      exact h0 hs1
    | failure =>
      simp only [func.gen, hs, Option.some.injEq] at h
      subst h
      exact h0 hs1

/-- With a zero second argument `GCD` returns its first argument. -/
theorem GCD_zero_right (x : Int) : GCD x 0 = x := by
  simp [GCD, GCDloop]

/-- C11 as the code behaves: `x / frac(0)` and `x /= frac(0)` fault exactly
when the numerator of `x` is zero; for every other `x` both return the pair
`1/0` (this is what `frac_div_zero_returns` shows at `x = frac(1)`). -/
theorem frac_div_zero_cases (x : frac) :
    x.div (frac.ofInt 0) = (if x.num = 0 then none else some ⟨1, 0⟩) ∧
    x.divAssign (frac.ofInt 0) = (if x.num = 0 then none else some ⟨1, 0⟩) := by
  have key : frac.reduce ⟨x.num * 1, x.den * 0⟩
      = (if x.num = 0 then none else some ⟨1, 0⟩) := by
    unfold frac.reduce
    simp only [mul_one, mul_zero, GCD_zero_right]
    by_cases h : x.num = 0
    · simp [h]
    · simp [h, Int.tdiv_self h]
  exact ⟨key, key⟩

/-- C11 fails as stated: `frac(1) / frac(0)` and `frac(1) /= frac(0)` return
the pair `1/0`, a `frac` with denominator `0`, and do not fault. -/
theorem frac_div_zero_returns :
    (frac.ofInt 1).div (frac.ofInt 0) = some ⟨1, 0⟩ ∧
    (frac.ofInt 1).divAssign (frac.ofInt 0) = some ⟨1, 0⟩ := by
  decide

/-- C12: the binary `x * y` is `(ac + 2bd) + (ad + bc)√2`, but `x *= y` is
not: for `x = sq2(1,0)` and `y = sq2(0,1)` the product `x * y` is `sq2(0,1)`
while `x *= y` leaves and returns `sq2(0,0)`. -/
theorem sq2_mulAssign_differs :
    (∀ a b c d : Int, (sq2.mk a b).mul ⟨c, d⟩ = ⟨a * c + 2 * b * d, a * d + b * c⟩) ∧
    (sq2.mk 1 0).mul ⟨0, 1⟩ = ⟨0, 1⟩ ∧ (sq2.mk 1 0).mulAssign ⟨0, 1⟩ = ⟨0, 0⟩ := by
  refine ⟨?_, by decide, by decide⟩
  intro a b c d
  simp only [sq2.mul, sq2.mk.injEq, true_and]
  ring

/-- An integer solution of `c² = 2 d²` is zero. -/
theorem sq_eq_two_mul_sq (c d : Int) (h : c * c - 2 * d * d = 0) : c = 0 ∧ d = 0 := by
  by_cases hd : d = 0
  · subst hd
    simp only [mul_zero, sub_zero, mul_self_eq_zero] at h
    exact ⟨h, rfl⟩
  · exfalso
    have hdr : (d : ℝ) ≠ 0 := by exact_mod_cast hd
    have hr : ((c * c - 2 * d * d : Int) : ℝ) = 0 := by exact_mod_cast h
    push_cast at hr
    have hsq : (|(c : ℝ)| / |(d : ℝ)|) * (|(c : ℝ)| / |(d : ℝ)|) = 2 := by
      have hd2 : |(d : ℝ)| ≠ 0 := abs_ne_zero.mpr hdr
      field_simp
      linarith
    have hnn : (0 : ℝ) ≤ |(c : ℝ)| / |(d : ℝ)| := div_nonneg (abs_nonneg _) (abs_nonneg _)
    have hs : Real.sqrt 2 = |(c : ℝ)| / |(d : ℝ)| :=
      (Real.sqrt_eq_iff_mul_self_eq (by norm_num) hnn).mpr hsq.symm
    apply irrational_sqrt_two
    refine ⟨(|c| : Int) / (|d| : Int), ?_⟩
    rw [hs]
    push_cast
    rfl

/-! ### sq2: the norm of a divisor in `long long` arithmetic -/

/-- A value of the `long long` range is not changed by wrapping. -/
theorem wrapLL_eq_self (v : Int) (h1 : -9223372036854775808 ≤ v)
    (h2 : v < 9223372036854775808) : wrapLL v = v := by
  unfold wrapLL
  rw [Int.emod_eq_of_lt (by omega) (by omega)]
  omega

/-- The product of two integers below `2^30` in absolute value is below `2^60`
in absolute value. -/
theorem mul_bound_of_abs_lt (a b : Int) (ha : |a| < 1073741824) (hb : |b| < 1073741824) :
    -1152921504606846976 < a * b ∧ a * b < 1152921504606846976 := by
  have h := mul_lt_mul'' ha hb (abs_nonneg a) (abs_nonneg b)
  rw [← abs_mul] at h
  norm_num at h
  exact abs_lt.mp h

/-- C13 fails as stated: for the divisor `sq2(4294967296, 0)`, which is not
`sq2(0,0)`, the product `c*c` is `2^64`, which a `long long` cannot hold; in
a build that wraps around the norm computed by `operator/` is `0` and the
division is a division by zero.  Over the integers the norm is `2^64`. -/
theorem sq2_norm_wraps_to_zero :
    wrapLL (4294967296 * 4294967296) = 0 ∧
    sq2.normLL ⟨4294967296, 0⟩ = 0 ∧
    sq2.divLL ⟨1, 0⟩ ⟨4294967296, 0⟩ = none ∧
    (sq2.mk 4294967296 0) ≠ ⟨0, 0⟩ ∧
    sq2.norm ⟨4294967296, 0⟩ = 18446744073709551616 := by
  refine ⟨by decide, by decide, by decide, by decide, by decide⟩

/-- C13 as amended: for operands `x` and `y = c + d√2` whose coordinates are
below `2^30` in absolute value, no operation of `operator/` overflows: the norm
computed in `long long` is `c*c - 2*d*d`, it is zero exactly when `c = 0` and
`d = 0`, so `x / y` faults (divides by zero) exactly when `y` is `sq2(0,0)`,
and otherwise returns what the operator returns over the integers. -/
theorem sq2_norm_zero_iff (x : sq2) (c d : Int) (hc : |c| < 1073741824)
    (hd : |d| < 1073741824) (hxa : |x.a| < 1073741824) (hxb : |x.b| < 1073741824) :
    sq2.normLL ⟨c, d⟩ = c * c - 2 * d * d ∧
    (sq2.normLL ⟨c, d⟩ = 0 ↔ c = 0 ∧ d = 0) ∧
    (x.divLL ⟨c, d⟩ = none ↔ (sq2.mk c d) = ⟨0, 0⟩) ∧
    x.divLL ⟨c, d⟩ = x.div ⟨c, d⟩ := by
  obtain ⟨c1, c2⟩ := mul_bound_of_abs_lt c c hc hc
  obtain ⟨d1, d2⟩ := mul_bound_of_abs_lt d d hd hd
  obtain ⟨p1, p2⟩ := mul_bound_of_abs_lt x.a c hxa hc
  obtain ⟨p3, p4⟩ := mul_bound_of_abs_lt x.b d hxb hd
  obtain ⟨p5, p6⟩ := mul_bound_of_abs_lt x.b c hxb hc
  obtain ⟨p7, p8⟩ := mul_bound_of_abs_lt x.a d hxa hd
  have hd3 := abs_lt.mp hd
  have hb3 := abs_lt.mp hxb
  have e2d : wrapLL (2 * d) = 2 * d := wrapLL_eq_self _ (by omega) (by omega)
  have e2b : wrapLL (2 * x.b) = 2 * x.b := wrapLL_eq_self _ (by omega) (by omega)
  have hnorm : sq2.normLL ⟨c, d⟩ = c * c - 2 * d * d := by
    unfold sq2.normLL
    simp only
    rw [e2d, wrapLL_eq_self (c * c) (by omega) (by omega),
      wrapLL_eq_self (2 * d * d) (by rw [mul_assoc]; omega) (by rw [mul_assoc]; omega),
      wrapLL_eq_self _ (by rw [mul_assoc]; omega) (by rw [mul_assoc]; omega)]
  have hA : x.numALL ⟨c, d⟩ = x.a * c - 2 * x.b * d := by
    unfold sq2.numALL
    simp only
    rw [e2b, wrapLL_eq_self (x.a * c) (by omega) (by omega),
      wrapLL_eq_self (2 * x.b * d) (by rw [mul_assoc]; omega) (by rw [mul_assoc]; omega),
      wrapLL_eq_self _ (by rw [mul_assoc]; omega) (by rw [mul_assoc]; omega)]
  have hB : x.numBLL ⟨c, d⟩ = x.b * c - x.a * d := by
    unfold sq2.numBLL
    simp only
    rw [wrapLL_eq_self (x.b * c) (by omega) (by omega),
      wrapLL_eq_self (x.a * d) (by omega) (by omega),
      wrapLL_eq_self _ (by omega) (by omega)]
  have h1 : sq2.normLL ⟨c, d⟩ = 0 ↔ c = 0 ∧ d = 0 := by
    rw [hnorm]
    constructor
    · intro h
      exact sq_eq_two_mul_sq c d h
    · rintro ⟨rfl, rfl⟩
      rfl
  have hdiv : x.divLL ⟨c, d⟩ = x.div ⟨c, d⟩ := by
    unfold sq2.divLL sq2.div sq2.norm
    rw [hA, hB, hnorm]
    simp only
    by_cases hn : c * c - 2 * d * d = 0
    · rw [if_pos hn, if_pos hn]
    · rw [if_neg hn, if_neg hn, if_neg]
      rintro ⟨_, h | h⟩
      · rw [mul_assoc] at h; omega
      · omega
  refine ⟨hnorm, h1, ?_, hdiv⟩
  rw [hdiv]
  unfold sq2.div
  by_cases hn : (sq2.mk c d).norm = 0
  · rw [if_pos hn]
    have := sq_eq_two_mul_sq c d hn
    simp [this.1, this.2]
  · rw [if_neg hn]
    constructor
    · intro h; cases h
    · intro h
      exfalso
      apply hn
      simp only [sq2.mk.injEq] at h
      rw [h.1, h.2]
      rfl

/-- C13 as amended, at concrete operands: `(1 - 2√2) / (3 + 2√2)` has norm
`3*3 - 2*2*2 = 1` and does not fault. -/
theorem sq2_norm_zero_iff_witness :
    |(3 : Int)| < 1073741824 ∧ |(2 : Int)| < 1073741824 ∧
    |(sq2.mk 1 (-2)).a| < 1073741824 ∧ |(sq2.mk 1 (-2)).b| < 1073741824 ∧
    sq2.normLL ⟨3, 2⟩ = 1 ∧ (sq2.mk 1 (-2)).divLL ⟨3, 2⟩ = some ⟨11, -8⟩ ∧
    (sq2.normLL ⟨3, 2⟩ = 3 * 3 - 2 * 2 * 2 ∧
    (sq2.normLL ⟨3, 2⟩ = 0 ↔ (3 : Int) = 0 ∧ (2 : Int) = 0) ∧
    ((sq2.mk 1 (-2)).divLL ⟨3, 2⟩ = none ↔ (sq2.mk 3 2) = ⟨0, 0⟩) ∧
    (sq2.mk 1 (-2)).divLL ⟨3, 2⟩ = (sq2.mk 1 (-2)).div ⟨3, 2⟩) :=
  ⟨by decide, by decide, by decide, by decide, by decide, by decide,
    sq2_norm_zero_iff ⟨1, -2⟩ 3 2 (by decide) (by decide) (by decide) (by decide)⟩

/-- C14: `empty()` answers the opposite of emptiness: on the default
constructed deque (`size() == 0`) it returns `false`, and after one
`push_back` (`size() == 1`) it returns `true`. -/
theorem max_deque_empty_inverted :
    (max_deque.init : max_deque Int).size = 0 ∧
    (max_deque.init : max_deque Int).empty = false ∧
    ((max_deque.init : max_deque Int).push_back (fun a b => decide (a < b)) 1).size = 1 ∧
    ((max_deque.init : max_deque Int).push_back (fun a b => decide (a < b)) 1).empty = true := by
  decide

/-! ### `ceil` and `maxallowed` -/

/-- C17: for a stored pair in lowest terms with non-negative numerator and
positive denominator, `ceil` returns the least integer that is at least the
rational. -/
theorem frac_ceil_least (f : frac) (hn : 0 ≤ f.num) (hd : 0 < f.den)
    (hg : Int.gcd f.num f.den = 1) :
    ∃ r, f.ceil = some r ∧ f.toRat ≤ (r : ℚ) ∧ (∀ z : Int, f.toRat ≤ (z : ℚ) → r ≤ z) ∧
      r = ⌈f.toRat⌉ := by
  have hsome : f.ceil = some ((f.num - 1).tdiv f.den + 1) := by
    unfold frac.ceil
    rw [if_neg (by omega)]
  have hge := frac_ceil_ge f _ (by omega) hsome
  have hdq : (0 : ℚ) < f.den := by exact_mod_cast hd
  have hleast : ∀ z : Int, f.toRat ≤ (z : ℚ) → (f.num - 1).tdiv f.den + 1 ≤ z := by
    intro z hz
    unfold frac.toRat at hz
    rw [div_le_iff₀ hdq] at hz
    have hz1 : f.num ≤ z * f.den := by exact_mod_cast hz
    by_cases h0 : f.num = 0
    · have hden1 : f.den = 1 := by
        rw [h0, Int.gcd_zero_left] at hg
        omega
      rw [h0, hden1] at hz1 ⊢
      simp only [Int.tdiv_one]
      omega
    · have ht := tdiv_mul_le_of_nonneg (f.num - 1) f.den (by omega) hd
      by_contra hc
      push_neg at hc
      have : z * f.den ≤ (f.num - 1).tdiv f.den * f.den :=
        Int.mul_le_mul_of_nonneg_right (by omega) (le_of_lt hd)
      omega
  refine ⟨_, hsome, hge, hleast, ?_⟩
  apply le_antisymm
  · exact hleast _ (Int.le_ceil _)
  · exact Int.ceil_le.mpr hge

/-- C17 at a concrete pair: `ceil(7/2) = 4`. -/
theorem frac_ceil_least_witness :
    (0 : Int) ≤ (frac.mk 7 2).num ∧ (0 : Int) < (frac.mk 7 2).den ∧
    Int.gcd (frac.mk 7 2).num (frac.mk 7 2).den = 1 ∧
    (frac.mk 7 2).ceil = some 4 ∧
    ∃ r, (frac.mk 7 2).ceil = some r ∧ (frac.mk 7 2).toRat ≤ (r : ℚ) ∧
      (∀ z : Int, (frac.mk 7 2).toRat ≤ (z : ℚ) → r ≤ z) ∧ r = ⌈(frac.mk 7 2).toRat⌉ :=
  ⟨by decide, by decide, by decide, by decide,
    frac_ceil_least ⟨7, 2⟩ (by decide) (by decide) (by decide)⟩

/-- The invariant reads the history only from `m_begin` on. -/
theorem max_deque_Inv_congr {T : Type} [LinearOrder T] (q : max_deque T) (h h1 : List T)
    (hi : q.Inv h) (hl : h1.length = h.length)
    (hs : ∀ j, q.m_begin ≤ j → h1[j]? = h[j]?) : q.Inv h1 := by
  obtain ⟨i1, i2, i3, i4, i5⟩ := hi
  refine ⟨by rw [hl]; exact i1, i2, ?_, i4, ?_⟩
  · intro p hp
    obtain ⟨a1, a2⟩ := i3 p hp
    exact ⟨a1, by rw [hs p.2 a1]; exact a2⟩
  · intro j v hj hv
    rw [hs j hj] at hv
    exact i5 j v hj hv

/-- The invariant gives the retained-candidates invariant, and `top()` is the
largest retained value. -/
theorem max_deque_Retained_of_Inv {T : Type} [LinearOrder T] (q : max_deque T) (h : List T)
    (hi : q.Inv h) :
    q.Retained ∧ (q.m_begin < q.m_end → ∃ t, q.top = some t ∧ ∀ p ∈ q.m_data, p.1 ≤ t) := by
  obtain ⟨i1, i2, i3, i4, i5⟩ := hi
  have hne : q.m_begin < q.m_end → q.m_data ≠ [] := by
    intro hs hnil
    have hb : q.m_begin < h.length := by omega
    obtain ⟨p0, hp0, _, _⟩ := i5 q.m_begin (h.get ⟨q.m_begin, hb⟩) (le_refl _)
      (by simp [List.getElem?_eq_getElem hb])
    rw [hnil] at hp0
    simp at hp0
  refine ⟨⟨i4.imp (fun hab => hab.2), i4.imp (fun hab => hab.1), ?_, hne⟩, ?_⟩
  · intro p hp
    obtain ⟨a1, a2⟩ := i3 p hp
    refine ⟨a1, ?_⟩
    by_contra hc
    rw [List.getElem?_eq_none (by omega)] at a2
    cases a2
  · intro hs
    cases hd : q.m_data with
    | nil => exact absurd hd (hne hs)
    | cons p rest =>
      rw [hd] at i4
      refine ⟨p.1, by simp [max_deque.top, hd], ?_⟩
      intro r hr
      rcases List.mem_cons.mp hr with e | e
      · rw [e]
      · exact le_of_lt ((List.pairwise_cons.mp i4).1 r e).2

/-- On a non-empty window with `front() > 0`, whose indices fit `size_t`,
`push_front(v)` does not fault, moves the front back by one and keeps the
invariant for a history holding `v` at the new front index. -/
theorem max_deque_Inv_push_front {T : Type} [LinearOrder T] (q : max_deque T)
    (h : List T) (v : T) (hi : q.Inv h) (hb : 0 < q.m_begin) (hs : q.m_begin < q.m_end)
    (he : q.m_end ≤ 2 ^ 64) (hv : h[q.m_begin - 1]? = some v) :
    ∃ q1, q.push_front (fun a b => decide (a < b)) v = some q1 ∧ q1.Inv h ∧
      q1.m_begin = q.m_begin - 1 ∧ q1.m_end = q.m_end ∧
      q1.top = (q.top.map fun t => if t < v then v else t) := by
  obtain ⟨i1, i2, i3, i4, i5⟩ := hi
  have hnb : (q.m_begin + 2 ^ 64 - 1) % 2 ^ 64 = q.m_begin - 1 := by
    have h1 : q.m_begin + 2 ^ 64 - 1 = (q.m_begin - 1) + 2 ^ 64 := by omega
    rw [h1, Nat.add_mod_right]
    exact Nat.mod_eq_of_lt (by omega)
  have hbl : q.m_begin < h.length := by omega
  obtain ⟨p0, hp0, _, _⟩ := i5 q.m_begin (h.get ⟨q.m_begin, hbl⟩) (le_refl _)
    (by simp [List.getElem?_eq_getElem hbl])
  cases hd : q.m_data with
  | nil => rw [hd] at hp0; simp at hp0
  | cons p rest =>
    rw [hd] at i3 i4 i5
    unfold max_deque.push_front
    rw [hd]
    simp only [hnb, decide_eq_true_eq]
    have hdom : ∀ j w, q.m_begin - 1 ≤ j → h[j]? = some w → q.m_begin ≤ j ∨ (j = q.m_begin - 1 ∧ w = v) := by
      intro j w hj hw
      by_cases hjb : q.m_begin ≤ j
      · exact Or.inl hjb
      · have : j = q.m_begin - 1 := by omega
        subst this
        rw [hv] at hw
        cases hw
        exact Or.inr ⟨rfl, rfl⟩
    by_cases hlt : p.1 < v
    · rw [if_pos hlt]
      refine ⟨_, rfl, ⟨i1, by simp only; omega, ?_, ?_, ?_⟩, rfl, rfl, ?_⟩
      · intro r hr
        simp only at hr ⊢
        rcases List.mem_cons.mp hr with e | e
        · subst e
          exact ⟨le_refl _, hv⟩
        · obtain ⟨a1, a2⟩ := i3 r e
          exact ⟨by omega, a2⟩
      · simp only
        refine List.pairwise_cons.mpr ⟨?_, i4⟩
        intro r hr
        have a1 := (i3 r hr).1
        refine ⟨by simp only; omega, ?_⟩
        rcases List.mem_cons.mp hr with e | e
        · rw [e]; exact hlt
        · exact lt_trans ((List.pairwise_cons.mp i4).1 r e).2 hlt
      · intro j w hj hw
        simp only at hj ⊢
        rcases hdom j w hj hw with hjb | ⟨e1, e2⟩
        · obtain ⟨r, hr, r1, r2⟩ := i5 j w hjb hw
          exact ⟨r, List.mem_cons_of_mem _ hr, r1, r2⟩
        · subst e2
          exact ⟨(w, q.m_begin - 1), by simp, by simp only; omega, le_refl _⟩
      · simp [max_deque.top, hd, hlt]
    · rw [if_neg hlt]
      refine ⟨_, rfl, ⟨i1, by simp only; omega, ?_, i4, ?_⟩, rfl, rfl, ?_⟩
      · intro r hr
        obtain ⟨a1, a2⟩ := i3 r hr
        exact ⟨by simp only; omega, a2⟩
      · intro j w hj hw
        simp only at hj ⊢
        rcases hdom j w hj hw with hjb | ⟨e1, e2⟩
        · exact i5 j w hjb hw
        · subst e2
          exact ⟨p, by simp, by have := (i3 p (by simp)).1; omega, not_lt.mp hlt⟩
      · simp [max_deque.top, hd, hlt]

/-- A guarded run with pushes at the front, on indices that fit `size_t`, does
not fault and keeps the invariant for some history. -/
theorem max_deque_runW_Inv {T : Type} [LinearOrder T] (ops : List (WindowOp T)) :
    ∀ (q : max_deque T) (h : List T), q.Inv h → q.m_end + ops.length ≤ 2 ^ 64 →
      WindowOp.guarded q.m_begin q.m_end ops = true →
      ∃ q1 h1, q.runW (fun a b => decide (a < b)) ops = some q1 ∧ q1.Inv h1 := by
  induction ops with
  | nil =>
    intro q h hi _ _
    exact ⟨q, h, rfl, hi⟩
  | cons op r ih =>
    intro q h hi hlen hg
    simp only [List.length_cons] at hlen
    cases op with
    | push_back v =>
      have hi1 := max_deque_Inv_push_back q h v hi
      simp only [WindowOp.guarded] at hg
      obtain ⟨q1, h1, e1, e2⟩ := ih (q.push_back (fun a b => decide (a < b)) v) (h ++ [v]) hi1
        (by simp only [max_deque.push_back]; omega) hg
      exact ⟨q1, h1, by simp [max_deque.runW, max_deque.applyW, e1], e2⟩
    | pop_front =>
      simp only [WindowOp.guarded, Bool.and_eq_true, decide_eq_true_eq] at hg
      obtain ⟨q0, e0, hi0, b0, b1⟩ := max_deque_Inv_pop_front q h hi hg.1
      obtain ⟨q1, h1, e1, e2⟩ := ih q0 h hi0 (by omega) (by rw [b0, b1]; exact hg.2)
      exact ⟨q1, h1, by simp [max_deque.runW, max_deque.applyW, e0, e1], e2⟩
    | push_front v =>
      simp only [WindowOp.guarded, Bool.and_eq_true, decide_eq_true_eq] at hg
      obtain ⟨⟨hb, hs⟩, hg2⟩ := hg
      have hlenh : q.m_end = h.length := hi.1
      have hi1 : q.Inv (h.set (q.m_begin - 1) v) := by
        refine max_deque_Inv_congr q h _ hi (by simp) ?_
        intro j hj
        exact List.getElem?_set_ne (by omega)
      have hv : (h.set (q.m_begin - 1) v)[q.m_begin - 1]? = some v := by
        rw [List.getElem?_set_self (by omega)]
      obtain ⟨q0, e0, hi0, b0, b1, _⟩ := max_deque_Inv_push_front q _ v hi1 hb hs (by omega) hv
      obtain ⟨q1, h1, e1, e2⟩ := ih q0 _ hi0 (by omega) (by rw [b0, b1]; exact hg2)
      exact ⟨q1, h1, by simp [max_deque.runW, max_deque.applyW, e0, e1], e2⟩

/-- C20: starting from the empty container, after any run of `push_back`,
`pop_front` on a non-empty window and `push_front` on a non-empty window with
`front() > 0` (fewer than `2^64` operations, so that indices fit `size_t`), no
call has faulted and the retained pairs of `m_data` decrease strictly in
value from front to back, carry strictly increasing index tags all in
`[m_begin, m_end)`, and are non-empty whenever `m_begin < m_end`; `top()`,
the retained front, is then the largest retained value. -/
theorem max_deque_retained_invariant {T : Type} [LinearOrder T] (ops : List (WindowOp T))
    (hlen : ops.length < 2 ^ 64) (hg : WindowOp.guarded 0 0 ops = true) :
    ∃ q, max_deque.runW (fun a b => decide (a < b)) max_deque.init ops = some q ∧
      q.m_data.Pairwise (fun p1 p2 => p2.1 < p1.1) ∧
      q.m_data.Pairwise (fun p1 p2 => p1.2 < p2.2) ∧
      (∀ p ∈ q.m_data, q.m_begin ≤ p.2 ∧ p.2 < q.m_end) ∧
      (q.m_begin < q.m_end → q.m_data ≠ []) ∧
      (q.m_begin < q.m_end → ∃ t, q.top = some t ∧ ∀ p ∈ q.m_data, p.1 ≤ t) := by
  obtain ⟨q, h, e1, e2⟩ := max_deque_runW_Inv ops max_deque.init [] max_deque_Inv_init
    (by simp only [max_deque.init]; omega) (by simpa [max_deque.init] using hg)
  obtain ⟨⟨r1, r2, r3, r4⟩, r5⟩ := max_deque_Retained_of_Inv q h e2
  exact ⟨q, e1, r1, r2, r3, r4, r5⟩

/-- C20 at a concrete run: push 3, push 1, pop, push 2, push 5 at the
front. -/
theorem max_deque_retained_invariant_witness :
    [WindowOp.push_back (3 : Int), WindowOp.push_back 1, WindowOp.pop_front,
      WindowOp.push_back 2, WindowOp.push_front 5].length < 2 ^ 64 ∧
    WindowOp.guarded 0 0 [WindowOp.push_back (3 : Int), WindowOp.push_back 1,
      WindowOp.pop_front, WindowOp.push_back 2, WindowOp.push_front 5] = true ∧
    max_deque.runW (fun a b => decide (a < b)) max_deque.init
      [WindowOp.push_back (3 : Int), WindowOp.push_back 1, WindowOp.pop_front,
        WindowOp.push_back 2, WindowOp.push_front 5] = some ⟨[(5, 0), (2, 2)], 0, 3⟩ ∧
    ∃ q, max_deque.runW (fun a b => decide (a < b)) max_deque.init
        [WindowOp.push_back (3 : Int), WindowOp.push_back 1, WindowOp.pop_front,
          WindowOp.push_back 2, WindowOp.push_front 5] = some q ∧
      q.m_data.Pairwise (fun p1 p2 => p2.1 < p1.1) ∧
      q.m_data.Pairwise (fun p1 p2 => p1.2 < p2.2) ∧
      (∀ p ∈ q.m_data, q.m_begin ≤ p.2 ∧ p.2 < q.m_end) ∧
      (q.m_begin < q.m_end → q.m_data ≠ []) ∧
      (q.m_begin < q.m_end → ∃ t, q.top = some t ∧ ∀ p ∈ q.m_data, p.1 ≤ t) :=
  ⟨by decide, by decide, by decide!, max_deque_retained_invariant _ (by decide) (by decide)⟩

/-! ### func: the achieved bound against the target bound -/

/-- The operator `<=` on positive denominators. -/
theorem frac_le_toRat (a b : frac) (ha : 0 < a.den) (hb : 0 < b.den) :
    a.le b = true ↔ a.toRat ≤ b.toRat := by
  simp only [frac.le, decide_eq_true_eq]
  rw [← not_lt, (frac_compare_toRat a b ha hb).2, not_lt]

/-- C15 fails as stated: with the stopping test read in exact arithmetic (it
does not succeed in any of these passes: the tested `d` stays above `-1`, so
the quotient by `bf = 0.0` is `+∞`), `func(frac(23,10))` ends with failure in
its pass `x = 7` with `competitiveness() = 38/15`, and `func(frac(12,5))` ends
with failure in its pass `x = 16` with `competitiveness() = 27/11`; yet
`23/10 <= 12/5` and `38/15 <= 27/11` is false.  The same holds when the
stopping test never succeeds. -/
theorem func_competitiveness_not_monotone :
    (func.gen Floating.exact 8 (func.start ⟨23, 10⟩)).map
      (fun s => (s.status, s.x, func.competitiveness s.g)) = some (Status.failure, 7, ⟨38, 15⟩) ∧
    (func.gen Floating.exact 17 (func.start ⟨12, 5⟩)).map
      (fun s => (s.status, s.x, func.competitiveness s.g)) = some (Status.failure, 16, ⟨27, 11⟩) ∧
    (func.gen Floating.never 8 (func.start ⟨23, 10⟩)).map
      (fun s => (s.status, s.x, func.competitiveness s.g)) = some (Status.failure, 7, ⟨38, 15⟩) ∧
    (func.gen Floating.never 17 (func.start ⟨12, 5⟩)).map
      (fun s => (s.status, s.x, func.competitiveness s.g)) = some (Status.failure, 16, ⟨27, 11⟩) ∧
    (frac.mk 23 10).le ⟨12, 5⟩ = true ∧ (frac.mk 38 15).le ⟨27, 11⟩ = false := by
  refine ⟨by decide!, by decide!, by decide!, by decide!, by decide, by decide⟩

/-! ### `GCD` on non-negative arguments, exact division in `sq2` -/

/-- C24: for `x ≥ 0` and `y ≥ 0` the loop of `GCD` exits (any fuel of at
least `y` passes gives the same result) and returns the greatest common
divisor of `x` and `y`, with `GCD(x, 0) = x` and `GCD(0, y) = y`; the result
is positive unless both arguments are zero. -/
theorem GCD_eq_gcd (x y : Int) (hx : 0 ≤ x) (hy : 0 ≤ y) :
    GCD x y = (Int.gcd x y : Int) ∧
    (∀ k : Nat, y.toNat ≤ k → GCDloop k x y = GCD x y) ∧
    GCD x 0 = x ∧ GCD 0 y = y ∧
    ((x ≠ 0 ∨ y ≠ 0) → 0 < GCD x y) := by
  obtain ⟨g1, g2, g3, g4⟩ := GCDloop_spec y.toNat x y hy (le_refl _)
  have hnn : 0 ≤ GCD x y := g4 hx
  have hgcd : GCD x y = (Int.gcd x y : Int) := by
    have e1 : (GCD x y).natAbs = Int.gcd x y := by
      apply Nat.dvd_antisymm
      · exact Nat.dvd_gcd (Int.natAbs_dvd_natAbs.mpr g1) (Int.natAbs_dvd_natAbs.mpr g2)
      · have := g3 (Int.gcd x y) (Int.gcd_dvd_left) (Int.gcd_dvd_right)
        have h5 := Int.natAbs_dvd_natAbs.mpr this
        simpa using h5
    rw [← e1]
    exact (Int.natAbs_of_nonneg hnn).symm
  refine ⟨hgcd, ?_, GCD_zero_right x, ?_, ?_⟩
  · intro k hk
    exact GCDloop_fuel k y.toNat x y hk (le_refl _)
  · rw [GCD_unfold]
    by_cases h0 : 0 < y
    · simp [h0]
    · have : y = 0 := by omega
      simp [this]
  · intro hne
    rw [hgcd]
    have : Int.gcd x y ≠ 0 := by
      intro hz
      rw [Int.gcd_eq_zero_iff] at hz
      rcases hne with h | h
      · exact h hz.1
      · exact h hz.2
    omega

/-- C24 at concrete arguments: `GCD(12, 18) = 6`. -/
theorem GCD_eq_gcd_witness :
    (0 : Int) ≤ 12 ∧ (0 : Int) ≤ 18 ∧ GCD 12 18 = 6 ∧
    (GCD 12 18 = (Int.gcd 12 18 : Int) ∧
      (∀ k : Nat, (18 : Int).toNat ≤ k → GCDloop k 12 18 = GCD 12 18) ∧
      GCD 12 0 = 12 ∧ GCD 0 18 = 18 ∧
      (((12 : Int) ≠ 0 ∨ (18 : Int) ≠ 0) → 0 < GCD 12 18)) :=
  ⟨by decide, by decide, by decide, GCD_eq_gcd 12 18 (by decide) (by decide)⟩

/-- C27: for every `z` and every `y` other than `sq2(0,0)`, the division
`(z * y) / y` does not fault and returns `z`, both coordinates equal, so
`(z * y) / y == z`. -/
theorem sq2_mul_div_cancel (z y : sq2) (hy : y ≠ ⟨0, 0⟩) :
    (z.mul y).div y = some z ∧ ((z.mul y).div y).map (fun r => r.beq z) = some true := by
  have hn : y.norm ≠ 0 := by
    intro h
    have := sq_eq_two_mul_sq y.a y.b h
    apply hy
    cases y
    simp only [sq2.mk.injEq]
    exact this
  have hdiv : (z.mul y).div y = some z := by
    unfold sq2.div
    rw [if_neg hn]
    have e1 : (z.mul y).a * y.a - 2 * (z.mul y).b * y.b = z.a * y.norm := by
      simp only [sq2.mul, sq2.norm]; ring
    have e2 : (z.mul y).b * y.a - (z.mul y).a * y.b = z.b * y.norm := by
      simp only [sq2.mul, sq2.norm]; ring
    rw [e1, e2, Int.mul_tdiv_cancel _ hn, Int.mul_tdiv_cancel _ hn]
  refine ⟨hdiv, ?_⟩
  rw [hdiv]
  simp [sq2.beq, sq2.compare]

/-- C27 at concrete values: `(sq2(3,-2) * sq2(1,1)) / sq2(1,1) = sq2(3,-2)`. -/
theorem sq2_mul_div_cancel_witness :
    (sq2.mk 1 1) ≠ ⟨0, 0⟩ ∧ (sq2.mk 3 (-2)).mul ⟨1, 1⟩ = ⟨-1, 1⟩ ∧
    ((sq2.mk 3 (-2)).mul ⟨1, 1⟩).div ⟨1, 1⟩ = some ⟨3, -2⟩ ∧
    (((sq2.mk 3 (-2)).mul ⟨1, 1⟩).div ⟨1, 1⟩).map (fun r => r.beq ⟨3, -2⟩) = some true :=
  ⟨by decide, by decide, (sq2_mul_div_cancel ⟨3, -2⟩ ⟨1, 1⟩ (by decide)).1,
    (sq2_mul_div_cancel ⟨3, -2⟩ ⟨1, 1⟩ (by decide)).2⟩

/-! ### max_deque: `push_front` followed by `pop_front` -/

/-- A run pushes at most as many values as it has operations. -/
theorem pushed_length_le {T : Type} (ops : List (DequeOp T)) :
    (DequeOp.pushed ops).length ≤ ops.length := by
  induction ops with
  | nil => simp [DequeOp.pushed]
  | cons op r ih =>
    cases op with
    | push_back v => simp only [DequeOp.pushed, List.length_cons]; omega
    | pop_front => simp only [DequeOp.pushed, List.length_cons]; omega

/-- Under the invariant, with `front() > 0` and indices that fit `size_t`, a
`pop_front` right after a `push_front` gives back the state before the
push. -/
theorem max_deque_push_front_pop_front {T : Type} [LinearOrder T] (q q1 : max_deque T)
    (h : List T) (v : T) (hi : q.Inv h) (hb : 0 < q.m_begin) (he : q.m_end ≤ 2 ^ 64)
    (h1 : q.push_front (fun a b => decide (a < b)) v = some q1) :
    q1.pop_front = some q := by
  obtain ⟨i1, i2, i3, i4, i5⟩ := hi
  have hnb : (q.m_begin + 2 ^ 64 - 1) % 2 ^ 64 = q.m_begin - 1 := by
    have h1 : q.m_begin + 2 ^ 64 - 1 = (q.m_begin - 1) + 2 ^ 64 := by omega
    rw [h1, Nat.add_mod_right]
    exact Nat.mod_eq_of_lt (by omega)
  obtain ⟨d, b, e⟩ := q
  simp only at i1 i2 i3 i4 i5 hb he hnb
  unfold max_deque.push_front at h1
  simp only [hnb] at h1
  cases d with
  | nil => simp at h1
  | cons p rest =>
    simp only [decide_eq_true_eq] at h1
    have hp := (i3 p (by simp)).1
    by_cases hlt : p.1 < v
    · rw [if_pos hlt] at h1
      cases h1
      simp only [max_deque.pop_front, if_true]
      have : b - 1 + 1 = b := by omega
      rw [this]
    · rw [if_neg hlt] at h1
      cases h1
      simp only [max_deque.pop_front]
      have hne : ¬ (p.2 = b - 1) := by omega
      rw [if_neg hne]
      have : b - 1 + 1 = b := by omega
      rw [this]

/-- C28: in every state reached from the empty container by a run of
`push_back` and of `pop_front` on a non-empty window (fewer than `2^64`
operations, so that indices fit `size_t`) with `size() > 0` and `front() > 0`,
`push_front(v)` does not fault, decreases `front()` by one, increases `size()`
by one and makes `top()` the maximum of the old `top()` and `v`; a `pop_front`
right after it gives back the state before the push, hence the previous
`top()`. -/
theorem max_deque_push_front_top {T : Type} [LinearOrder T] (ops : List (DequeOp T))
    (q : max_deque T) (v : T) (hlen : ops.length < 2 ^ 64)
    (hg : DequeOp.guarded 0 ops = true)
    (hrun : max_deque.run (fun a b => decide (a < b)) max_deque.init ops = some q)
    (hsize : 0 < q.size) (hfront : 0 < q.front) :
    ∃ q1 t, q.top = some t ∧ q.push_front (fun a b => decide (a < b)) v = some q1 ∧
      q1.front + 1 = q.front ∧ q1.size = q.size + 1 ∧ q1.top = some (Max.max t v) ∧
      q1.pop_front = some q ∧ (q1.pop_front.bind fun q2 => q2.top) = some t := by
  obtain ⟨q0, e1, e2⟩ := max_deque_run_Inv ops max_deque.init [] max_deque_Inv_init
    (by simpa [max_deque.init] using hg)
  rw [hrun] at e1
  cases e1
  simp only [List.nil_append] at e2
  simp only [max_deque.size, max_deque.front] at hsize hfront ⊢
  have hend : q.m_end ≤ 2 ^ 64 := by
    have := pushed_length_le ops
    have := e2.1
    omega
  have hs : q.m_begin < q.m_end := by omega
  have hbl : q.m_begin - 1 < (DequeOp.pushed ops).length := by
    have := e2.1
    omega
  have hi1 : q.Inv ((DequeOp.pushed ops).set (q.m_begin - 1) v) := by
    refine max_deque_Inv_congr q _ _ e2 (by simp) ?_
    intro j hj
    exact List.getElem?_set_ne (by omega)
  have hv : ((DequeOp.pushed ops).set (q.m_begin - 1) v)[q.m_begin - 1]? = some v := by
    rw [List.getElem?_set_self hbl]
  obtain ⟨q1, p1, _, b1, b2, t1⟩ := max_deque_Inv_push_front q _ v hi1 hfront hs hend hv
  obtain ⟨t, t2, _, _⟩ := max_deque_top_of_Inv q _ e2 hs
  have hpop := max_deque_push_front_pop_front q q1 _ v e2 hfront hend p1
  refine ⟨q1, t, t2, p1, by omega, by omega, ?_, hpop, ?_⟩
  · rw [t1, t2]
    simp only [Option.map_some', Option.some.injEq]
    by_cases hlt : t < v
    · rw [if_pos hlt, max_eq_right (le_of_lt hlt)]
    · rw [if_neg hlt, max_eq_left (not_lt.mp hlt)]
  · rw [hpop]
    exact t2

/-- C28 at a concrete run: after push 3, push 1, pop, push 2 the window is
`[1, 2]` with `front() = 1` and `top() = 2`; `push_front(5)` gives `top() = 5`
and a `pop_front` gives `top() = 2` again. -/
theorem max_deque_push_front_top_witness :
    [DequeOp.push_back (3 : Int), DequeOp.push_back 1, DequeOp.pop_front,
      DequeOp.push_back 2].length < 2 ^ 64 ∧
    DequeOp.guarded 0 [DequeOp.push_back (3 : Int), DequeOp.push_back 1, DequeOp.pop_front,
      DequeOp.push_back 2] = true ∧
    0 < (max_deque.mk [((2 : Int), 2)] 1 3).size ∧ 0 < (max_deque.mk [((2 : Int), 2)] 1 3).front ∧
    (max_deque.mk [((2 : Int), 2)] 1 3).push_front (fun a b => decide (a < b)) 5
      = some ⟨[(5, 0), (2, 2)], 0, 3⟩ ∧
    ∃ q1 t, (max_deque.mk [((2 : Int), 2)] 1 3).top = some t ∧
      (max_deque.mk [((2 : Int), 2)] 1 3).push_front (fun a b => decide (a < b)) 5 = some q1 ∧
      q1.front + 1 = (max_deque.mk [((2 : Int), 2)] 1 3).front ∧
      q1.size = (max_deque.mk [((2 : Int), 2)] 1 3).size + 1 ∧ q1.top = some (Max.max t 5) ∧
      q1.pop_front = some (max_deque.mk [((2 : Int), 2)] 1 3) ∧
      (q1.pop_front.bind fun q2 => q2.top) = some t :=
  ⟨by decide, by decide, by decide, by decide, by decide!,
    max_deque_push_front_top [DequeOp.push_back (3 : Int), DequeOp.push_back 1,
      DequeOp.pop_front, DequeOp.push_back 2] ⟨[(2, 2)], 1, 3⟩ 5 (by decide) (by decide)
      (by decide!) (by decide) (by decide)⟩

/-! ### func: the recomputation of the stopping coefficients -/

/-- C22 fails in the code: the comparison `double(K) > S+1` of `emplace`
reaches `operator>` on `sq2` through `sq2(long long)`, so it compares the
truncated `K` with `1 + √2`.  When `K` is raised from `1` to `5/2` (and
`5/2 > 1 + √2`, that is `5 > 2 + 2√2`), the truncated value is `2`, the
comparison `2 > 1 + √2` is false and `af`, `bf` keep their initial values;
they are recomputed when `K` is raised to `7/2`, whose truncated value is `3`.
In the generation of `func(frac(5,2))` the achieved bound after ten passes is
`47/19 > 1 + √2` and the coefficients have never been recomputed. -/
theorem func_raiseK_five_halves :
    (sq2.mk 5 0).gt ⟨2, 2⟩ = true ∧
    func.truncK ⟨5, 2⟩ = some 2 ∧
    (sq2.ofInt 2).gt (S.add (sq2.ofInt 1)) = false ∧
    (func.raiseK (func.start ⟨3, 1⟩).g ⟨5, 2⟩).map (fun g => (g.K, g.coef))
      = some (⟨5, 2⟩, none) ∧
    (func.raiseK (func.start ⟨4, 1⟩).g ⟨7, 2⟩).map (fun g => (g.K, g.coef))
      = some (⟨7, 2⟩, some ⟨7, 2⟩) ∧
    (func.gen Floating.never 10 (func.start ⟨5, 2⟩)).map
      (fun s => (s.status, s.x, s.g.K, s.g.coef)) = some (Status.running, 10, ⟨47, 19⟩, none) ∧
    (sq2.mk 47 0).gt ⟨19, 19⟩ = true := by
  refine ⟨by decide, by decide, by decide, by decide!, by decide!, by decide!, by decide⟩

/-! ### max_deque: the shape of the retained pairs -/

/-- The empty deque has the shape. -/
theorem max_deque_Shape_init {T : Type} : (max_deque.init : max_deque T).Shape := by
  refine ⟨le_refl _, ?_, ?_, ?_⟩
  · simp [max_deque.init]
  · intro p hp; simp [max_deque.init] at hp
  · intro h; simp [max_deque.init] at h

/-- Whatever the comparator, `push_back` keeps the shape, leaves the front and
moves the end by one. -/
theorem max_deque_Shape_push_back {T : Type} (cmp : T → T → Bool) (q : max_deque T) (v : T)
    (hs : q.Shape) :
    (q.push_back cmp v).Shape ∧ (q.push_back cmp v).m_begin = q.m_begin ∧
    (q.push_back cmp v).m_end = q.m_end + 1 := by
  obtain ⟨h1, h2, h3, _⟩ := hs
  have hsub : ∀ p ∈ q.m_data.rdropWhile (fun p => !cmp v p.1), p ∈ q.m_data :=
    fun p hp => (List.rdropWhile_prefix _ _).subset hp
  have hpw : (q.m_data.rdropWhile (fun p => !cmp v p.1)).Pairwise (fun p1 p2 => p1.2 < p2.2) :=
    List.Pairwise.sublist (List.rdropWhile_prefix _ _).sublist h2
  refine ⟨⟨?_, ?_, ?_, ?_⟩, rfl, rfl⟩
  · simp only [max_deque.push_back]; omega
  · simp only [max_deque.push_back]
    rw [List.pairwise_append]
    refine ⟨hpw, by simp, ?_⟩
    intro a ha b hb
    simp only [List.mem_singleton] at hb
    subst hb
    exact (h3 a (hsub a ha)).2
  · intro p hp
    simp only [max_deque.push_back] at hp ⊢
    rcases List.mem_append.mp hp with h | h
    · have := h3 p (hsub p h)
      exact ⟨this.1, by omega⟩
    · simp only [List.mem_singleton] at h
      subst h
      exact ⟨h1, by simp⟩
  · intro _
    exact ⟨(v, q.m_end), by simp [max_deque.push_back], rfl⟩

/-- On a non-empty window with the shape, `pop_front` does not fault, keeps
the shape and moves the front by one. -/
theorem max_deque_Shape_pop_front {T : Type} (q : max_deque T) (hs : q.Shape)
    (hw : q.m_begin < q.m_end) :
    ∃ q1, q.pop_front = some q1 ∧ q1.Shape ∧ q1.m_begin = q.m_begin + 1 ∧
      q1.m_end = q.m_end := by
  obtain ⟨h1, h2, h3, h4⟩ := hs
  obtain ⟨pl, hl1, hl2⟩ := h4 hw
  cases hd : q.m_data with
  | nil => rw [hd] at hl1; simp at hl1
  | cons p rest =>
    rw [hd] at h2 h3 hl1
    have hp := h3 p (by simp)
    have hrest : ∀ r ∈ rest, q.m_begin + 1 ≤ r.2 ∧ r.2 < q.m_end := by
      intro r hr
      have a1 := (List.pairwise_cons.mp h2).1 r hr
      have a2 := h3 r (by simp [hr])
      omega
    unfold max_deque.pop_front
    rw [hd]
    by_cases hpb : p.2 = q.m_begin
    · simp only [hpb, if_true]
      refine ⟨_, rfl, ⟨by simp only; omega, (List.pairwise_cons.mp h2).2, hrest, ?_⟩, rfl, rfl⟩
      intro hw1
      simp only at hw1
      cases rest with
      | nil =>
        simp only [List.getLast?_singleton, Option.some.injEq] at hl1
        subst hl1
        omega
      | cons r rest1 =>
        rw [List.getLast?_cons_cons] at hl1
        exact ⟨pl, hl1, hl2⟩
    · simp only [hpb, if_false]
      refine ⟨_, rfl, ⟨by simp only; omega, h2, ?_, ?_⟩, rfl, rfl⟩
      · intro r hr
        rcases List.mem_cons.mp hr with e | e
        · subst e
          simp only
          omega
        · exact hrest r e
      · intro _
        exact ⟨pl, hl1, hl2⟩

/-- On a window of at least `n` indices with the shape, `n` calls of
`pop_front` do not fault, none of them on an empty window; they keep the shape
and move the front by `n`. -/
theorem popN_Shape {T : Type} (n : Nat) : ∀ (q : max_deque T), q.Shape →
    q.m_begin + n ≤ q.m_end →
    ∃ q1, popN n q = some q1 ∧ popNChecked n q = some q1 ∧ q1.Shape ∧
      q1.m_begin = q.m_begin + n ∧ q1.m_end = q.m_end := by
  induction n with
  | zero =>
    intro q hs _
    exact ⟨q, rfl, rfl, hs, rfl, rfl⟩
  | succ n ih =>
    intro q hs hle
    have hw : q.m_begin < q.m_end := by omega
    obtain ⟨q0, e0, s0, b0, b1⟩ := max_deque_Shape_pop_front q hs hw
    obtain ⟨q1, e1, e2, s1, c0, c1⟩ := ih q0 s0 (by omega)
    refine ⟨q1, ?_, ?_, s1, by omega, by omega⟩
    · simp [popN, e0, e1]
    · simp [popNChecked, hw, e0, e2]

/-- A non-empty window with the shape has a `top()`. -/
theorem max_deque_Shape_top {T : Type} (q : max_deque T) (hs : q.Shape)
    (hw : q.m_begin < q.m_end) : ∃ t, q.top = some t := by
  obtain ⟨pl, hl1, _⟩ := hs.2.2.2 hw
  cases hd : q.m_data with
  | nil => rw [hd] at hl1; simp at hl1
  | cons p rest => exact ⟨p.1, by simp [max_deque.top, hd]⟩

/-! ### func: what `emplace` does to the table, front first -/

/-- The eviction loop splits the vectors (given back first) into the evicted
breakpoints, whose `y` are all at least the new `y`, and the breakpoints left,
whose `y` are all below it; the final `x` is the `x` of the breakpoint evicted
last, or the initial one when none is evicted. -/
theorem evict_split (y : Int) : ∀ (rys rxs : List Int) (x0 : Int)
    (r : List Int × List Int × Int),
    func.evict y rxs rys x0 = some r → rxs.length = rys.length →
    rys.Pairwise (fun a b => b < a) →
    ∃ px py, rxs = px ++ r.1 ∧ rys = py ++ r.2.1 ∧ px.length = py.length ∧
      (∀ e ∈ py, y ≤ e) ∧ (∀ e ∈ r.2.1, e < y) ∧ (x0 :: px).getLast? = some r.2.2 := by
  intro rys
  induction rys with
  | nil =>
    intro rxs x0 r he hl _
    have hr : rxs = [] := List.length_eq_zero.mp (by simpa using hl)
    subst hr
    simp only [func.evict, Option.some.injEq] at he
    subst he
    exact ⟨[], [], by simp⟩
  | cons yb rys ih =>
    intro rxs x0 r he hl hpy
    cases rxs with
    | nil => simp at hl
    | cons xb rxs1 =>
      have hpy1 := List.pairwise_cons.mp hpy
      by_cases hy : yb ≥ y
      · simp only [func.evict, hy, if_true] at he
        obtain ⟨px, py, a1, a2, a3, a4, a5, a6⟩ := ih rxs1 xb r he (by simpa using hl) hpy1.2
        refine ⟨xb :: px, yb :: py, by simp [← a1], by simp [← a2], by simp [a3], ?_, a5, ?_⟩
        · intro e he1
          rcases List.mem_cons.mp he1 with h | h
          · rw [h]; exact hy
          · exact a4 e h
        · rw [List.getLast?_cons_cons]; exact a6
      · simp only [func.evict, hy, if_false, Option.some.injEq] at he
        subst he
        refine ⟨[], [], by simp, by simp, rfl, by simp, ?_, by simp⟩
        intro e he1
        rcases List.mem_cons.mp he1 with h | h
        · rw [h]; omega
        · have := hpy1.1 e h; omega

/-- A successful `emplace(x, y)` read front first: the table splits into the
breakpoints kept and the breakpoints evicted, the kept `y` are below `y` and
the evicted ones at least `y`; the new table is the kept part followed by
`(x1, y)`, where `x1` is the `x` of the first evicted breakpoint, or `x` when
none is evicted. -/
theorem emplace_table (g g1 : func) (x y : Int) (hl : g.xs.length = g.ys.length)
    (hsorted : g.ys.reverse.Pairwise (fun a b => b < a))
    (he : func.emplace g x y = some (true, g1)) :
    x < y ∧ g1.cs = g.cs ∧ g1.deltas = g.deltas ∧ g1.alpha = g.alpha ∧
    ∃ kx ky ex ey x1, g.xs = kx ++ ex ∧ g.ys = ky ++ ey ∧ kx.length = ky.length ∧
      ex.length = ey.length ∧ g1.xs = kx ++ [x1] ∧ g1.ys = ky ++ [y] ∧
      (∀ e ∈ ey, y ≤ e) ∧ (∀ e ∈ ky, e < y) ∧ (ex ++ [x]).head? = some x1 := by
  obtain ⟨hxy, c, nK, g0, r, _, _, h3, h4, h5⟩ := emplace_true_inv g g1 x y he
  obtain ⟨e1, e2, e3, _, e5, e6, _⟩ := raiseK_spec g g0 nK h3
  rw [e1, e2] at h4
  obtain ⟨px, py, a1, a2, a3, a4, a5, a6⟩ :=
    evict_split y g.ys.reverse g.xs.reverse x r h4 (by simp [hl]) hsorted
  subst h5
  refine ⟨hxy, e3, e5, e6, r.1.reverse, r.2.1.reverse, px.reverse, py.reverse, r.2.2,
    ?_, ?_, ?_, by simp [a3], by simp, by simp, ?_, ?_, ?_⟩
  · have := congrArg List.reverse a1
    simpa using this
  · have := congrArg List.reverse a2
    simpa using this
  · have h1 := congrArg List.length a1
    have h2 := congrArg List.length a2
    simp only [List.length_reverse, List.length_append] at h1 h2 ⊢
    omega
  · intro e he1
    exact a4 e (by simpa using he1)
  · intro e he1
    exact a5 e (by simpa using he1)
  · have : px.reverse ++ [x] = (x :: px).reverse := by simp
    rw [this, List.head?_reverse]
    exact a6

/-- The lower-bound search returns the least index whose element is not below
the argument. -/
theorem lower_bound_eq_of_least (l : List Int) (v : Int) (i : Nat) (yi : Int)
    (hlt : ∀ (j : Nat) (e : Int), j < i → l[j]? = some e → e < v)
    (hi : l[i]? = some yi) (hge : v ≤ yi) : lower_bound l v = i := by
  have hil : i < l.length := by
    by_contra hc
    rw [List.getElem?_eq_none (by omega)] at hi
    cases hi
  rw [List.getElem?_eq_getElem hil] at hi
  cases hi
  unfold lower_bound
  generalize hp : (fun e : Int => !decide (e < v)) = p
  have hpi : p l[i] = true := by
    rw [← hp]
    simp only [Bool.not_eq_true', decide_eq_false_iff_not, not_lt]
    exact hge
  have h1 : l.findIdx p ≤ i := by
    by_contra hc
    have := List.not_of_lt_findIdx (by omega : i < l.findIdx p)
    rw [hpi] at this
    cases this
  have hfl : l.findIdx p < l.length := by omega
  by_contra hne
  have hlt2 : l.findIdx p < i := by omega
  have h2 := hlt _ _ hlt2 (List.getElem?_eq_getElem hfl)
  have h3 : p (l.get ⟨l.findIdx p, hfl⟩) = true := List.findIdx_getElem
  subst hp
  simp only [Bool.not_eq_true', decide_eq_false_iff_not, not_lt, List.get_eq_getElem] at h3
  omega

/-- For an argument `v ≤ y` whose lower-bound index lies in the table before
`emplace(x, y)`, the index and the `x` found there are the same after it:
evictions do not change the table branch of `inv(v)`. -/
theorem lower_bound_stable (kx ky ex ey : List Int) (x x1 y v z : Int)
    (hk : kx.length = ky.length) (he : ex.length = ey.length)
    (hey : ∀ e ∈ ey, y ≤ e) (hv : v ≤ y) (hx1 : (ex ++ [x]).head? = some x1)
    (hz : (kx ++ ex)[lower_bound (ky ++ ey) v]? = some z) :
    lower_bound (ky ++ [y]) v = lower_bound (ky ++ ey) v ∧
    (kx ++ [x1])[lower_bound (ky ++ [y]) v]? = some z := by
  unfold lower_bound at hz ⊢
  rw [List.findIdx_append] at hz ⊢
  rw [List.findIdx_append]
  by_cases h : List.findIdx (fun e => !decide (e < v)) ky < ky.length
  · rw [if_pos h] at hz ⊢
    rw [if_pos h]
    refine ⟨rfl, ?_⟩
    rw [List.getElem?_append_left (by omega)] at hz ⊢
    exact hz
  · rw [if_neg h] at hz ⊢
    rw [if_neg h]
    have hy : (fun e => !decide (e < v)) y = true := by
      simp only [Bool.not_eq_true', decide_eq_false_iff_not, not_lt]; exact hv
    have h0 : List.findIdx (fun e => !decide (e < v)) [y] = 0 := by
      simp [List.findIdx_cons, hy]
    cases ey with
    | nil =>
      have hex : ex = [] := List.length_eq_zero.mp (by simpa using he)
      subst hex
      simp only [List.findIdx_nil, zero_add, List.append_nil] at hz
      rw [List.getElem?_eq_none (by omega)] at hz
      cases hz
    | cons e0 ey1 =>
      cases ex with
      | nil => simp at he
      | cons x0 ex1 =>
        have he0 : (fun e => !decide (e < v)) e0 = true := by
          have := hey e0 (by simp)
          simp only [Bool.not_eq_true', decide_eq_false_iff_not, not_lt]; omega
        have h1 : List.findIdx (fun e => !decide (e < v)) (e0 :: ey1) = 0 := by
          simp [List.findIdx_cons, he0]
        rw [h0]
        rw [h1] at hz ⊢
        simp only [zero_add] at hz ⊢
        rw [← hk] at hz ⊢
        simp only [List.cons_append, List.head?_cons, Option.some.injEq] at hx1
        subst hx1
        rw [List.getElem?_append_right (le_refl _)] at hz ⊢
        simp at hz ⊢
        exact hz

/-! ### func: the second loop invariant -/

/-- Appending to the convergence table keeps the entries read before. -/
theorem vecGet_append_left (cs : List Int) (d i c : Int) (h : vecGet cs i = some c) :
    vecGet (cs ++ [d]) i = some c := by
  have hm := vecGet_mem cs i c h
  unfold vecGet at h ⊢
  rw [if_neg (by omega)] at h ⊢
  rw [List.getElem?_append_left (by omega)]
  exact h

/-- An entry of the extended convergence table is an old entry or the new
one. -/
theorem vecGet_append_inv (cs : List Int) (d i c : Int) (h : vecGet (cs ++ [d]) i = some c) :
    vecGet cs i = some c ∨ (i = cs.length ∧ c = d) := by
  have hm := vecGet_mem _ i c h
  simp only [List.length_append, List.length_singleton] at hm
  unfold vecGet at h ⊢
  rw [if_neg (by omega)] at h ⊢
  by_cases hlt : i.toNat < cs.length
  · rw [List.getElem?_append_left hlt] at h
    exact Or.inl h
  · right
    have hi : i.toNat = cs.length := by omega
    rw [List.getElem?_append_right (by omega), hi] at h
    simp only [Nat.sub_self, List.getElem?_cons_zero, Option.some.injEq] at h
    exact ⟨by omega, h.symm⟩

/-- Elements before the index returned by the lower-bound search are below the
argument. -/
theorem lower_bound_lt (l : List Int) (v : Int) (j : Nat) (e : Int)
    (hj : j < lower_bound l v) (he : l[j]? = some e) : e < v := by
  unfold lower_bound at hj
  have hjl : j < l.length := lt_of_lt_of_le hj (List.findIdx_le_length _)
  have := List.not_of_lt_findIdx hj
  rw [List.getElem?_eq_getElem hjl] at he
  cases he
  simpa using this

/-- The entry appended by `cs.push_back(nextconv(is))` follows the recursion
when `is` is the lower-bound index of `cs.size()` in `ys`. -/
theorem ConvInv_push (g : func) (is : Nat) (c : Int) (hc : ConvInv g.xs g.ys g.cs)
    (hn : func.nextconv g is = some c)
    (hlb : 0 < g.cs.length → lower_bound g.ys (g.cs.length : Int) = is) :
    ConvInv g.xs g.ys (g.cs ++ [c]) := by
  obtain ⟨c1, c2⟩ := hc
  unfold func.nextconv at hn
  constructor
  · intro c0 h0
    by_cases hz : g.cs.length = 0
    · rw [if_pos hz] at hn
      have hnil : g.cs = [] := List.length_eq_zero.mp hz
      rw [hnil] at h0
      simp only [List.nil_append, List.getElem?_cons_zero, Option.some.injEq] at h0
      simp only [Option.some.injEq] at hn
      omega
    · rw [List.getElem?_append_left (by omega)] at h0
      exact c1 c0 h0
  · intro v c0 hv h0
    rcases vecGet_append_inv g.cs c v c0 h0 with h | ⟨h, h1⟩
    · obtain ⟨z, cz, z1, z2, z3⟩ := c2 v c0 hv h
      exact ⟨z, cz, z1, vecGet_append_left _ _ _ _ z2, z3⟩
    · have hz : ¬ g.cs.length = 0 := by omega
      rw [if_neg hz] at hn
      simp only [Option.bind_eq_some, Option.some.injEq] at hn
      obtain ⟨z, hz1, cz, hz2, hz3⟩ := hn
      refine ⟨z, cz, ?_, vecGet_append_left _ _ _ _ hz2, ?_⟩
      · rw [h, hlb (by omega)]; exact hz1
      · omega

/-- A successful `emplace(x, y)` with `cs.size() ≤ y` keeps the recursion of
the convergence table: the table branch of `inv(v)` is the same for every `v`
in the table. -/
theorem ConvInv_emplace (kx ky ex ey cs : List Int) (x x1 y : Int)
    (hk : kx.length = ky.length) (he : ex.length = ey.length)
    (hey : ∀ e ∈ ey, y ≤ e) (hx1 : (ex ++ [x]).head? = some x1)
    (hcs : (cs.length : Int) ≤ y)
    (hc : ConvInv (kx ++ ex) (ky ++ ey) cs) : ConvInv (kx ++ [x1]) (ky ++ [y]) cs := by
  obtain ⟨c1, c2⟩ := hc
  refine ⟨c1, ?_⟩
  intro v c hv h
  obtain ⟨z, cz, z1, z2, z3⟩ := c2 v c hv h
  have hm := vecGet_mem cs v c h
  obtain ⟨_, s2⟩ := lower_bound_stable kx ky ex ey x x1 y v z hk he hey (by omega) hx1 z1
  exact ⟨z, cz, s2, z2, z3⟩

/-- A successful `emplace(x, y)` on a table above the identity for `x`
arguments leaves a table above the identity for `x + 1` arguments. -/
theorem emplace_Above (kx ky ex ey : List Int) (x x1 y : Int) (hxy : x < y)
    (hk : kx.length = ky.length) (he : ex.length = ey.length)
    (hx1 : (ex ++ [x]).head? = some x1) (hab : Above (kx ++ ex) (ky ++ ey) x) :
    Above (kx ++ [x1]) (ky ++ [y]) (x + 1) := by
  obtain ⟨a1, a2⟩ := hab
  constructor
  · intro j a b ha hb
    have hjl : j + 1 < (kx ++ [x1]).length := by
      by_contra hc
      rw [List.getElem?_eq_none (by omega)] at hb
      cases hb
    simp only [List.length_append, List.length_singleton] at hjl
    rw [List.getElem?_append_left (by omega)] at ha
    have ha1 : (ky ++ ey)[j]? = some a := by
      rw [List.getElem?_append_left (by omega)]; exact ha
    by_cases hlast : j + 1 < kx.length
    · rw [List.getElem?_append_left hlast] at hb
      exact a1 j a b ha1 (by rw [List.getElem?_append_left hlast]; exact hb)
    · have hj : j + 1 = kx.length := by omega
      rw [List.getElem?_append_right (by omega), hj] at hb
      simp only [Nat.sub_self, List.getElem?_cons_zero, Option.some.injEq] at hb
      subst hb
      cases ex with
      | nil =>
        have hey : ey = [] := List.length_eq_zero.mp (by simpa using he.symm)
        subst hey
        simp only [List.nil_append, List.head?_cons, Option.some.injEq] at hx1
        subst hx1
        refine a2 a ?_
        rw [List.getLast?_eq_getElem?]
        simp only [List.append_nil] at ha1 ⊢
        have : ky.length - 1 = j := by omega
        rw [this]
        exact ha1
      | cons x0 ex1 =>
        simp only [List.cons_append, List.head?_cons, Option.some.injEq] at hx1
        subst hx1
        refine a1 j a x0 ha1 ?_
        rw [List.getElem?_append_right (by omega), hj]
        simp
  · intro yb hyb
    have hl : (ky ++ [y]).getLast? = some y := by simp
    rw [hl] at hyb
    cases hyb
    omega

/-- The loop advancing `is`: from an index `is` before which every `y` is
below `x1`, with the window of `deltas` starting at `xs[is]` and ending at
`x1`, on a table whose last `y` is at least `x1`, the loop returns (enough
fuel being the number of breakpoints from `is` on), every access is within
bounds, no `pop_front` is called on an empty window, only `deltas` changes,
and it leaves the least index `is` with `ys[is] ≥ x1`, with the window of
`deltas` starting at `xs[is]` and not empty. -/
theorem advance_spec (x1 : Int) (hx1 : 0 < x1) (fuel : Nat) : ∀ (g : func) (is : Nat),
    g.xs.length = g.ys.length → g.xs.Pairwise (fun a b => a < b) →
    (∀ e ∈ g.xs, e < x1) → (∀ yb, g.ys.getLast? = some yb → x1 ≤ yb) →
    g.deltas.Shape → (g.deltas.m_end : Int) = x1 →
    is < g.ys.length → g.ys.length ≤ fuel + is →
    (∀ (j : Nat) (e : Int), j < is → g.ys[j]? = some e → e < x1) →
    (∃ xi, g.xs[is]? = some xi ∧ (g.deltas.m_begin : Int) = xi) →
    ∃ g4 is4, func.advance fuel g is x1 = some (g4, is4) ∧
      func.advanceChecked fuel g is x1 = some (g4, is4) ∧
      g4.xs = g.xs ∧ g4.ys = g.ys ∧ g4.cs = g.cs ∧ g4.K = g.K ∧ g4.MK = g.MK ∧
      g4.coef = g.coef ∧ g4.alpha = g.alpha ∧
      FrontInv g4 is4 x1 ∧ is ≤ is4 ∧ g4.deltas.m_begin < g4.deltas.m_end ∧
      g4.deltas.m_end = g.deltas.m_end := by
  induction fuel with
  | zero =>
    intro g is _ _ _ _ _ _ h1 h2
    omega
  | succ n ih =>
    intro g is hl hsx hxlt hlast hsh hend his hfuel hbelow hfront
    obtain ⟨xi, hxi, hb⟩ := hfront
    have hyi : g.ys[is]? = some (g.ys.get ⟨is, his⟩) := List.getElem?_eq_getElem his
    generalize g.ys.get ⟨is, his⟩ = yi at hyi
    by_cases hlt : yi < x1
    · have hnl : is + 1 < g.ys.length := by
        by_contra hc
        have hlastidx : g.ys.getLast? = some yi := by
          rw [List.getLast?_eq_getElem?]
          have : g.ys.length - 1 = is := by omega
          rw [this]; exact hyi
        have := hlast yi hlastidx
        omega
      have hnx : is + 1 < g.xs.length := by omega
      have hb1 : g.xs[is + 1]? = some (g.xs.get ⟨is + 1, hnx⟩) := List.getElem?_eq_getElem hnx
      generalize g.xs.get ⟨is + 1, hnx⟩ = b at hb1
      have hab : xi < b := (sorted_getElem_le g.xs hsx is (is + 1) xi b (by omega) hxi hb1).2
        (by omega)
      have hbx : b < x1 := hxlt b (List.getElem?_mem hb1)
      obtain ⟨dq, p1, p2, p3, p4, p5⟩ := popN_Shape (b - xi).toNat g.deltas hsh (by omega)
      obtain ⟨g4, is4, r1, r2, f1, f2, f3, f4, f5, f6, f7, r3, r4, r5, r6⟩ :=
        ih { g with deltas := dq } (is + 1) hl hsx hxlt hlast p3
          (by simp only; rw [p5]; exact hend)
          hnl (by simp only; omega)
          (by
            intro j e hj he
            by_cases hji : j < is
            · exact hbelow j e hji he
            · have : j = is := by omega
              subst this
              simp only at he
              rw [hyi] at he
              cases he
              exact hlt)
          ⟨b, hb1, by simp only; omega⟩
      refine ⟨g4, is4, ?_, ?_, f1, f2, f3, f4, f5, f6, f7, r3, by omega, r5, ?_⟩
      · simp only [func.advance, hyi, Option.some_bind, if_pos hlt, hxi, hb1, p1]
        exact r1
      · simp only [func.advanceChecked, hyi, Option.some_bind, if_pos hlt, hxi, hb1, p2]
        exact r2
      · rw [r6]; exact p5
    · have hxil : xi < x1 := hxlt xi (List.getElem?_mem hxi)
      refine ⟨g, is, ?_, ?_, rfl, rfl, rfl, rfl, rfl, rfl, rfl, ?_, le_refl _, by omega, rfl⟩
      · simp only [func.advance, hyi, Option.some_bind, if_neg hlt]
      · simp only [func.advanceChecked, hyi, Option.some_bind, if_neg hlt]
      · refine ⟨hsh, hend, hbelow, ?_, ?_⟩
        · intro _
          exact ⟨yi, xi, hyi, by omega, hxi, hb⟩
        · intro h0
          omega

/-- A successful `emplace(x, y)` in a pass of the generation loop: the new
table and the convergence table keep their invariants for `x + 1` arguments,
the assertion `is < xs.size()` holds, and the loop advancing `is` returns with
every access within bounds and no `pop_front` on an empty window, leaving `is`
and `deltas` where the next pass expects them. -/
theorem emplace_loop (s : GenState) (hinv : GenInv s) (hl : LoopInv s)
    (hrun : s.status = Status.running) (c y : Int) (g1 : func)
    (hn : func.nextconv s.g s.is = some c)
    (he : func.emplace { s.g with cs := s.g.cs ++ [c] } s.x y = some (true, g1)) :
    TableInv g1.xs g1.ys g1.cs g1.K (s.x + 1) ∧ (g1.cs.length : Int) = s.x + 1 ∧
    Above g1.xs g1.ys (s.x + 1) ∧ ConvInv g1.xs g1.ys g1.cs ∧ s.is < g1.xs.length ∧
    ∃ g4 is4,
      func.advance (g1.ys.length + 1)
        { g1 with deltas := g1.deltas.push_back sq2.lt (func.delta s.x y) } s.is (s.x + 1)
        = some (g4, is4) ∧
      func.advanceChecked (g1.ys.length + 1)
        { g1 with deltas := g1.deltas.push_back sq2.lt (func.delta s.x y) } s.is (s.x + 1)
        = some (g4, is4) ∧
      g4.xs = g1.xs ∧ g4.ys = g1.ys ∧ g4.cs = g1.cs ∧ g4.K = g1.K ∧ g4.MK = g1.MK ∧
      FrontInv g4 is4 (s.x + 1) ∧ g4.deltas.m_begin < g4.deltas.m_end ∧
      g4.alpha = s.g.alpha := by
  obtain ⟨hx, hm⟩ := hinv
  rw [hrun] at hm
  obtain ⟨hlen, ht⟩ := hm
  obtain ⟨hab, hcv, hfr⟩ := hl
  have hcount : s.count = s.x := by simp [GenState.count, hrun]
  rw [hcount] at hab hfr
  have hc := nextconv_pos s.g s.is c s.x ht hn
  have ht1 := TableInv_push_cs s.g.xs s.g.ys s.g.cs s.g.K s.x c hlen hc ht
  have hlen1 : (((s.g.cs ++ [c]).length : Nat) : Int) = s.x + 1 := by
    simp only [List.length_append, List.length_singleton]; push_cast; omega
  obtain ⟨t1, t2, _, _⟩ := emplace_true_TableInv _ g1 s.x y hx hlen1 ht1 he
  simp only at t2
  obtain ⟨i1, _, i3, _⟩ := ht
  obtain ⟨hxy, _, e2, e3, kx, ky, ex, ey, x1, d1, d2, d3, d4, d5, d6, d7, _, d9⟩ :=
    emplace_table { s.g with cs := s.g.cs ++ [c] } g1 s.x y i1 i3 he
  simp only at d1 d2 e2 e3
  obtain ⟨h1, h2, h3, h4, h5⟩ := hfr
  have hlb : 0 < s.g.cs.length → lower_bound s.g.ys (s.g.cs.length : Int) = s.is := by
    intro hpos
    obtain ⟨yi, xi, q1, q2, _, _⟩ := h4 (by omega)
    rw [hlen]
    exact lower_bound_eq_of_least s.g.ys s.x s.is yi h3 q1 q2
  have hcv1 := ConvInv_push s.g s.is c hcv hn hlb
  have hcl : (g1.cs.length : Int) = s.x + 1 := by rw [t2]; exact hlen1
  have hcv2 : ConvInv g1.xs g1.ys g1.cs := by
    rw [d5, d6, t2]
    rw [d1, d2] at hcv1
    exact ConvInv_emplace kx ky ex ey _ s.x x1 y d3 d4 d7 d9 (by omega) hcv1
  have hab2 : Above g1.xs g1.ys (s.x + 1) := by
    rw [d5, d6]
    rw [d1, d2] at hab
    exact emplace_Above kx ky ex ey s.x x1 y hxy d3 d4 d9 hab
  have hisf : ∃ xi, g1.xs[s.is]? = some xi ∧ (s.g.deltas.m_begin : Int) = xi ∧
      ∀ (j : Nat) (e : Int), j < s.is → g1.ys[j]? = some e → e < s.x + 1 := by
    by_cases hx0 : 0 < s.x
    · obtain ⟨yi, xi, q1, q2, q3, q4⟩ := h4 hx0
      have hlbx := lower_bound_eq_of_least s.g.ys s.x s.is yi h3 q1 q2
      have hz : (kx ++ ex)[lower_bound (ky ++ ey) s.x]? = some xi := by
        rw [← d1, ← d2, hlbx]; exact q3
      obtain ⟨s1, s2⟩ := lower_bound_stable kx ky ex ey s.x x1 y s.x xi d3 d4 d7 (by omega) d9 hz
      have hidx : lower_bound g1.ys s.x = s.is := by rw [d6, s1, ← d2]; exact hlbx
      refine ⟨xi, ?_, q4, ?_⟩
      · rw [d5, ← hidx, d6]; exact s2
      · intro j e hj hje
        have := lower_bound_lt g1.ys s.x j e (by rw [hidx]; exact hj) hje
        omega
    · have hx00 : s.x = 0 := by omega
      obtain ⟨z1, z2⟩ := h5 hx00
      obtain ⟨_, _, _, _, j5, _⟩ := t1
      have hh := j5 (by omega)
      rw [List.getLast?_reverse] at hh
      refine ⟨0, ?_, ?_, ?_⟩
      · rw [z1, ← List.head?_eq_getElem?]; exact hh
      · rw [z2]; rfl
      · intro j e hj
        omega
  obtain ⟨xi, hxi, hbeg, hbelow⟩ := hisf
  have hisl : s.is < g1.xs.length := by
    by_contra hcn
    rw [List.getElem?_eq_none (by omega)] at hxi
    cases hxi
  have t1c := t1
  obtain ⟨j1, j2, _, j4, _⟩ := t1c
  obtain ⟨p1, p2, p3⟩ := max_deque_Shape_push_back sq2.lt g1.deltas (func.delta s.x y)
    (by rw [e2]; exact h1)
  obtain ⟨g4, is4, r1, r2, f1, f2, f3, f4, f5, _, f7, r3, _, r5, _⟩ :=
    advance_spec (s.x + 1) (by omega) (g1.ys.length + 1)
      { g1 with deltas := g1.deltas.push_back sq2.lt (func.delta s.x y) } s.is
      j1 (List.pairwise_reverse.mp j2) (fun e hem => (j4 e (by simpa using hem)).2) hab2.2
      p1 (by simp only; rw [p3, e2]; push_cast; omega) (by simp only; omega)
      (by simp only; omega) hbelow
      ⟨xi, hxi, by simp only; rw [p2, e2]; exact hbeg⟩
  exact ⟨t1, hcl, hab2, hcv2, hisl, g4, is4, r1, r2,
    f1, f2, f3, f4, f5, r3, r5, by rw [f7]; exact e3⟩

/-- One pass of the generation loop keeps the second loop invariant. -/
theorem step_LoopInv (F : Floating) (s s1 : GenState) (hinv : GenInv s) (hl : LoopInv s)
    (hrun : s.status = Status.running) (h : func.step F s = some s1) : LoopInv s1 := by
  unfold func.step at h
  simp only [Option.bind_eq_some] at h
  obtain ⟨c, hn, y, _, r, h3, h4⟩ := h
  obtain ⟨b, g1⟩ := r
  cases b with
  | false =>
    simp only [if_true, Option.some.injEq] at h4
    subst h4
    obtain ⟨_, _, nK, _, _, _, hg1⟩ := emplace_false_inv _ g1 s.x y h3
    obtain ⟨hx, hm⟩ := hinv
    rw [hrun] at hm
    obtain ⟨hlen, _⟩ := hm
    obtain ⟨hab, hcv, hfr⟩ := hl
    have hcount : s.count = s.x := by simp [GenState.count, hrun]
    rw [hcount] at hab hfr
    have hlb : 0 < s.g.cs.length → lower_bound s.g.ys (s.g.cs.length : Int) = s.is := by
      intro hpos
      obtain ⟨yi, xi, q1, q2, _, _⟩ := hfr.2.2.2.1 (by omega)
      rw [hlen]
      exact lower_bound_eq_of_least s.g.ys s.x s.is yi hfr.2.2.1 q1 q2
    have hcv1 := ConvInv_push s.g s.is c hcv hn hlb
    subst hg1
    exact ⟨hab, hcv1, hfr⟩
  | true =>
    simp only [Bool.true_eq_false, if_false] at h4
    obtain ⟨_, _, hab2, hcv2, hisl, g4, is4, r1, _, f1, f2, f3, _, _, r3, _⟩ :=
      emplace_loop s hinv hl hrun c y g1 hn h3
    have hab4 : Above g4.xs g4.ys (s.x + 1) := by rw [f1, f2]; exact hab2
    have hcv4 : ConvInv g4.xs g4.ys g4.cs := by rw [f1, f2, f3]; exact hcv2
    unfold func.afterEmplace at h4
    rw [if_neg (by simpa using hisl)] at h4
    rw [r1] at h4
    simp only [Option.some_bind, Option.bind_eq_some] at h4
    obtain ⟨xi, _, t, _, h5⟩ := h4
    by_cases hb : F.beyond g4.coef (func.dmax xi s.x t) (s.x + 1) = true
    · rw [if_pos hb] at h5
      simp only [Option.some.injEq] at h5
      subst h5
      exact ⟨hab4, hcv4, r3⟩
    · rw [if_neg hb] at h5
      simp only [Option.some.injEq] at h5
      subst h5
      exact ⟨hab4, hcv4, r3⟩

/-- The second loop invariant holds at the entry of the loop. -/
theorem start_LoopInv (mk : frac) : LoopInv (func.start mk) := by
  refine ⟨⟨?_, ?_⟩, ⟨?_, ?_⟩, max_deque_Shape_init, rfl, ?_, ?_, ?_⟩
  · intro j a b ha
    simp [func.start] at ha
  · intro yb hyb
    simp [func.start] at hyb
  · intro c hc
    simp [func.start] at hc
  · intro v c _ hc
    simp [func.start, vecGet] at hc
  · intro j e hj
    simp [func.start] at hj
  · intro h0
    simp [func.start, GenState.count] at h0
  · intro _
    exact ⟨rfl, rfl⟩

/-- Both loop invariants are kept along the generation. -/
theorem gen_LoopInv (F : Floating) (n : Nat) : ∀ (s s1 : GenState), GenInv s → LoopInv s →
    func.gen F n s = some s1 → LoopInv s1 := by
  induction n with
  | zero =>
    intro s s1 _ hl h
    simp only [func.gen, Option.some.injEq] at h
    subst h
    exact hl
  | succ n ih =>
    intro s s1 hi hl h
    cases hs : s.status with
    | running =>
      simp only [func.gen, hs, Option.bind_eq_some] at h
      obtain ⟨s0, h1, h2⟩ := h
      exact ih s0 s1 (step_GenInv F s s0 hi hs h1).1 (step_LoopInv F s s0 hi hl hs h1) h2
    | success =>
      simp only [func.gen, hs, Option.some.injEq] at h
      subst h
      exact hl
    | failure =>
      simp only [func.gen, hs, Option.some.injEq] at h
      subst h
      exact hl

/-- The table invariant holds for the count of the state, and the convergence
table has as many entries as the count, or one more after a failure. -/
theorem GenInv_count (s : GenState) (h : GenInv s) :
    TableInv s.g.xs s.g.ys s.g.cs s.g.K s.count ∧ 0 ≤ s.count ∧
    s.count ≤ (s.g.cs.length : Int) ∧ (s.g.cs.length : Int) ≤ s.count + 1 := by
  obtain ⟨hx, hm⟩ := h
  unfold GenState.count
  cases hs : s.status with
  | running =>
    rw [hs] at hm
    exact ⟨hm.2, hx, by simp only; omega, by simp only; omega⟩
  | success =>
    rw [hs] at hm
    exact ⟨hm.2, by simp only; omega, by simp only; omega, by simp only; omega⟩
  | failure =>
    rw [hs] at hm
    exact ⟨hm.2, hx, by simp only; omega, by simp only; omega⟩

/-! ### func: the table lies above the identity -/

/-- C25: in every state of the generation loop of `func(MK)` with a non-empty
table, for every `x` with `0 ≤ x ≤ xs.back()` the call `dir(x)` returns a
value greater than `x`; the `y` of every breakpoint is at least the `x` of the
next breakpoint, and `ys.back() > xs.back()`. -/
theorem func_dir_above_identity (F : Floating) (MK : frac) (n : Nat) (s : GenState)
    (h : func.gen F n (func.start MK) = some s) (xb : Int)
    (hb : s.g.xs.getLast? = some xb) :
    (∀ x, 0 ≤ x → x ≤ xb → ∃ d, func.dir F s.g x = some d ∧ x < d) ∧
    (∀ (j : Nat) (a b : Int), s.g.ys[j]? = some a → s.g.xs[j + 1]? = some b → b ≤ a) ∧
    (∃ yb, s.g.ys.getLast? = some yb ∧ xb < yb) := by
  obtain ⟨hinv, _⟩ := gen_GenInv F n _ s (start_GenInv MK) h
  have hloop := gen_LoopInv F n _ s (start_GenInv MK) (start_LoopInv MK) h
  obtain ⟨⟨i1, i2, _, i4, i5, _⟩, _⟩ := GenInv_count s hinv
  obtain ⟨⟨a1, a2⟩, _, _⟩ := hloop
  have hxs := List.pairwise_reverse.mp i2
  have hxbm := i4 xb (by simpa using List.mem_of_mem_getLast? hb)
  have hxne : s.g.xs ≠ [] := List.ne_nil_of_mem (List.mem_of_mem_getLast? hb)
  have hL : 0 < s.g.xs.length := List.length_pos.mpr hxne
  have hhead : s.g.xs[0]? = some 0 := by
    have := i5 (by omega)
    rw [List.getLast?_reverse] at this
    rw [← List.head?_eq_getElem?]
    exact this
  have hlasty : s.g.ys.getLast? = some (s.g.ys.get ⟨s.g.ys.length - 1, by omega⟩) := by
    rw [List.getLast?_eq_getElem?]
    exact List.getElem?_eq_getElem (by omega)
  generalize s.g.ys.get ⟨s.g.ys.length - 1, by omega⟩ = yb at hlasty
  have hyb := a2 yb hlasty
  refine ⟨?_, a1, yb, hlasty, by omega⟩
  intro x h0 hx
  obtain ⟨u1, u2⟩ := upper_bound_spec s.g.xs hxs x
  have hub0 : upper_bound s.g.xs x ≠ 0 := by
    intro hc
    have := u2 0 0 (by omega) hhead
    omega
  have hle : upper_bound s.g.xs x ≤ s.g.xs.length := List.findIdx_le_length _
  obtain ⟨u, hu⟩ : ∃ u, upper_bound s.g.xs x = u + 1 := ⟨upper_bound s.g.xs x - 1, by omega⟩
  have hul : u < s.g.ys.length := by omega
  have hd : s.g.ys[u]? = some (s.g.ys.get ⟨u, hul⟩) := List.getElem?_eq_getElem hul
  generalize s.g.ys.get ⟨u, hul⟩ = d at hd
  refine ⟨d, ?_, ?_⟩
  · unfold func.dir
    rw [hb]
    simp only
    rw [if_neg (by omega), if_neg hub0, hu]
    exact hd
  · by_cases hlast : u + 1 < s.g.xs.length
    · have e1 := u2 (u + 1) _ (by omega) (List.getElem?_eq_getElem hlast)
      have e2 := a1 u _ _ hd (List.getElem?_eq_getElem hlast)
      omega
    · have hul2 : s.g.ys.length - 1 = u := by omega
      rw [List.getLast?_eq_getElem?, hul2, hd] at hlasty
      cases hlasty
      omega

/-- C25 at a concrete state: `func(frac(5,2))` after two passes, where
`xs.back() = 1`. -/
theorem func_dir_above_identity_witness :
    func.gen Floating.never 2 (func.start ⟨5, 2⟩) = some stateAfterTwo ∧
    stateAfterTwo.g.xs.getLast? = some 1 ∧
    func.dir Floating.never stateAfterTwo.g 0 = some 1 ∧
    func.dir Floating.never stateAfterTwo.g 1 = some 4 ∧
    ((∀ x, 0 ≤ x → x ≤ 1 → ∃ d, func.dir Floating.never stateAfterTwo.g x = some d ∧ x < d) ∧
    (∀ (j : Nat) (a b : Int), stateAfterTwo.g.ys[j]? = some a →
      stateAfterTwo.g.xs[j + 1]? = some b → b ≤ a) ∧
    (∃ yb, stateAfterTwo.g.ys.getLast? = some yb ∧ 1 < yb)) :=
  ⟨gen_two_five_halves, rfl, by decide, by decide,
    func_dir_above_identity Floating.never ⟨5, 2⟩ 2 stateAfterTwo gen_two_five_halves 1 rfl⟩

/-! ### func: the convergence table against the recursion -/

/-- C21: in every state of the generation loop of `func(MK)` (in particular
in a constructed `func`), `cs[0] = 1` when the table has an entry, and for
every `v` with `1 ≤ v < cs.size()` the call `inv(v)` on the current table
returns some `z` with `0 ≤ z < v`, the calls `convergence(v)` and
`convergence(z)` are table hits, and `cs[v] = cs[z] + z + v + 1`: the recorded
entry is what the recursive branch of `convergence` computes.  The entry was
recorded from the table of an earlier pass; the evictions since then have not
changed `inv(v)`. -/
theorem func_convergence_recursion (F : Floating) (MK : frac) (n : Nat) (s : GenState)
    (h : func.gen F n (func.start MK) = some s) :
    (0 < s.g.cs.length → vecGet s.g.cs 0 = some 1) ∧
    (∀ v, 1 ≤ v → v < (s.g.cs.length : Int) →
      ∃ z c cz, func.inv F s.g v = some z ∧ 0 ≤ z ∧ z < v ∧
        func.convergence F s.g 1 v = some c ∧ func.convergence F s.g 1 z = some cz ∧
        vecGet s.g.cs v = some c ∧ vecGet s.g.cs z = some cz ∧ c = cz + z + v + 1) := by
  obtain ⟨hinv, _⟩ := gen_GenInv F n _ s (start_GenInv MK) h
  have hloop := gen_LoopInv F n _ s (start_GenInv MK) (start_LoopInv MK) h
  obtain ⟨⟨i1, i2, _, i4, i5, _⟩, k0, k1, k2⟩ := GenInv_count s hinv
  obtain ⟨⟨a1, a2⟩, ⟨c1, c2⟩, _⟩ := hloop
  constructor
  · intro hpos
    have h0 : s.g.cs[0]? = some (s.g.cs.get ⟨0, hpos⟩) := List.getElem?_eq_getElem hpos
    have := c1 _ h0
    rw [this] at h0
    simp only [vecGet]
    exact h0
  · intro v hv hvl
    have hvget : vecGet s.g.cs v = some (s.g.cs.get ⟨v.toNat, by omega⟩) := by
      unfold vecGet
      rw [if_neg (by omega)]
      exact List.getElem?_eq_getElem (by omega)
    generalize s.g.cs.get ⟨v.toNat, by omega⟩ = c at hvget
    obtain ⟨z, cz, z1, z2, z3⟩ := c2 v c hv hvget
    have hzmem : z ∈ s.g.xs := List.getElem?_mem z1
    have hz0 := (i4 z (by simpa using hzmem)).1
    have hxne : s.g.xs ≠ [] := List.ne_nil_of_mem hzmem
    have hL : 0 < s.g.xs.length := List.length_pos.mpr hxne
    have hlasty : s.g.ys.getLast? = some (s.g.ys.get ⟨s.g.ys.length - 1, by omega⟩) := by
      rw [List.getLast?_eq_getElem?]
      exact List.getElem?_eq_getElem (by omega)
    generalize s.g.ys.get ⟨s.g.ys.length - 1, by omega⟩ = yb at hlasty
    have hyb := a2 yb hlasty
    have hhead : s.g.xs[0]? = some 0 := by
      have := i5 (by omega)
      rw [List.getLast?_reverse] at this
      rw [← List.head?_eq_getElem?]
      exact this
    have hil : lower_bound s.g.ys v < s.g.xs.length := by
      by_contra hc
      rw [List.getElem?_eq_none (by omega)] at z1
      cases z1
    have hzv : z < v := by
      by_cases hi0 : lower_bound s.g.ys v = 0
      · rw [hi0, hhead] at z1
        cases z1
        omega
      · have hpl : lower_bound s.g.ys v - 1 < s.g.ys.length := by omega
        have e1 := lower_bound_lt s.g.ys v (lower_bound s.g.ys v - 1) _ (by omega)
          (List.getElem?_eq_getElem hpl)
        have hidx : lower_bound s.g.ys v - 1 + 1 = lower_bound s.g.ys v := by omega
        have e2 := a1 (lower_bound s.g.ys v - 1) _ z (List.getElem?_eq_getElem hpl)
          (by rw [hidx]; exact z1)
        omega
    refine ⟨z, c, cz, ?_, hz0, hzv, ?_, ?_, hvget, z2, z3⟩
    · unfold func.inv
      rw [hlasty]
      simp only
      rw [if_neg (by omega)]
      exact z1
    · simp only [func.convergence]
      rw [if_pos hvl]
      exact hvget
    · simp only [func.convergence]
      rw [if_pos (by omega)]
      exact z2

/-- C21 at a concrete state: `func(frac(5,2))` after three passes with
success at `x = 2`, where `cs = [1, 3, 7]` and `inv(2) = 1`:
`cs[2] = cs[1] + 1 + 2 + 1`. -/
theorem func_convergence_recursion_witness :
    func.gen Floating.early 3 (func.start ⟨5, 2⟩) = some stateSuccess ∧
    func.inv Floating.early stateSuccess.g 2 = some 1 ∧
    vecGet stateSuccess.g.cs 2 = some 7 ∧ vecGet stateSuccess.g.cs 1 = some 3 ∧
    ((0 < stateSuccess.g.cs.length → vecGet stateSuccess.g.cs 0 = some 1) ∧
    (∀ v, 1 ≤ v → v < (stateSuccess.g.cs.length : Int) →
      ∃ z c cz, func.inv Floating.early stateSuccess.g v = some z ∧ 0 ≤ z ∧ z < v ∧
        func.convergence Floating.early stateSuccess.g 1 v = some c ∧
        func.convergence Floating.early stateSuccess.g 1 z = some cz ∧
        vecGet stateSuccess.g.cs v = some c ∧ vecGet stateSuccess.g.cs z = some cz ∧
        c = cz + z + v + 1)) :=
  ⟨gen_three_five_halves, by decide, by decide, by decide,
    func_convergence_recursion Floating.early ⟨5, 2⟩ 3 stateSuccess gen_three_five_halves⟩

/-! ### func: index safety of the generation loop -/

/-- C26: in every pass of the generation loop of `func(MK)` in which
`emplace(x, y)` succeeds (whatever `y`, in particular `y = maxallowed(x)`),
the assertion `is < xs.size()` holds; the loop advancing `is` returns, with
every access `ys[is]`, `xs[is]`, `xs[is+1]` within bounds and no
`pop_front()` on an empty window (the model in which such a call is a fault
returns the same result); at its exit `is` is the least index with
`ys[is] ≥ x + 1`, `xs[is]` is within bounds, the window of `deltas` is not
empty and `top()` returns; so the rest of the pass does not fault. -/
theorem func_loop_index_safety (F : Floating) (MK : frac) (n : Nat) (s : GenState)
    (h : func.gen F n (func.start MK) = some s) (hrun : s.status = Status.running)
    (c y : Int) (g1 : func) (hn : func.nextconv s.g s.is = some c)
    (he : func.emplace { s.g with cs := s.g.cs ++ [c] } s.x y = some (true, g1)) :
    s.is < g1.xs.length ∧
    ∃ g4 is4,
      func.advance (g1.ys.length + 1)
        { g1 with deltas := g1.deltas.push_back sq2.lt (func.delta s.x y) } s.is (s.x + 1)
        = some (g4, is4) ∧
      func.advanceChecked (g1.ys.length + 1)
        { g1 with deltas := g1.deltas.push_back sq2.lt (func.delta s.x y) } s.is (s.x + 1)
        = some (g4, is4) ∧
      g4.xs = g1.xs ∧ g4.ys = g1.ys ∧
      (∃ yi, g4.ys[is4]? = some yi ∧ s.x + 1 ≤ yi) ∧
      (∀ (j : Nat) (e : Int), j < is4 → g4.ys[j]? = some e → e < s.x + 1) ∧
      is4 = lower_bound g4.ys (s.x + 1) ∧
      (∃ xi, g4.xs[is4]? = some xi) ∧
      g4.deltas.m_begin < g4.deltas.m_end ∧ (∃ t, g4.deltas.top = some t) ∧
      ∃ s1, func.afterEmplace F g1 s.is s.x y = some s1 := by
  obtain ⟨hinv, _⟩ := gen_GenInv F n _ s (start_GenInv MK) h
  have hloop := gen_LoopInv F n _ s (start_GenInv MK) (start_LoopInv MK) h
  have hx0 : 0 ≤ s.x := hinv.1
  obtain ⟨_, _, _, _, hisl, g4, is4, r1, r2, f1, f2, _, _, _, r3, r5, _⟩ :=
    emplace_loop s hinv hloop hrun c y g1 hn he
  obtain ⟨q1, _, q3, q4, _⟩ := r3
  obtain ⟨yi, xi, hyi, hge, hxi, _⟩ := q4 (by omega)
  obtain ⟨t, ht⟩ := max_deque_Shape_top g4.deltas q1 r5
  refine ⟨hisl, g4, is4, r1, r2, f1, f2, ⟨yi, hyi, hge⟩, q3,
    (lower_bound_eq_of_least g4.ys (s.x + 1) is4 yi q3 hyi hge).symm, ⟨xi, hxi⟩, r5, ⟨t, ht⟩, ?_⟩
  unfold func.afterEmplace
  rw [if_neg (by simpa using hisl), r1]
  simp only [Option.some_bind, hxi, ht]
  by_cases hb : F.beyond g4.coef (func.dmax xi s.x t) (s.x + 1) = true
  · rw [if_pos hb]
    exact ⟨_, rfl⟩
  · rw [if_neg hb]
    exact ⟨_, rfl⟩

/-- C26 at a concrete pass: the pass `x = 2` of `func(frac(5,2))`, where
`emplace(2, 5)` succeeds. -/
theorem func_loop_index_safety_witness :
    func.gen Floating.never 2 (func.start ⟨5, 2⟩) = some stateAfterTwo ∧
    stateAfterTwo.status = Status.running ∧
    func.nextconv stateAfterTwo.g stateAfterTwo.is = some 7 ∧
    func.maxallowed Floating.never { stateAfterTwo.g with cs := stateAfterTwo.g.cs ++ [7] } 1
      stateAfterTwo.x = some 5 ∧
    func.emplace { stateAfterTwo.g with cs := stateAfterTwo.g.cs ++ [7] } stateAfterTwo.x 5
      = some (true, objectAfterThird) ∧
    (stateAfterTwo.is < objectAfterThird.xs.length ∧
    ∃ g4 is4,
      func.advance (objectAfterThird.ys.length + 1)
        { objectAfterThird with
          deltas := objectAfterThird.deltas.push_back sq2.lt (func.delta stateAfterTwo.x 5) }
        stateAfterTwo.is (stateAfterTwo.x + 1) = some (g4, is4) ∧
      func.advanceChecked (objectAfterThird.ys.length + 1)
        { objectAfterThird with
          deltas := objectAfterThird.deltas.push_back sq2.lt (func.delta stateAfterTwo.x 5) }
        stateAfterTwo.is (stateAfterTwo.x + 1) = some (g4, is4) ∧
      g4.xs = objectAfterThird.xs ∧ g4.ys = objectAfterThird.ys ∧
      (∃ yi, g4.ys[is4]? = some yi ∧ stateAfterTwo.x + 1 ≤ yi) ∧
      (∀ (j : Nat) (e : Int), j < is4 → g4.ys[j]? = some e → e < stateAfterTwo.x + 1) ∧
      is4 = lower_bound g4.ys (stateAfterTwo.x + 1) ∧
      (∃ xi, g4.xs[is4]? = some xi) ∧
      g4.deltas.m_begin < g4.deltas.m_end ∧ (∃ t, g4.deltas.top = some t) ∧
      ∃ s1, func.afterEmplace Floating.never objectAfterThird stateAfterTwo.is
        stateAfterTwo.x 5 = some s1) :=
  ⟨gen_two_five_halves, rfl, by decide!, by decide!, by decide!,
    func_loop_index_safety Floating.never ⟨5, 2⟩ 2 stateAfterTwo gen_two_five_halves rfl 7 5
      objectAfterThird (by decide!) (by decide!)⟩

/-! ### func: `dir` right after `emplace` -/

/-- C23 fails in the code.  `emplace` is documented to insert a pair for which
`func(x) = y`, possibly updating backwards to ensure monotonicity.  In the
pass `x = 4` of `func(frac(23,10))` the table is `xs = [0,1,2,3]`,
`ys = [1,3,4,8]`, `nextconv` gives `14` and `maxallowed` gives `6`;
`emplace(4, 6)` succeeds, evicts the breakpoint `(3, 8)` and records `(3, 6)`,
so that `xs.back() = 3 < 4` and `dir(4)` takes the branch beyond the table:
whatever the conversion, it is `int(double(4 + 4√2))`, which is `9` for the
real number `4 + 4√2 = 9.65...`, not `6`.  The slip survives in a finished
object: the generation of `func(frac(35,13))` ends with success in the pass
`x = 19`, whose `emplace(19, 58)` evicts back to the breakpoint `(17, 58)`;
then `dir(17) = 58`, `dir(18) = 48` and `dir(19) = 50`, so `dir(19)` is not
`58` and `dir` is not monotone. -/
theorem func_dir_after_eviction :
    func.gen Floating.exactConv 4 (func.start ⟨23, 10⟩) = some stateBeforeEviction ∧
    func.nextconv stateBeforeEviction.g stateBeforeEviction.is = some 14 ∧
    func.maxallowed Floating.exactConv
      { stateBeforeEviction.g with cs := stateBeforeEviction.g.cs ++ [14] } 1 4 = some 6 ∧
    func.emplace { stateBeforeEviction.g with cs := stateBeforeEviction.g.cs ++ [14] } 4 6
      = some (true, objectAfterEviction) ∧
    objectAfterEviction.xs.getLast? = some 3 ∧ objectAfterEviction.ys.getLast? = some 6 ∧
    (∀ F : Floating, func.dir F objectAfterEviction 4 = some (F.toInt ⟨4, 4⟩)) ∧
    func.dir Floating.exactConv objectAfterEviction 4 = some 9 ∧
    func.dir Floating.exactConv objectAfterEviction 3 = some 6 ∧
    (func.gen Floating.exactConv 19 (func.start ⟨35, 13⟩)).map
      (fun s => (s.status, s.x, s.g.xs.getLast?, s.g.ys.getLast?))
      = some (Status.running, 19, some 18, some 65) ∧
    (func.gen Floating.exactConv 20 (func.start ⟨35, 13⟩)).map
      (fun s => (s.status, s.x, s.g.xs.getLast?, s.g.ys.getLast?, s.g.alpha))
      = some (Status.success, 19, some 17, some 58, ⟨15, -7⟩) ∧
    (func.gen Floating.exactConv 20 (func.start ⟨35, 13⟩)).map
      (fun s => (func.dir Floating.exactConv s.g 17, func.dir Floating.exactConv s.g 18,
        func.dir Floating.exactConv s.g 19)) = some (some 58, some 48, some 50) := by
  refine ⟨by decide!, by decide!, by decide!, by decide!, by decide, by decide, ?_,
    by decide!, by decide!, by decide!, by decide!, by decide!⟩
  intro F
  rfl

/-! ### func: the achieved bound stays below the target -/

/-- On a table above the identity, the value looked up for an argument below
the count is greater than the argument. -/
theorem lookup_above (xs ys : List Int) (m x d : Int) (hl : xs.length = ys.length)
    (hp : xs.reverse.Pairwise (fun a b => b < a)) (hab : Above xs ys m) (hx : x < m)
    (h : lookupR xs.reverse ys.reverse x = some d) : x < d := by
  rw [← table_lookup_eq x xs ys hl hp] at h
  have hxs := List.pairwise_reverse.mp hp
  obtain ⟨_, u2⟩ := upper_bound_spec xs hxs x
  by_cases hub0 : upper_bound xs x = 0
  · rw [if_pos hub0] at h; cases h
  · rw [if_neg hub0] at h
    have hle : upper_bound xs x ≤ xs.length := List.findIdx_le_length _
    by_cases hlast : upper_bound xs x < xs.length
    · have e1 := u2 (upper_bound xs x) _ (le_refl _) (List.getElem?_eq_getElem hlast)
      have hidx : upper_bound xs x - 1 + 1 = upper_bound xs x := by omega
      have e2 := hab.1 (upper_bound xs x - 1) d _ h
        (by rw [hidx]; exact List.getElem?_eq_getElem hlast)
      omega
    · have hlasty : ys.getLast? = some d := by
        rw [List.getLast?_eq_getElem?]
        have : ys.length - 1 = upper_bound xs x - 1 := by omega
        rw [this]; exact h
      have := hab.2 d hlasty
      omega

/-- While the achieved bound is below the target, the convergence time
computed by `nextconv` in the pass `x` is at most `MK * ideal(x) + x + 1`. -/
theorem nextconv_le (s : GenState) (hinv : GenInv s) (hl : LoopInv s)
    (hrun : s.status = Status.running) (hnum : 0 ≤ s.g.MK.num) (hden : 0 < s.g.MK.den)
    (hK : s.g.K.toRat < s.g.MK.toRat) (c : Int) (hn : func.nextconv s.g s.is = some c) :
    (c : ℚ) ≤ s.g.MK.toRat * ((2 * s.x + 1 : Int) : ℚ) + ((s.x + 1 : Int) : ℚ) := by
  obtain ⟨hx, hm⟩ := hinv
  rw [hrun] at hm
  obtain ⟨hlen, i1, i2, _, i4, i5, _, _, _, i9⟩ := hm
  obtain ⟨hab, _, _⟩ := hl
  have hcount : s.count = s.x := by simp [GenState.count, hrun]
  rw [hcount] at hab
  have hMK0 : (0 : ℚ) ≤ s.g.MK.toRat := by
    unfold frac.toRat
    exact div_nonneg (by exact_mod_cast hnum) (by exact_mod_cast (le_of_lt hden))
  unfold func.nextconv at hn
  by_cases h0 : s.g.cs.length = 0
  · rw [if_pos h0] at hn
    simp only [Option.some.injEq] at hn
    have hx0 : s.x = 0 := by omega
    rw [← hn, hx0]
    norm_num
    exact hMK0
  · rw [if_neg h0] at hn
    simp only [Option.bind_eq_some, Option.some.injEq] at hn
    obtain ⟨z, hz, cz, hcz, hc⟩ := hn
    have hzm := i4 z (by simpa using List.getElem?_mem hz)
    obtain ⟨d, hd⟩ := lookupR_isSome z s.g.xs.reverse s.g.ys.reverse 0 (by simp [i1])
      (i5 (by omega)) hzm.1
    have hle := i9 z cz d hzm.1 hzm.2 hcz hd
    have hzd := lookup_above s.g.xs s.g.ys s.x z d i1 i2 hab hzm.2 hd
    have hpos : (0 : ℚ) < ((2 * z + 1 : Int) : ℚ) := by exact_mod_cast (by omega : 0 < 2 * z + 1)
    rw [div_le_iff₀ hpos] at hle
    have h2 : s.g.K.toRat * ((2 * z + 1 : Int) : ℚ) ≤ s.g.MK.toRat * ((2 * z + 1 : Int) : ℚ) :=
      mul_le_mul_of_nonneg_right (le_of_lt hK) (le_of_lt hpos)
    have hzx : ((2 * z + 1 : Int) : ℚ) ≤ ((2 * s.x + 1 : Int) : ℚ) := by
      exact_mod_cast (by omega : 2 * z + 1 ≤ 2 * s.x + 1)
    have h3 : s.g.MK.toRat * ((2 * z + 1 : Int) : ℚ) ≤ s.g.MK.toRat * ((2 * s.x + 1 : Int) : ℚ) :=
      mul_le_mul_of_nonneg_left hzx hMK0
    have hzdq : (z : ℚ) < (d : ℚ) := by exact_mod_cast hzd
    have hcq : (c : ℚ) = (cz : ℚ) + (z : ℚ) + (s.x : ℚ) + 1 := by
      rw [← hc, ← hlen]
      push_cast
      ring
    rw [hcq]
    push_cast at hle h2 h3 ⊢
    linarith

/-- A pass of the loop that does not end with failure keeps the achieved bound
strictly below the target bound: the value `y` returned by `maxallowed` and
accepted by `emplace` is not above the value before narrowing. -/
theorem step_bound_lt (F : Floating) (s s1 : GenState) (hinv : GenInv s) (hl : LoopInv s)
    (hrun : s.status = Status.running) (hnum : 0 ≤ s.g.MK.num) (hden : 0 < s.g.MK.den)
    (hK : s.g.K.toRat < s.g.MK.toRat) (h : func.step F s = some s1)
    (hs1 : s1.status ≠ Status.failure) : s1.g.K.toRat < s.g.MK.toRat := by
  have hcb := nextconv_le s hinv hl hrun hnum hden hK
  obtain ⟨hx, hm⟩ := hinv
  rw [hrun] at hm
  obtain ⟨hlen, ht⟩ := hm
  unfold func.step at h
  simp only [Option.bind_eq_some] at h
  obtain ⟨c, h1, y, h2, r, h3, h4⟩ := h
  obtain ⟨b, g1⟩ := r
  cases b with
  | false =>
    simp only [if_true, Option.some.injEq] at h4
    subst h4
    exact absurd rfl hs1
  | true =>
    simp only [Bool.true_eq_false, if_false] at h4
    obtain ⟨_, _, _, f4, _, _⟩ := afterEmplace_fields F g1 s.is s.x y s1 h4
    rw [f4]
    obtain ⟨hxy, c1, nK, g0, r1, e1, e2, e3, _, e5⟩ := emplace_true_inv _ g1 s.x y h3
    obtain ⟨_, _, _, _, _, _, k7⟩ := raiseK_spec _ g0 nK e3
    have hg1K : g1.K = g0.K := by rw [e5]
    rw [hg1K]
    rcases k7 with ⟨_, a2⟩ | ⟨_, a2⟩
    · rw [a2]
      have hget : vecGet (s.g.cs ++ [c]) s.x = some c := by
        unfold vecGet
        rw [if_neg (by omega)]
        have : s.x.toNat = s.g.cs.length := by omega
        rw [this]
        simp
      simp only at e1
      rw [hget] at e1
      cases e1
      obtain ⟨q, v, q1, q0, q2, q3⟩ := maxallowed_spec F { s.g with cs := s.g.cs ++ [c] } hnum hden
        s.x c y hx hget 0 h2
      simp only at q3
      have hge := frac_ceil_ge q (v + 1) q2 q1
      rw [q3] at hge
      have hcb1 := hcb c h1
      have hvx : -(s.x + 2) ≤ v := by
        have : ((-(s.x + 2) : Int) : ℚ) ≤ (v : ℚ) := by
          push_cast at hge hcb1 ⊢
          linarith
        exact_mod_cast this
      obtain ⟨n1, n2⟩ := narrowInt_range v
      rw [← q0] at n1 n2
      have hyv : y ≤ v := by
        by_cases hv2 : v < 2147483648
        · by_cases hv1 : -2147483648 ≤ v
          · rw [narrowInt_eq_self v hv1 hv2] at q0
            omega
          · omega
        · omega
      have hlt := frac_ceil_pred_lt q (v + 1) q2 q1 (by omega)
      rw [q3] at hlt
      have hid : 0 < func.ideal s.x := by unfold func.ideal; omega
      obtain ⟨m1, _⟩ := frac_new_toRat (c + y) (func.ideal s.x) hid nK e2
      rw [m1]
      have hidq : (0 : ℚ) < ((func.ideal s.x : Int) : ℚ) := by exact_mod_cast hid
      rw [div_lt_iff₀ hidq]
      have hyvq : (y : ℚ) ≤ (v : ℚ) := by exact_mod_cast hyv
      unfold func.ideal
      push_cast at hlt ⊢
      linarith
    · rw [a2]
      exact hK

/-- Along the generation, while no pass has ended with failure, the achieved
bound is strictly below the target bound. -/
theorem gen_bound_lt (F : Floating) (n : Nat) : ∀ (s s1 : GenState), GenInv s → LoopInv s →
    0 ≤ s.g.MK.num → 0 < s.g.MK.den → (s.status ≠ Status.failure → s.g.K.toRat < s.g.MK.toRat) →
    func.gen F n s = some s1 → s1.status ≠ Status.failure → s1.g.K.toRat < s.g.MK.toRat := by
  induction n with
  | zero =>
    intro s s1 _ _ _ _ hK h hs1
    simp only [func.gen, Option.some.injEq] at h
    subst h
    exact hK hs1
  | succ n ih =>
    intro s s1 hi hl hnum hden hK h hs1
    cases hs : s.status with
    | running =>
      simp only [func.gen, hs, Option.bind_eq_some] at h
      obtain ⟨s0, h1, h2⟩ := h
      obtain ⟨a1, a2⟩ := step_GenInv F s s0 hi hs h1
      have hl0 := step_LoopInv F s s0 hi hl hs h1
      have hK0 : s0.status ≠ Status.failure → s0.g.K.toRat < s0.g.MK.toRat := by
        intro hs0
        rw [a2]
        exact step_bound_lt F s s0 hi hl hs hnum hden (hK (by rw [hs]; decide)) h1 hs0
      have := ih s0 s1 a1 hl0 (by rw [a2]; exact hnum) (by rw [a2]; exact hden) hK0 h2 hs1
      rw [a2] at this
      exact this
    | success =>
      simp only [func.gen, hs, Option.some.injEq] at h
      subst h
      exact hK hs1
    | failure =>
      simp only [func.gen, hs, Option.some.injEq] at h
      subst h
      exact absurd hs hs1

/-- The achieved bound of `func(MK)` with `MK > 1`, in a state reached without
a failed `emplace`, is strictly below the target as rationals. -/
theorem gen_start_bound_lt (F : Floating) (MK : frac) (hden : 0 < MK.den)
    (hgt : MK.den < MK.num) (n : Nat) (s : GenState)
    (h : func.gen F n (func.start MK) = some s) (hs : s.status ≠ Status.failure) :
    s.g.K.toRat < MK.toRat := by
  have hstart : (func.start MK).status ≠ Status.failure →
      (func.start MK).g.K.toRat < (func.start MK).g.MK.toRat := by
    intro _
    simp only [func.start, frac.ofInt, frac.toRat]
    have hd : (0 : ℚ) < MK.den := by exact_mod_cast hden
    rw [lt_div_iff₀ hd]
    have : (MK.den : ℚ) < MK.num := by exact_mod_cast hgt
    simpa using this
  have hlt := gen_bound_lt F n (func.start MK) s (start_GenInv MK) (start_LoopInv MK)
    (by simp only [func.start]; omega) (by simp only [func.start]; exact hden) hstart h hs
  simp only [func.start] at hlt
  exact hlt

/-- The block raising `K` does not read the target bound. -/
theorem raiseK_MK (g : func) (t nK : frac) :
    func.raiseK { g with MK := t } nK = (func.raiseK g nK).map fun g0 => { g0 with MK := t } := by
  unfold func.raiseK
  simp only
  by_cases h : nK.gt g.K = true
  · rw [if_pos h, if_pos h]
    cases func.truncK nK with
    | none => rfl
    | some k =>
      simp only [Option.some_bind]
      by_cases h2 : (sq2.ofInt k).gt (S.add (sq2.ofInt 1)) = true
      · rw [if_pos h2, if_pos h2]
        cases (frac.ofInt 2).mul nK with
        | none => rfl
        | some m => rfl
      · rw [if_neg h2, if_neg h2]
        rfl
  · rw [if_neg h, if_neg h]
    rfl

/-- A successful `emplace(x, y)` does not read the target bound. -/
theorem emplace_true_MK (g g1 : func) (t : frac) (x y : Int)
    (he : func.emplace g x y = some (true, g1)) :
    func.emplace { g with MK := t } x y = some (true, { g1 with MK := t }) := by
  obtain ⟨hxy, c, nK, g0, r, h1, h2, h3, h4, h5⟩ := emplace_true_inv g g1 x y he
  obtain ⟨e1, e2, _⟩ := raiseK_spec g g0 nK h3
  unfold func.emplace
  rw [if_neg (by omega)]
  simp only
  rw [h1]
  simp only [Option.some_bind]
  rw [h2]
  simp only [Option.some_bind]
  rw [raiseK_MK, h3]
  simp only [Option.map_some', Option.some_bind]
  rw [h4]
  simp only [Option.some_bind]
  rw [h5]

/-- The loop advancing `is` does not read the target bound. -/
theorem advance_MK (t : frac) (x1 : Int) (fuel : Nat) : ∀ (g : func) (is : Nat),
    func.advance fuel { g with MK := t } is x1
      = (func.advance fuel g is x1).map fun r => ({ r.1 with MK := t }, r.2) := by
  induction fuel with
  | zero => intro g is; rfl
  | succ n ih =>
    intro g is
    simp only [func.advance]
    cases g.ys[is]? with
    | none => rfl
    | some yi =>
      simp only [Option.some_bind]
      by_cases hlt : yi < x1
      · rw [if_pos hlt, if_pos hlt]
        cases g.xs[is]? with
        | none => rfl
        | some a =>
          simp only [Option.some_bind]
          cases g.xs[is + 1]? with
          | none => rfl
          | some b =>
            simp only [Option.some_bind]
            cases popN (b - a).toNat g.deltas with
            | none => rfl
            | some dq =>
              simp only [Option.some_bind]
              exact ih { g with deltas := dq } (is + 1)
      · rw [if_neg hlt, if_neg hlt]
        rfl

/-- The part of the loop body after `emplace` does not read the target
bound. -/
theorem afterEmplace_MK (F : Floating) (g : func) (t : frac) (is : Nat) (x y : Int) :
    func.afterEmplace F { g with MK := t } is x y
      = (func.afterEmplace F g is x y).map (GenState.withMK t) := by
  unfold func.afterEmplace
  simp only
  by_cases his : ¬ (is < g.xs.length)
  · rw [if_pos his, if_pos his]
    rfl
  · rw [if_neg his, if_neg his]
    have hadv := advance_MK t (x + 1) (g.ys.length + 1)
      { g with deltas := g.deltas.push_back sq2.lt (func.delta x y) } is
    simp only at hadv
    rw [hadv]
    cases func.advance (g.ys.length + 1)
        { g with deltas := g.deltas.push_back sq2.lt (func.delta x y) } is (x + 1) with
    | none => rfl
    | some a =>
      simp only [Option.map_some', Option.some_bind]
      cases a.1.xs[a.2]? with
      | none => rfl
      | some xi =>
        simp only [Option.some_bind]
        cases a.1.deltas.top with
        | none => rfl
        | some tp =>
          simp only [Option.some_bind]
          by_cases hb : F.beyond a.1.coef (func.dmax xi x tp) (x + 1) = true
          · rw [if_pos hb, if_pos hb]
            rfl
          · rw [if_neg hb, if_neg hb]
            rfl

/-- What a pass that does not end with failure does to the achieved bound: it
never lowers it, it leaves it at least at `(cs[x] + y) / ideal(x)` for the
value `y` returned by `maxallowed(x)`, and the loop variable does not
decrease. -/
theorem step_K_mono (F : Floating) (s s1 : GenState) (hinv : GenInv s)
    (hrun : s.status = Status.running) (h : func.step F s = some s1)
    (hs1 : s1.status ≠ Status.failure) :
    s.g.K.toRat ≤ s1.g.K.toRat ∧ s.x ≤ s1.x ∧
    ∃ c y, func.nextconv s.g s.is = some c ∧ 0 < c ∧
      vecGet (s.g.cs ++ [c]) s.x = some c ∧
      func.maxallowed F { s.g with cs := s.g.cs ++ [c] } 1 s.x = some y ∧ s.x < y ∧
      ((c + y : Int) : ℚ) / ((2 * s.x + 1 : Int) : ℚ) ≤ s1.g.K.toRat ∧
      ∃ g1, func.emplace { s.g with cs := s.g.cs ++ [c] } s.x y = some (true, g1) ∧
        func.afterEmplace F g1 s.is s.x y = some s1 := by
  obtain ⟨hx, hm⟩ := hinv
  rw [hrun] at hm
  obtain ⟨hlen, ht⟩ := hm
  unfold func.step at h
  simp only [Option.bind_eq_some] at h
  obtain ⟨c, h1, y, h2, r, h3, h4⟩ := h
  obtain ⟨b, g1⟩ := r
  cases b with
  | false =>
    simp only [if_true, Option.some.injEq] at h4
    subst h4
    exact absurd rfl hs1
  | true =>
    simp only [Bool.true_eq_false, if_false] at h4
    have hc := nextconv_pos s.g s.is c s.x ht h1
    have hget : vecGet (s.g.cs ++ [c]) s.x = some c := by
      unfold vecGet
      rw [if_neg (by omega)]
      have : s.x.toNat = s.g.cs.length := by omega
      rw [this]
      simp
    obtain ⟨_, _, _, f4, _, f6⟩ := afterEmplace_fields F g1 s.is s.x y s1 h4
    obtain ⟨hxy, c1, nK, g0, r1, e1, e2, e3, _, e5⟩ := emplace_true_inv _ g1 s.x y h3
    simp only at e1
    rw [hget] at e1
    cases e1
    obtain ⟨_, _, _, _, _, _, k7⟩ := raiseK_spec _ g0 nK e3
    simp only at k7
    have hg1K : g1.K = g0.K := by rw [e5]
    have hid : 0 < func.ideal s.x := by unfold func.ideal; omega
    obtain ⟨n1, _, n3, _⟩ := frac_new_toRat (c + y) (func.ideal s.x) hid nK e2
    have hnKden : 0 < nK.den := n3 (by omega)
    have hKden : 0 < s.g.K.den := ht.2.2.2.2.2.2.2.1
    unfold func.ideal at n1
    have hboth : s.g.K.toRat ≤ g0.K.toRat ∧ nK.toRat ≤ g0.K.toRat := by
      rcases k7 with ⟨a1, a2⟩ | ⟨a1, a2⟩
      · rw [a2]
        exact ⟨le_of_lt ((frac_gt_toRat nK s.g.K hnKden hKden).mp a1), le_refl _⟩
      · rw [a2]
        refine ⟨le_refl _, ?_⟩
        by_contra hcon
        push_neg at hcon
        have := (frac_gt_toRat nK s.g.K hnKden hKden).mpr hcon
        rw [a1] at this
        cases this
    refine ⟨by rw [f4, hg1K]; exact hboth.1, ?_, c, y, h1, hc, hget, h2, hxy, ?_, g1, h3, h4⟩
    · rcases f6 with ⟨_, a2⟩ | ⟨_, a2⟩
      · omega
      · omega
    · rw [f4, hg1K, ← n1]
      exact hboth.2

/-- A pass of the generation of `func(t2)` that leaves the achieved bound
below a smaller target `t1`, with `t2 * ideal(x) ≤ 2^31`, is also a pass of the
generation of `func(t1)`: `maxallowed(x)` returns the same value for both
targets. -/
theorem step_lockstep (F : Floating) (t1 : frac) (s s1 : GenState) (hinv : GenInv s)
    (hrun : s.status = Status.running) (hn2 : 0 ≤ s.g.MK.num) (hd2 : 0 < s.g.MK.den)
    (hn1 : 0 ≤ t1.num) (hd1 : 0 < t1.den) (hle : t1.toRat ≤ s.g.MK.toRat)
    (hrange : s.g.MK.toRat * ((2 * s.x + 1 : Int) : ℚ) ≤ 2147483648)
    (h : func.step F s = some s1) (hs1 : s1.status ≠ Status.failure)
    (hK1 : s1.g.K.toRat < t1.toRat) :
    func.step F (s.withMK t1) = some (s1.withMK t1) := by
  have hx : 0 ≤ s.x := hinv.1
  obtain ⟨_, _, c, y, h1, hc, hget, h2, hxy, hnK, g1, h3, h4⟩ :=
    step_K_mono F s s1 hinv hrun h hs1
  have hpos : (0 : ℚ) < ((2 * s.x + 1 : Int) : ℚ) := by exact_mod_cast (by omega : 0 < 2 * s.x + 1)
  -- the value for the target `t2`
  obtain ⟨q2, v2, a1, a2, a3, a4⟩ := maxallowed_spec F { s.g with cs := s.g.cs ++ [c] } hn2 hd2
    s.x c y hx hget 0 h2
  simp only at a4
  -- the value for the target `t1`
  obtain ⟨y1, hy1⟩ := maxallowed_isSome F { { s.g with cs := s.g.cs ++ [c] } with MK := t1 }
    hn1 hd1 s.x c hx hget 0
  obtain ⟨q1, v1, b1, b2, b3, b4⟩ := maxallowed_spec F
    { { s.g with cs := s.g.cs ++ [c] } with MK := t1 } hn1 hd1 s.x c y1 hx hget 0 hy1
  simp only at b4
  -- `y` is below the rational for `t1`
  have hyq1 : (y : ℚ) < q1.toRat := by
    have hlt := lt_of_le_of_lt hnK hK1
    rw [div_lt_iff₀ hpos] at hlt
    rw [b4]
    push_cast at hlt ⊢
    linarith
  have hge1 := frac_ceil_ge q1 (v1 + 1) b3 b1
  have hyv1 : y ≤ v1 := by
    have : (y : ℚ) < ((v1 + 1 : Int) : ℚ) := lt_of_lt_of_le hyq1 hge1
    have : y < v1 + 1 := by exact_mod_cast this
    omega
  have hlt1 := frac_ceil_pred_lt q1 (v1 + 1) b3 b1 (by omega)
  have hq12 : q1.toRat ≤ q2.toRat := by
    rw [a4, b4]
    have := mul_le_mul_of_nonneg_right hle (le_of_lt hpos)
    linarith
  have hge2 := frac_ceil_ge q2 (v2 + 1) a3 a1
  have hv12 : v1 ≤ v2 := by
    have : ((v1 + 1 - 1 : Int) : ℚ) < ((v2 + 1 : Int) : ℚ) :=
      lt_of_lt_of_le hlt1 (le_trans hq12 hge2)
    have : v1 + 1 - 1 < v2 + 1 := by exact_mod_cast this
    omega
  have hlt2 := frac_ceil_pred_lt q2 (v2 + 1) a3 a1 (by omega)
  have hv2 : v2 < 2147483648 := by
    have : ((v2 + 1 - 1 : Int) : ℚ) < 2147483648 := by
      rw [a4] at hlt2
      have hcq : (0 : ℚ) < (c : ℚ) := by exact_mod_cast hc
      linarith
    have : v2 + 1 - 1 < 2147483648 := by exact_mod_cast this
    omega
  rw [narrowInt_eq_self v2 (by omega) hv2] at a2
  rw [narrowInt_eq_self v1 (by omega) (by omega)] at b2
  have hyy : y1 = y := by omega
  rw [hyy] at hy1
  -- the pass for the target `t1`
  have e1 : func.nextconv (s.withMK t1).g (s.withMK t1).is = some c := h1
  have e2 : func.maxallowed F { (s.withMK t1).g with cs := (s.withMK t1).g.cs ++ [c] } 1
      (s.withMK t1).x = some y := hy1
  have e3 : func.emplace { (s.withMK t1).g with cs := (s.withMK t1).g.cs ++ [c] }
      (s.withMK t1).x y = some (true, { g1 with MK := t1 }) :=
    emplace_true_MK { s.g with cs := s.g.cs ++ [c] } g1 t1 s.x y h3
  have e4 : func.afterEmplace F { g1 with MK := t1 } (s.withMK t1).is (s.withMK t1).x y
      = some (s1.withMK t1) := by
    have := afterEmplace_MK F g1 t1 s.is s.x y
    rw [h4] at this
    exact this
  unfold func.step
  rw [e1]
  simp only [Option.some_bind]
  rw [e2]
  simp only [Option.some_bind]
  rw [e3]
  simp only [Option.some_bind, Bool.true_eq_false, if_false]
  exact e4

/-- A generation of `func(t2)` that ends with success and an achieved bound
below a smaller target `t1`, with `t2 * ideal(x) ≤ 2^31` at its last pass, is
pass by pass a generation of `func(t1)`. -/
theorem gen_lockstep (F : Floating) (t1 : frac) (hn1 : 0 ≤ t1.num) (hd1 : 0 < t1.den)
    (n : Nat) : ∀ (s sf : GenState), GenInv s → 0 ≤ s.g.MK.num → 0 < s.g.MK.den →
    t1.toRat ≤ s.g.MK.toRat → func.gen F n s = some sf → sf.status = Status.success →
    sf.g.K.toRat < t1.toRat →
    s.g.MK.toRat * ((2 * sf.x + 1 : Int) : ℚ) ≤ 2147483648 →
    func.gen F n (s.withMK t1) = some (sf.withMK t1) ∧ s.g.K.toRat ≤ sf.g.K.toRat ∧
      s.x ≤ sf.x := by
  induction n with
  | zero =>
    intro s sf _ _ _ _ h _ _ _
    simp only [func.gen, Option.some.injEq] at h
    subst h
    exact ⟨rfl, le_refl _, le_refl _⟩
  | succ n ih =>
    intro s sf hi hn2 hd2 hle h hsf hK hrange
    cases hs : s.status with
    | running =>
      simp only [func.gen, hs, Option.bind_eq_some] at h
      obtain ⟨s0, h1, h2⟩ := h
      obtain ⟨a1, a2⟩ := step_GenInv F s s0 hi hs h1
      have hs0 : s0.status ≠ Status.failure := by
        intro hf
        cases n with
        | zero =>
          simp only [func.gen, Option.some.injEq] at h2
          subst h2
          rw [hf] at hsf
          cases hsf
        | succ k =>
          simp only [func.gen, hf, Option.some.injEq] at h2
          subst h2
          rw [hf] at hsf
          cases hsf
      obtain ⟨b1, b2, b3⟩ := ih s0 sf a1 (by rw [a2]; exact hn2) (by rw [a2]; exact hd2)
        (by rw [a2]; exact hle) h2 hsf hK (by rw [a2]; exact hrange)
      obtain ⟨c1, c2, _⟩ := step_K_mono F s s0 hi hs h1 hs0
      have hMK0 : (0 : ℚ) ≤ s.g.MK.toRat := by
        unfold frac.toRat
        exact div_nonneg (by exact_mod_cast hn2) (by exact_mod_cast (le_of_lt hd2))
      have hr0 : s.g.MK.toRat * ((2 * s.x + 1 : Int) : ℚ) ≤ 2147483648 := by
        have hxx : ((2 * s.x + 1 : Int) : ℚ) ≤ ((2 * sf.x + 1 : Int) : ℚ) := by
          exact_mod_cast (by omega : 2 * s.x + 1 ≤ 2 * sf.x + 1)
        exact le_trans (mul_le_mul_of_nonneg_left hxx hMK0) hrange
      have hstep := step_lockstep F t1 s s0 hi hs hn2 hd2 hn1 hd1 hle hr0 h1 hs0
        (lt_of_le_of_lt b2 hK)
      refine ⟨?_, le_trans c1 b2, by omega⟩
      have hsw : (s.withMK t1).status = Status.running := hs
      simp only [func.gen, hsw]
      rw [hstep]
      exact b1
    | success =>
      simp only [func.gen, hs, Option.some.injEq] at h
      subst h
      have hsw : (s.withMK t1).status = Status.success := hs
      refine ⟨?_, le_refl _, le_refl _⟩
      simp only [func.gen, hsw]
    | failure =>
      simp only [func.gen, hs, Option.some.injEq] at h
      subst h
      rw [hs] at hsf
      cases hsf

/-- Once the generation has ended, more passes change nothing. -/
theorem gen_stable (F : Floating) (n : Nat) : ∀ (s sf : GenState),
    func.gen F n s = some sf → sf.status ≠ Status.running →
    ∀ k, func.gen F (n + k) s = some sf := by
  induction n with
  | zero =>
    intro s sf h hsf k
    simp only [func.gen, Option.some.injEq] at h
    subst h
    cases k with
    | zero => rfl
    | succ k =>
      cases hs : s.status with
      | running => exact absurd hs hsf
      | success => simp only [Nat.zero_add, func.gen, hs]
      | failure => simp only [Nat.zero_add, func.gen, hs]
  | succ n ih =>
    intro s sf h hsf k
    have e : n + 1 + k = (n + k) + 1 := by omega
    rw [e]
    cases hs : s.status with
    | running =>
      simp only [func.gen, hs, Option.bind_eq_some] at h ⊢
      obtain ⟨s0, h1, h2⟩ := h
      exact ⟨s0, h1, ih s0 sf h2 hsf k⟩
    | success =>
      simp only [func.gen, hs, Option.some.injEq] at h ⊢
      exact h
    | failure =>
      simp only [func.gen, hs, Option.some.injEq] at h ⊢
      exact h

/-- Two ended generations from the same state are the same. -/
theorem gen_ended_unique (F : Floating) (n m : Nat) (s a b : GenState)
    (ha : func.gen F n s = some a) (hb : func.gen F m s = some b)
    (hsa : a.status ≠ Status.running) (hsb : b.status ≠ Status.running) : a = b := by
  rcases Nat.le_total n m with hnm | hnm
  · have := gen_stable F n s a ha hsa (m - n)
    have e : n + (m - n) = m := by omega
    rw [e, hb] at this
    cases this
    rfl
  · have := gen_stable F m s b hb hsb (n - m)
    have e : m + (n - m) = n := by omega
    rw [e, ha] at this
    cases this
    rfl

/-- C15 as amended: for target bounds `1 < t1 <= t2` stored with positive
denominators, if the generation of `func(t1)` ends with success, then
(1) if the generation of `func(t2)` ends with success at a pass `x` with
`t2 * ideal(x) ≤ 2^31` (so that no value of `maxallowed` was narrowed), then
`func(t1).competitiveness() <= func(t2).competitiveness()`, by the operator of
`frac` and as rationals, and the two bounds are equal whenever
`func(t2).competitiveness() < t1` (the two generations are then the same pass
by pass); (2) if the generation of `func(t2)` ends with failure, then
`func(t1).competitiveness() < t1 <= t2 <= func(t2).competitiveness()`. -/
theorem func_competitiveness_monotone_on_success (F : Floating) (t1 t2 : frac)
    (hd1 : 0 < t1.den) (hn1 : t1.den < t1.num) (hd2 : 0 < t2.den) (hle : t1.le t2 = true)
    (n1 n2 : Nat) (k1 k2 : frac) (st2 : Status) (x2 : Int)
    (h1 : (func.gen F n1 (func.start t1)).map (fun s => (s.status, func.competitiveness s.g))
      = some (Status.success, k1))
    (h2 : (func.gen F n2 (func.start t2)).map
      (fun s => (s.status, s.x, func.competitiveness s.g)) = some (st2, x2, k2)) :
    (st2 = Status.success → t2.toRat * ((func.ideal x2 : Int) : ℚ) ≤ 2147483648 →
      k1.le k2 = true ∧ k1.toRat ≤ k2.toRat ∧ (k2.toRat < t1.toRat → k1 = k2)) ∧
    (st2 = Status.failure →
      k1.lt k2 = true ∧ k1.le k2 = true ∧ k1.toRat < t1.toRat ∧ t2.toRat ≤ k2.toRat) := by
  simp only [Option.map_eq_some', Prod.mk.injEq] at h1 h2
  obtain ⟨s1, g1, hs1, hk1⟩ := h1
  obtain ⟨s2, g2, hs2, hx2, hk2⟩ := h2
  simp only [func.competitiveness] at hk1 hk2
  have hle2 := (frac_le_toRat t1 t2 hd1 hd2).mp hle
  have ht1 : (1 : ℚ) < t1.toRat := by
    unfold frac.toRat
    have hd : (0 : ℚ) < t1.den := by exact_mod_cast hd1
    rw [lt_div_iff₀ hd]
    have : (t1.den : ℚ) < t1.num := by exact_mod_cast hn1
    simpa using this
  have hn2 : 0 < t2.num := by
    have hpos : (0 : ℚ) < t2.toRat := by linarith
    unfold frac.toRat at hpos
    have hd : (0 : ℚ) < t2.den := by exact_mod_cast hd2
    have := (div_pos_iff_of_pos_right hd).mp hpos
    exact_mod_cast this
  -- the successful generation of `func(t1)`
  have hlt := gen_start_bound_lt F t1 hd1 hn1 n1 s1 g1 (by rw [hs1]; decide)
  rw [hk1] at hlt
  obtain ⟨hinv1, _⟩ := gen_GenInv F n1 _ s1 (start_GenInv t1) g1
  obtain ⟨_, ⟨_, _, _, _, _, _, _, i8, _⟩, _⟩ := GenInv_table s1 hinv1
  rw [hk1] at i8
  -- the generation of `func(t2)`
  obtain ⟨hinv2, hMK2⟩ := gen_GenInv F n2 _ s2 (start_GenInv t2) g2
  simp only [func.start] at hMK2
  obtain ⟨_, ⟨_, _, _, _, _, _, _, j8, _⟩, _⟩ := GenInv_table s2 hinv2
  rw [hk2] at j8
  constructor
  · intro hst hrange
    rw [← hs2] at hst
    unfold func.ideal at hrange
    rw [← hx2] at hrange
    have hkey : k1.toRat ≤ k2.toRat ∧ (k2.toRat < t1.toRat → k1 = k2) := by
      by_cases hK : k2.toRat < t1.toRat
      · obtain ⟨e1, _, _⟩ := gen_lockstep F t1 (by omega) hd1 n2 (func.start t2) s2
          (start_GenInv t2) (by simp only [func.start]; omega)
          (by simp only [func.start]; exact hd2) (by simp only [func.start]; exact hle2) g2 hst
          (by rw [hk2]; exact hK) (by simp only [func.start]; exact hrange)
        have e2 : func.gen F n2 (func.start t1) = some (s2.withMK t1) := e1
        have e3 := gen_ended_unique F n1 n2 (func.start t1) s1 (s2.withMK t1) g1 e2
          (by rw [hs1]; decide)
          (by
            have : (s2.withMK t1).status = s2.status := rfl
            rw [this, hst]
            decide)
        have e4 : k1 = k2 := by
          rw [← hk1, ← hk2, e3]
          rfl
        exact ⟨by rw [e4], fun _ => e4⟩
      · push_neg at hK
        exact ⟨le_of_lt (lt_of_lt_of_le hlt hK), fun h => absurd h (not_lt.mpr hK)⟩
    exact ⟨(frac_le_toRat k1 k2 i8 j8).mpr hkey.1, hkey.1, hkey.2⟩
  · intro hst
    rw [← hs2] at hst
    have hge := gen_failure_ge F n2 (func.start t2) s2 (by intro hc; cases hc) g2 hst
    rw [hMK2, hk2] at hge
    have hge2 := (frac_ge_toRat k2 t2 j8 hd2).mp hge
    have hfin : k1.toRat < k2.toRat := lt_of_lt_of_le hlt (le_trans hle2 hge2)
    exact ⟨(frac_lt_toRat k1 k2 i8 j8).mpr hfin,
      (frac_le_toRat k1 k2 i8 j8).mpr (le_of_lt hfin), hlt, hge2⟩

/-- C15 as amended, at concrete runs, with the stopping test read in exact
arithmetic: `func(frac(11,4))` ends with success at `x = 12` with `63/23`, and
`func(frac(3,1))` ends with success at `x = 9` with `56/19`. -/
theorem func_competitiveness_monotone_on_success_witness :
    (0 : Int) < (frac.mk 11 4).den ∧ (frac.mk 11 4).den < (frac.mk 11 4).num ∧
    (0 : Int) < (frac.mk 3 1).den ∧ (frac.mk 11 4).le ⟨3, 1⟩ = true ∧
    (func.gen Floating.exact 13 (func.start ⟨11, 4⟩)).map
      (fun s => (s.status, func.competitiveness s.g)) = some (Status.success, ⟨63, 23⟩) ∧
    (func.gen Floating.exact 10 (func.start ⟨3, 1⟩)).map
      (fun s => (s.status, s.x, func.competitiveness s.g))
      = some (Status.success, 9, ⟨56, 19⟩) ∧
    (frac.mk 3 1).toRat * ((func.ideal 9 : Int) : ℚ) ≤ 2147483648 ∧
    (frac.mk 63 23).le ⟨56, 19⟩ = true ∧ (frac.mk 63 23).toRat ≤ (frac.mk 56 19).toRat ∧
    ((frac.mk 56 19).toRat < (frac.mk 11 4).toRat → (frac.mk 63 23) = ⟨56, 19⟩) :=
  ⟨by decide, by decide, by decide, by decide, by decide!, by decide!,
    by simp only [func.ideal, frac.toRat]; norm_num,
    (func_competitiveness_monotone_on_success Floating.exact ⟨11, 4⟩ ⟨3, 1⟩ (by decide)
      (by decide) (by decide) (by decide) 13 10 ⟨63, 23⟩ ⟨56, 19⟩ Status.success 9
      (by decide!) (by decide!)).1 rfl (by simp only [func.ideal, frac.toRat]; norm_num)⟩
